import Mathlib

/-!
Verification of the halfedge-mesh core of the `computer-graphics-assignment-2`
repository (files `halfedge_mesh.py`, `mesh_loader.py`, `mesh_operations.py`).

The Python object graph is embedded shallowly: every mesh element lives in one
of the four flat collections of a `HalfedgeMesh`, and the Python object
references (`h.next`, `h.twin`, `v.halfedge`, ...) become `Option Nat` indices
into those collections.  Vertex positions are exact rationals (`Vec3`),
standing for the float triples of the source.  Python dictionaries become
insertion-ordered association lists, matching CPython's ordered-dict
semantics.  Loops that mutate objects become folds that rebuild the
collections with `List.set`.
-/

/-- 3D position; each component models one float coordinate. -/
structure Vec3 where
  x : Rat
  y : Rat
  z : Rat
deriving DecidableEq, Repr

instance : Inhabited Vec3 := ⟨⟨0, 0, 0⟩⟩

def vecAdd (a b : Vec3) : Vec3 := ⟨a.x + b.x, a.y + b.y, a.z + b.z⟩

def vecSub (a b : Vec3) : Vec3 := ⟨a.x - b.x, a.y - b.y, a.z - b.z⟩

def vecScale (c : Rat) (a : Vec3) : Vec3 := ⟨c * a.x, c * a.y, c * a.z⟩

def vecSum (l : List Vec3) : Vec3 := l.foldl vecAdd ⟨0, 0, 0⟩

/-- `Vertex` of `halfedge_mesh.py`: position, optional outgoing halfedge,
lazy-deletion flag. -/
structure Vertex where
  position : Vec3
  halfedge : Option Nat
  deleted : Bool
deriving DecidableEq, Repr

instance : Inhabited Vertex := ⟨⟨default, none, false⟩⟩

/-- `Edge` of `halfedge_mesh.py`. -/
structure Edge where
  halfedge : Option Nat
  deleted : Bool
deriving DecidableEq, Repr

/-- `Face` of `halfedge_mesh.py`. -/
structure Face where
  halfedge : Option Nat
  is_boundary : Bool
  deleted : Bool
deriving DecidableEq, Repr

instance : Inhabited Face := ⟨⟨none, false, false⟩⟩

/-- `Halfedge` of `halfedge_mesh.py`; `vertex` is the *target* vertex. -/
structure Halfedge where
  next : Option Nat
  twin : Option Nat
  vertex : Option Nat
  edge : Option Nat
  face : Option Nat
deriving DecidableEq, Repr

instance : Inhabited Halfedge := ⟨⟨none, none, none, none, none⟩⟩

/-- `HalfedgeMesh` of `halfedge_mesh.py`: the four element collections plus
the `boundary_faces` list (face indices). -/
structure HalfedgeMesh where
  vertices : List Vertex
  edges : List Edge
  faces : List Face
  halfedges : List Halfedge
  boundary_faces : List Nat
deriving DecidableEq, Repr

/-- A mesh as produced by `HalfedgeMesh()` followed by `add_vertex` calls only:
the state every generator and loader hands to the Connectivity Builder. -/
def initMesh (vs : List Vertex) : HalfedgeMesh := ⟨vs, [], [], [], []⟩

/-- Projection: the `next` index of halfedge `i`, `none` when unset/absent. -/
def heNext (m : HalfedgeMesh) (i : Nat) : Option Nat :=
  m.halfedges[i]?.bind (fun he => he.next)

def heTwin (m : HalfedgeMesh) (i : Nat) : Option Nat :=
  m.halfedges[i]?.bind (fun he => he.twin)

def heVertex (m : HalfedgeMesh) (i : Nat) : Option Nat :=
  m.halfedges[i]?.bind (fun he => he.vertex)

def heEdge (m : HalfedgeMesh) (i : Nat) : Option Nat :=
  m.halfedges[i]?.bind (fun he => he.edge)

def heFace (m : HalfedgeMesh) (i : Nat) : Option Nat :=
  m.halfedges[i]?.bind (fun he => he.face)

/-- Update halfedge `i` in place (models a Python attribute assignment on the
halfedge object; out-of-range indices cannot occur in the source and leave the
mesh unchanged). -/
def modifyHE (m : HalfedgeMesh) (i : Nat) (f : Halfedge → Halfedge) : HalfedgeMesh :=
  match m.halfedges[i]? with
  | some he => { m with halfedges := m.halfedges.set i (f he) }
  | none => m

/-- `v.position` lookup; the junk default is unreachable in meshes the source
builds, where every stored index is in range. -/
def vertexPos (m : HalfedgeMesh) (i : Nat) : Vec3 :=
  (m.vertices[i]?.map (fun v => v.position)).getD default

/-! ### The Connectivity Builder (`MeshLoader._build_halfedge_connectivity`) -/

/-- The `edge_halfedges` dictionary: unordered endpoint-pair key to the list of
halfedge indices seen for that key, in insertion order. -/
abbrev EdgeMap := List ((Nat × Nat) × List Nat)

/-- `(min(id(v1), id(v2)), max(id(v1), id(v2)))` with vertex indices as ids. -/
def edgeKey (a b : Nat) : Nat × Nat := (min a b, max a b)

def emLookup : EdgeMap → (Nat × Nat) → Option (List Nat)
  | [], _ => none
  | (k, l) :: rest, key => if k = key then some l else emLookup rest key

/-- `edge_halfedges[edge_key].append(h)`. -/
def emAppend : EdgeMap → (Nat × Nat) → Nat → EdgeMap
  | [], _, _ => []
  | (k, l) :: rest, key, h =>
    if k = key then (k, l ++ [h]) :: rest else (k, l) :: emAppend rest key h

structure BuildState where
  mesh : HalfedgeMesh
  edgeMap : EdgeMap

/-- `h.vertex = v_next; h.next = ...; h.face = f` (the three assignments at
the top of a connectivity-loop iteration). -/
def setNVF (v nx f : Nat) (he : Halfedge) : Halfedge :=
  { he with vertex := some v, next := some nx, face := some f }

def setTwin (t : Nat) (he : Halfedge) : Halfedge := { he with twin := some t }

def setEdgeO (e : Option Nat) (he : Halfedge) : Halfedge := { he with edge := e }

def setVertexO (v : Option Nat) (he : Halfedge) : Halfedge := { he with vertex := v }

def setNextSelf (nx : Nat) (he : Halfedge) : Halfedge := { he with next := some nx }

def setFace (f : Nat) (he : Halfedge) : Halfedge := { he with face := some f }

/-- `if not v_curr.halfedge: v_curr.halfedge = h` at the end of a
connectivity-loop iteration of `_build_halfedge_connectivity`. -/
def touchVertexHalfedge (m : HalfedgeMesh) (vc h : Nat) : HalfedgeMesh :=
  match m.vertices[vc]? with
  | some v => if v.halfedge = none
      then { m with vertices := m.vertices.set vc { v with halfedge := some h } }
      else m
  | none => m

/-- One iteration `i` of the connectivity loop of
`_build_halfedge_connectivity`: sets `vertex`/`next`/`face` of halfedge
`base + i`, creates or joins the edge for its key (wiring twins), and gives
`v_curr` its outgoing halfedge if it has none yet. -/
def connStep (fv : List Nat) (fIdx base n : Nat) (st : BuildState) (i : Nat) : BuildState :=
  let vCurr := fv.getD i 0
  let vNext := fv.getD ((i + 1) % n) 0
  let h := base + i
  let m1 := modifyHE st.mesh h (setNVF vNext (base + (i + 1) % n) fIdx)
  let k := edgeKey vCurr vNext
  let stepEdge :=
    match emLookup st.edgeMap k with
    | none =>
      let eIdx := m1.edges.length
      let m2 := { m1 with edges := m1.edges ++ [({ halfedge := some h, deleted := false } : Edge)] }
      (modifyHE m2 h (setEdgeO (some eIdx)), st.edgeMap ++ [(k, [h])])
    | some l =>
      match l with
      | [] => (m1, st.edgeMap)  -- unreachable: the dictionary never stores an empty list
      | other :: _ =>
        let m2 := modifyHE m1 h (setTwin other)
        let m3 := modifyHE m2 other (setTwin h)
        (modifyHE m3 h (setEdgeO (heEdge m3 other)), emAppend st.edgeMap k h)
  ⟨touchVertexHalfedge stepEdge.1 vCurr h, stepEdge.2⟩

/-- Processing of one input face: skip faces with fewer than 3 vertices,
allocate the `Face` and its `n` halfedges, run the connectivity loop, and set
the face's incident halfedge to the first created one.  (The source's final
"verify all next pointers" loop only re-assigns `next` when it is unset, which
never happens, so it has no effect.) -/
def processFace (st : BuildState) (fv : List Nat) : BuildState :=
  if fv.length < 3 then st else
  let fIdx := st.mesh.faces.length
  let m1 := { st.mesh with faces := st.mesh.faces ++ [({ halfedge := none, is_boundary := false, deleted := false } : Face)] }
  let n := fv.length
  let base := m1.halfedges.length
  let m2 := { m1 with halfedges := m1.halfedges ++ List.replicate n default }
  let st2 := (List.range n).foldl (connStep fv fIdx base n) ⟨m2, st.edgeMap⟩
  let m3 :=
    match st2.mesh.faces[fIdx]? with
    | some f => { st2.mesh with faces := st2.mesh.faces.set fIdx { f with halfedge := some base } }
    | none => st2.mesh
  ⟨m3, st2.edgeMap⟩

/-- The previous-halfedge search: `prev_h = h; while prev_h.next != h and
iterations < 1000: prev_h = prev_h.next; iterations += 1`, with
`fuel + iter = 1000` throughout; the run ends with the same `(prev, iters)`
pair the source's loop ends with.  A `none` `next` would raise in the source;
it never occurs on meshes this code builds. -/
def findPrevAux (m : HalfedgeMesh) (h : Nat) : Nat → Nat → Nat → Nat × Nat
  | 0, cur, iter => (cur, iter)
  | fuel + 1, cur, iter =>
    match heNext m cur with
    | some nx => if nx = h then (cur, iter) else findPrevAux m h fuel nx (iter + 1)
    | none => (cur, iter)

/-- Stage 1 of boundary synthesis: `h_boundary = mesh.add_halfedge();
h_boundary.twin = h; h.twin = h_boundary`. -/
def bsTwins (m : HalfedgeMesh) (hb h : Nat) : HalfedgeMesh :=
  modifyHE (modifyHE { m with halfedges := m.halfedges ++ [default] } hb (setTwin h)) h
    (setTwin hb)

/-- The vertex assigned to the boundary halfedge: `prev_h.vertex` when the
previous-halfedge walk ends below the cap, else the fallback `h.vertex`. -/
def bsSrcV (m3 : HalfedgeMesh) (h : Nat) : Option Nat :=
  if 1000 ≤ (findPrevAux m3 h 1000 h 0).2 then heVertex m3 h
  else heVertex m3 (findPrevAux m3 h 1000 h 0).1

/-- Stage 2: assign `vertex`, `edge` and the self-loop `next` of the boundary
halfedge. -/
def bsFields (m3 : HalfedgeMesh) (hb h : Nat) : HalfedgeMesh :=
  let m4 := modifyHE m3 hb (setVertexO (bsSrcV m3 h))
  let m5 := modifyHE m4 hb (setEdgeO (heEdge m4 h))
  modifyHE m5 hb (setNextSelf hb)

/-- Stage 3: create the boundary `Face`, point the boundary halfedge at it and
record it in `boundary_faces` (its own `halfedge` field is never assigned). -/
def bsFace (m6 : HalfedgeMesh) (hb : Nat) : HalfedgeMesh :=
  let fb := m6.faces.length
  let m7 := { m6 with faces := m6.faces ++
    [({ halfedge := none, is_boundary := true, deleted := false } : Face)] }
  let m8 := modifyHE m7 hb (setFace fb)
  { m8 with boundary_faces := m8.boundary_faces ++ [fb] }

/-- Synthesis of one boundary halfedge for a lone halfedge `h`. -/
def boundarySynth (m : HalfedgeMesh) (h : Nat) : HalfedgeMesh :=
  bsFace (bsFields (bsTwins m m.halfedges.length h) m.halfedges.length h) m.halfedges.length

/-- Synthesis of the boundary halfedge for one `edge_halfedges` entry holding a
lone halfedge; entries with two or more halfedges are left alone. -/
def boundaryStep (m : HalfedgeMesh) (entry : (Nat × Nat) × List Nat) : HalfedgeMesh :=
  match entry.2 with
  | [h] => boundarySynth m h
  | _ => m

/-- `MeshLoader._build_halfedge_connectivity(mesh, faces)`: the face loop
followed by the boundary-edge loop over the `edge_halfedges` dictionary in
insertion order. -/
def buildHalfedgeConnectivity (m : HalfedgeMesh) (faces : List (List Nat)) : HalfedgeMesh :=
  let st := faces.foldl processFace ⟨m, []⟩
  st.edgeMap.foldl boundaryStep st.mesh

/-! ### Geometric queries (`halfedge_mesh.py`) -/

/-- One step `h = h.twin.next` of the vertex-orbit walk used by
`Vertex.degree`; `none` models the `AttributeError` the source raises when
`twin` is missing (or a dangling reference). -/
def vdStep (m : HalfedgeMesh) (h : Nat) : Option Nat :=
  (heTwin m h).bind (fun t => heNext m t)

/-- The halfedge reached after `k` orbit steps from `h`; `Vertex.degree`'s
`while True` loop visits exactly this sequence and stops only when it
re-reaches `h`. -/
def degOrbit (m : HalfedgeMesh) (h : Nat) : Nat → Option Nat
  | 0 => some h
  | k + 1 => (degOrbit m h k).bind (vdStep m)

/-- `Vertex.degree`'s loop body with fuel: `none` models both the missing-twin
crash and fuel exhaustion (the source would loop forever, since its only exit
is equality with the start halfedge). -/
def degreeAux (m : HalfedgeMesh) (start : Nat) : Nat → Nat → Nat → Option Nat
  | 0, _, _ => none
  | fuel + 1, h, count =>
    match vdStep m h with
    | none => none
    | some h2 => if h2 = start then some (count + 1) else degreeAux m start fuel h2 (count + 1)

/-- `Vertex.degree`. -/
def vertexDegree (m : HalfedgeMesh) (v : Vertex) : Option Nat :=
  match v.halfedge with
  | none => some 0
  | some h => degreeAux m h (m.halfedges.length + 1) h 0

/-- `Vertex.neighbors`' loop with fuel.  The source appends `h.vertex`, breaks
on a missing halfedge/vertex or missing twin, steps to `h.twin.next`, and
breaks when back at the start or at `None`; on connectivity whose orbit never
returns to the start it would loop forever, which fuel exhaustion truncates. -/
def neighborsAux (m : HalfedgeMesh) (start : Nat) : Nat → Option Nat → List Nat → List Nat
  | 0, _, acc => acc.reverse
  | fuel + 1, cur, acc =>
    match cur with
    | none => acc.reverse
    | some c =>
      match heVertex m c with
      | none => acc.reverse
      | some v =>
        match heTwin m c with
        | none => (v :: acc).reverse
        | some t =>
          let nxt := heNext m t
          if nxt = some start then (v :: acc).reverse
          else neighborsAux m start fuel nxt (v :: acc)

/-- `Vertex.neighbors` (vertex indices). -/
def vertexNeighbors (m : HalfedgeMesh) (v : Vertex) : List Nat :=
  match v.halfedge with
  | none => []
  | some h => neighborsAux m h (m.halfedges.length + 1) (some h) []

/-- `Face.vertices`' loop with fuel: append `h.vertex`, step `h = h.next`,
stop when back at the start; breaks on a missing halfedge or vertex.  On a
`next` cycle that avoids the start the source loops forever; fuel truncates. -/
def faceVerticesAux (m : HalfedgeMesh) (start : Nat) : Nat → Option Nat → List Nat → List Nat
  | 0, _, acc => acc.reverse
  | fuel + 1, cur, acc =>
    match cur with
    | none => acc.reverse
    | some c =>
      match heVertex m c with
      | none => acc.reverse
      | some v =>
        let nxt := heNext m c
        if nxt = some start then (v :: acc).reverse
        else faceVerticesAux m start fuel nxt (v :: acc)

/-- `Face.vertices` (vertex indices). -/
def faceVertices (m : HalfedgeMesh) (f : Face) : List Nat :=
  match f.halfedge with
  | none => []
  | some h => faceVerticesAux m h (m.halfedges.length + 1) (some h) []

/-- `Face.is_triangle`. -/
def faceIsTriangle (m : HalfedgeMesh) (f : Face) : Bool :=
  (faceVertices m f).length = 3

/-- `Face.is_quad`. -/
def faceIsQuad (m : HalfedgeMesh) (f : Face) : Bool :=
  (faceVertices m f).length = 4

def cross3 (a b : Vec3) : Vec3 :=
  ⟨a.y * b.z - a.z * b.y, a.z * b.x - a.x * b.z, a.x * b.y - a.y * b.x⟩

/-- Euclidean norm of a `Vec3`, as the real number the float code
approximates. -/
noncomputable def norm3 (a : Vec3) : Real :=
  Real.sqrt ((a.x * a.x + a.y * a.y + a.z * a.z : Rat))

/-- `Face.area`: 0.0 for fewer than 3 vertices, else the fan-triangulation sum
of `0.5 * |cross(vi - v0, vi+1 - v0)|`.  The square roots force a `Real`
result; everything up to them is exact. -/
noncomputable def faceArea (m : HalfedgeMesh) (f : Face) : Real :=
  let verts := (faceVertices m f).map (vertexPos m)
  if verts.length < 3 then 0
  else
    (List.range (verts.length - 2)).foldl
      (fun acc i =>
        let v0 := verts.getD 0 default
        let vi := verts.getD (i + 1) default
        let vj := verts.getD (i + 2) default
        acc + (1 / 2 : Real) * norm3 (cross3 (vecSub vi v0) (vecSub vj v0))) 0

def vecMin (a b : Vec3) : Vec3 := ⟨min a.x b.x, min a.y b.y, min a.z b.z⟩

def vecMax (a b : Vec3) : Vec3 := ⟨max a.x b.x, max a.y b.y, max a.z b.z⟩

/-- Componentwise `np.min`/`np.max` over a position array; the zero box when
it is empty. -/
def bboxOf (ps : List Vec3) : Vec3 × Vec3 :=
  match ps with
  | [] => (⟨0, 0, 0⟩, ⟨0, 0, 0⟩)
  | p :: rest => (rest.foldl vecMin p, rest.foldl vecMax p)

/-- `HalfedgeMesh.bbox`: the componentwise extremes of the positions of *all*
vertices in the collection (the source applies no `deleted` filter). -/
def bbox (m : HalfedgeMesh) : Vec3 × Vec3 := bboxOf (m.vertices.map (fun v => v.position))

/-- Componentwise `np.mean` over a position array; zero when it is empty. -/
def centerOf (ps : List Vec3) : Vec3 :=
  match ps with
  | [] => ⟨0, 0, 0⟩
  | ps => vecScale (1 / (ps.length : Rat)) (vecSum ps)

/-- `HalfedgeMesh.center`: the componentwise mean over the positions of *all*
vertices. -/
def meshCenter (m : HalfedgeMesh) : Vec3 := centerOf (m.vertices.map (fun v => v.position))

/-! ### Mesh operators (`mesh_operations.py`) -/

/-- `MeshOperations.triangulate`: scan all faces, fan-split every non-deleted
non-boundary face with more than 3 vertices, and — only when at least one face
was split — mark the split faces deleted and hand the new triangles to the
Connectivity Builder (no collection is cleared).  Returns the split count and
the mesh. -/
def triangulate (m : HalfedgeMesh) : Nat × HalfedgeMesh :=
  let scan := m.faces.enum.foldl
    (fun (acc : List (List Nat) × List Nat × Nat) p =>
      if p.2.deleted || p.2.is_boundary then acc
      else
        let verts := faceVertices m p.2
        let n := verts.length
        if 3 < n then
          let tris := (List.range (n - 2)).map (fun i =>
            [verts.getD 0 0, verts.getD (i + 1) 0, verts.getD (i + 2) 0])
          (acc.1 ++ tris, acc.2.1 ++ [p.1], acc.2.2 + 1)
        else acc)
    ([], [], 0)
  if scan.2.2 = 0 then (0, m)
  else
    let marked := { m with faces := m.faces.enum.map (fun p =>
      if p.1 ∈ scan.2.1 then { p.2 with deleted := true } else p.2) }
    (scan.2.2, buildHalfedgeConnectivity marked scan.1)

/-- The `position_to_vertex` dictionary of `subdivide_linear`: exact position
(the float tuple) to the stored position object. -/
abbrev PosMap := List (Vec3 × Vec3)

def pmLookup : PosMap → Vec3 → Option Vec3
  | [], _ => none
  | (k, v) :: rest, p => if k = p then some v else pmLookup rest p

/-- `get_or_create_vertex`: return the stored position for this exact key, or
record the key (no rounding of any kind is applied). -/
def getOrCreate (st : PosMap) (p : Vec3) : PosMap × Vec3 :=
  match pmLookup st p with
  | some v => (st, v)
  | none => (st ++ [(p, p)], p)

/-- `subdivide_linear`'s first loop: the position lists of all non-deleted,
non-boundary faces with at least 3 vertices. -/
def linearFaceData (m : HalfedgeMesh) : List (List Vec3) :=
  m.faces.foldl (fun acc f =>
    if f.deleted || f.is_boundary then acc
    else
      let verts := faceVertices m f
      if verts.length < 3 then acc
      else acc ++ [verts.map (vertexPos m)]) []

/-- Per-face body of `subdivide_linear`: centroid, edge midpoints (in loop
order), then one `[corner, mid_next, centroid, mid_prev]` sub-face per corner,
threading the dedup dictionary in the source's evaluation order. -/
def linearSubface (acc : PosMap × List (List Vec3)) (vpos : List Vec3) :
    PosMap × List (List Vec3) :=
  let n := vpos.length
  let center := vecScale (1 / (n : Rat)) (vecSum vpos)
  let c1 := getOrCreate acc.1 center
  let stMids := (List.range n).foldl
    (fun (s : PosMap × List Vec3) i =>
      let mid := vecScale (1 / 2)
        (vecAdd (vpos.getD i default) (vpos.getD ((i + 1) % n) default))
      let g := getOrCreate s.1 mid
      (g.1, s.2 ++ [g.2])) (c1.1, [])
  let final := (List.range n).foldl
    (fun (s : PosMap × List (List Vec3)) i =>
      let g := getOrCreate s.1 (vpos.getD i default)
      (g.1, s.2 ++ [[g.2, stMids.2.getD i default, c1.2,
        stMids.2.getD ((i + n - 1) % n) default]]))
    (stMids.1, acc.2)
  final

def posIndex : List Vec3 → Vec3 → Option Nat
  | [], _ => none
  | k :: rest, p => if k = p then some 0 else (posIndex rest p).map (fun i => i + 1)

/-- `MeshOperations.subdivide_linear`.  `none` stands for an uncaught
`KeyError`, which cannot occur because every emitted position was recorded in
the dictionary. -/
def subdivide_linear (m : HalfedgeMesh) : Option (Bool × HalfedgeMesh) :=
  let ofd := linearFaceData m
  if ofd.length = 0 then some (false, m)
  else
    let res := ofd.foldl linearSubface ([], [])
    let keys := res.1.map Prod.fst
    let cleared : HalfedgeMesh := ⟨res.1.map (fun p => ⟨p.2, none, false⟩), [], [], [], []⟩
    match res.2.mapM (fun fp => fp.mapM (posIndex keys)) with
    | none => none
    | some fs => some (true, buildHalfedgeConnectivity cleared fs)

/-- Lexicographic `tuple(position)` comparison used by Python's `sorted` on a
two-element list of float triples. -/
def vecLe (a b : Vec3) : Bool :=
  if a.x < b.x then true else if b.x < a.x then false
  else if a.y < b.y then true else if b.y < a.y then false
  else decide (a.z ≤ b.z)

/-- `tuple(sorted([tuple(v1), tuple(v2)]))`. -/
def sortPair (a b : Vec3) : Vec3 × Vec3 := if vecLe a b then (a, b) else (b, a)

/-- `edge_map` of `subdivide_loop`: sorted endpoint-position pair to
`(v1, v2, opposites, face count)`. -/
abbrev LoopEM := List ((Vec3 × Vec3) × (Vec3 × Vec3 × List Vec3 × Nat))

def lemLookup : LoopEM → (Vec3 × Vec3) → Option (Vec3 × Vec3 × List Vec3 × Nat)
  | [], _ => none
  | (k, v) :: rest, key => if k = key then some v else lemLookup rest key

def lemModify : LoopEM → (Vec3 × Vec3) →
    ((Vec3 × Vec3 × List Vec3 × Nat) → (Vec3 × Vec3 × List Vec3 × Nat)) → LoopEM
  | [], _, _ => []
  | (k, v) :: rest, key, f =>
    if k = key then (k, f v) :: rest else (k, v) :: lemModify rest key f

/-- One `(v1, v2, v_opp)` step of `subdivide_loop`'s adjacency loop. -/
def loopEmStep (em : LoopEM) (v1 v2 vopp : Vec3) : LoopEM :=
  let key := sortPair v1 v2
  let em1 :=
    match lemLookup em key with
    | some _ => em
    | none => em ++ [(key, (v1, v2, [], 0))]
  lemModify em1 key (fun e => (e.1, e.2.1, e.2.2.1 ++ [vopp], e.2.2.2 + 1))

/-- A value dictionary with Python `d[k] = v` semantics: replace in place or
append. -/
def dictInsert (d : List ((Vec3 × Vec3) × Nat)) (k : Vec3 × Vec3) (v : Nat) :
    List ((Vec3 × Vec3) × Nat) :=
  match d with
  | [] => [(k, v)]
  | (k', v') :: rest => if k' = k then (k, v) :: rest else (k', v') :: dictInsert rest k v

def dictLookup : List ((Vec3 × Vec3) × Nat) → (Vec3 × Vec3) → Option Nat
  | [], _ => none
  | (k', v) :: rest, k => if k' = k then some v else dictLookup rest k

def vdictInsert (d : List (Vec3 × Nat)) (k : Vec3) (v : Nat) : List (Vec3 × Nat) :=
  match d with
  | [] => [(k, v)]
  | (k', v') :: rest => if k' = k then (k, v) :: rest else (k', v') :: vdictInsert rest k v

def vdictLookup : List (Vec3 × Nat) → Vec3 → Option Nat
  | [], _ => none
  | (k', v) :: rest, k => if k' = k then some v else vdictLookup rest k

/-- `MeshOperations.subdivide_loop`.  Validation first: any non-deleted,
non-boundary face whose vertex loop is not of length 3 aborts with `False`
before anything is touched.  `none` models an uncaught exception or a
traversal that never terminates (`Vertex.degree` has no iteration cap). -/
def subdivide_loop (m : HalfedgeMesh) : Option (Bool × HalfedgeMesh) :=
  if m.faces.any (fun f =>
      !f.deleted && !f.is_boundary && decide ((faceVertices m f).length ≠ 3)) then
    some (false, m)
  else
  let ofd : List (List Vec3) := m.faces.foldl (fun acc f =>
    if f.deleted || f.is_boundary then acc
    else acc ++ [(faceVertices m f).map (vertexPos m)]) []
  if ofd.length = 0 then some (false, m)
  else
  let ovdOpt := m.vertices.foldl
    (fun (acc : Option (List (Vec3 × List Vec3 × Nat))) v =>
      match acc with
      | none => none
      | some l =>
        if v.deleted then some l
        else
          match vertexDegree m v with
          | none => none
          | some d => some (l ++ [(v.position, (vertexNeighbors m v).map (vertexPos m), d)]))
    (some [])
  match ovdOpt with
  | none => none
  | some ovd =>
    let em := ofd.foldl (fun em verts =>
      (List.range 3).foldl (fun em i =>
        loopEmStep em (verts.getD i default) (verts.getD ((i + 1) % 3) default)
          (verts.getD ((i + 2) % 3) default)) em) []
    let evp : List ((Vec3 × Vec3) × Vec3) := em.map (fun e =>
      let v1 := e.2.1
      let v2 := e.2.2.1
      let ops := e.2.2.2.1
      if e.2.2.2.2 = 2 then
        (e.1, vecAdd (vecScale (3 / 8) (vecAdd v1 v2))
          (vecScale (1 / 8) (vecAdd (ops.getD 0 default) (ops.getD 1 default))))
      else
        (e.1, vecScale (1 / 2) (vecAdd v1 v2)))
    let nvp : List Vec3 := ovd.map (fun d =>
      let n := d.2.2
      if n = 0 then d.1
      else
        let beta : Rat := if n = 3 then 3 / 16 else 3 / (8 * (n : Rat))
        vecAdd (vecScale (1 - (n : Rat) * beta) d.1) (vecScale beta (vecSum d.2.1)))
    let ovm := (List.range ovd.length).foldl (fun acc i =>
      vdictInsert acc (ovd.getD i default).1 i) []
    let evm := (List.range evp.length).foldl (fun acc j =>
      dictInsert acc (evp.getD j default).1 (ovd.length + j)) []
    let newFacesOpt := ofd.mapM (fun verts =>
      match (verts.mapM (fun v => vdictLookup ovm v)) with
      | none => none
      | some corners =>
        match (List.range 3).mapM (fun i =>
            dictLookup evm (sortPair (verts.getD i default) (verts.getD ((i + 1) % 3) default))) with
        | none => none
        | some edgeVs =>
          some [[corners.getD 0 0, edgeVs.getD 0 0, edgeVs.getD 2 0],
                [corners.getD 1 0, edgeVs.getD 1 0, edgeVs.getD 0 0],
                [corners.getD 2 0, edgeVs.getD 2 0, edgeVs.getD 1 0],
                [edgeVs.getD 0 0, edgeVs.getD 1 0, edgeVs.getD 2 0]])
    match newFacesOpt with
    | none => none
    | some nf =>
      let cleared : HalfedgeMesh :=
        ⟨nvp.map (fun p => ⟨p, none, false⟩) ++ evp.map (fun e => ⟨e.2, none, false⟩),
         [], [], [], []⟩
      some (true, buildHalfedgeConnectivity cleared nf.flatten)

/-- The exception value `raise NotImplementedError(...)` produces. -/
inductive PyError where
  | notImplementedError : PyError
deriving DecidableEq, Repr

/-- `MeshOperations.subdivide_catmull_clark` as it stands in the source: the
body is a single unconditional `raise NotImplementedError`; no mesh is ever
read or written and no boolean is ever returned. -/
def subdivide_catmull_clark (_m : HalfedgeMesh) : Except PyError (Bool × HalfedgeMesh) :=
  Except.error PyError.notImplementedError


/-! ### Toolkit: `modifyHE` characterization -/

/-- The fields of a halfedge other than `twin`; `connStep` only ever rewires
`twin` on halfedges other than the one it is currently processing. -/
def stableOf (he : Halfedge) : Option Nat × Option Nat × Option Nat × Option Nat :=
  (he.next, he.vertex, he.edge, he.face)

/-- A single quad built by the Connectivity Builder (smallest non-triangular
mesh). -/
def quadMesh : HalfedgeMesh :=
  buildHalfedgeConnectivity (initMesh (List.replicate 4 default)) [[0, 1, 2, 3]]

/-- A single triangle built by the Connectivity Builder. -/
def triMesh : HalfedgeMesh :=
  buildHalfedgeConnectivity (initMesh (List.replicate 3 default)) [[0, 1, 2]]

/-- Three triangles sharing the edge `{0, 1}`: a non-manifold face list whose
faces all have 3 vertices. -/
def nonManifoldMesh : HalfedgeMesh :=
  buildHalfedgeConnectivity (initMesh (List.replicate 5 default)) [[0, 1, 2], [1, 0, 3], [0, 1, 4]]

/-- A mesh with one live vertex at the origin and one `deleted` vertex far
away. -/
def deletedVertexMesh : HalfedgeMesh :=
  ⟨[⟨⟨0, 0, 0⟩, none, false⟩, ⟨⟨5, 5, 5⟩, none, true⟩], [], [], [], []⟩

/-- A corrupted mesh on which the `h = h.twin.next` orbit of `Vertex.degree`
falls into the cycle `h1 → h1` and never returns to the start `h0`. -/
def orbitTrapMesh : HalfedgeMesh :=
  ⟨[⟨default, some 0, false⟩], [], [],
   [⟨none, some 2, none, none, none⟩,
    ⟨none, some 3, none, none, none⟩,
    ⟨some 1, none, none, none, none⟩,
    ⟨some 1, none, none, none, none⟩], []⟩

/-- A mesh whose vertex's outgoing halfedge has no twin: `h.twin.next` raises
`AttributeError` in the source. -/
def missingTwinMesh : HalfedgeMesh :=
  ⟨[⟨default, some 0, false⟩], [], [], [⟨none, none, none, none, none⟩], []⟩

/-- Two disconnected triangles whose subdivision emits a face centroid
`(1, 1, 0)` and an edge midpoint `(1, 1 + 1e-7, 0)`: equal to within `1e-6`
but not exactly equal. -/
def linearCexMesh : HalfedgeMesh :=
  buildHalfedgeConnectivity (initMesh
    [⟨⟨0, 0, 0⟩, none, false⟩, ⟨⟨3, 0, 0⟩, none, false⟩, ⟨⟨0, 3, 0⟩, none, false⟩,
     ⟨⟨0, 2, 0⟩, none, false⟩, ⟨⟨2, 2 / 10000000, 0⟩, none, false⟩, ⟨⟨5, 5, 0⟩, none, false⟩])
    [[0, 1, 2], [3, 4, 5]]

def vframe (m : HalfedgeMesh) (j : Nat) : Option (Vec3 × Bool) :=
  (m.vertices[j]?).map (fun v => (v.position, v.deleted))

/-- The mesh `m` extends `m0`: the pre-existing halfedges, edges and faces are
still at their indices with unchanged fields, and the vertex list has the same
length with unchanged positions and deleted flags. -/
structure MeshPres (m0 m : HalfedgeMesh) : Prop where
  hlen : m0.halfedges.length ≤ m.halfedges.length
  hpre : ∀ j, j < m0.halfedges.length → m.halfedges[j]? = m0.halfedges[j]?
  elen : m0.edges.length ≤ m.edges.length
  epre : ∀ j, j < m0.edges.length → m.edges[j]? = m0.edges[j]?
  flen : m0.faces.length ≤ m.faces.length
  fpre : ∀ j, j < m0.faces.length → m.faces[j]? = m0.faces[j]?
  vlen : m.vertices.length = m0.vertices.length
  vfr : ∀ j, vframe m j = vframe m0 j

/-- All halfedge indices stored in the dictionary lie in `[h0, hl)`. -/
def EMBounded (h0 : Nat) (em : EdgeMap) (hl : Nat) : Prop :=
  ∀ e ∈ em, ∀ x ∈ e.2, h0 ≤ x ∧ x < hl

/-- The mesh at the top of the connectivity loop: the new `Face` and its `n`
blank halfedges appended. -/
def pfM2 (st : BuildState) (fv : List Nat) : HalfedgeMesh :=
  { st.mesh with
      faces := st.mesh.faces ++ [({ halfedge := none, is_boundary := false, deleted := false } : Face)],
      halfedges := st.mesh.halfedges ++ List.replicate fv.length default }

/-- The connectivity loop of `processFace` as a standalone stage. -/
def pfLoop (st : BuildState) (fv : List Nat) : BuildState :=
  (List.range fv.length).foldl
    (connStep fv st.mesh.faces.length st.mesh.halfedges.length fv.length)
    ⟨pfM2 st fv, st.edgeMap⟩

/-- The final `f.halfedge = first created halfedge` assignment of `processFace`. -/
def pfSetFace (st2 : BuildState) (fIdx base : Nat) : BuildState :=
  match st2.mesh.faces[fIdx]? with
  | some f => ⟨{ st2.mesh with faces := st2.mesh.faces.set fIdx { f with halfedge := some base } }, st2.edgeMap⟩
  | none => st2

/-- The face collection after `f.deleted = True` was set on the faces fan-split
by `triangulate`. -/
def markDeleted (m : HalfedgeMesh) (lst : List Nat) : HalfedgeMesh :=
  { m with
      faces := m.faces.enum.map (fun p => if p.1 ∈ lst then { p.2 with deleted := true } else p.2) }

/-- The scan phase of `triangulate` as a standalone stage. -/
def triScan (m : HalfedgeMesh) : List (List Nat) × List Nat × Nat :=
  m.faces.enum.foldl
    (fun (acc : List (List Nat) × List Nat × Nat) p =>
      if p.2.deleted || p.2.is_boundary then acc
      else
        let verts := faceVertices m p.2
        let n := verts.length
        if 3 < n then
          let tris := (List.range (n - 2)).map (fun i =>
            [verts.getD 0 0, verts.getD (i + 1) 0, verts.getD (i + 2) 0])
          (acc.1 ++ tris, acc.2.1 ++ [p.1], acc.2.2 + 1)
        else acc)
    ([], [], 0)

/-- Invariant of the `position_to_vertex` dictionary: its keys are pairwise
distinct and every stored value is its own key. -/
def PMInv (st : PosMap) : Prop := (st.map Prod.fst).Nodup ∧ ∀ e ∈ st, e.2 = e.1

/-- Every index recorded in `boundary_faces` refers to a `Face` whose
`is_boundary` flag is set and whose incident-halfedge reference was never
assigned. -/
def BFInv (m : HalfedgeMesh) : Prop :=
  ∀ fb ∈ m.boundary_faces,
    m.faces[fb]? = some ⟨none, true, false⟩

/-- State invariant after the face loop has processed a prefix of `fs`:
dictionary keys are distinct, the stored halfedge indices are distinct, in
range and cover every halfedge; the twin/edge wiring matches the source's
`list[0]`-join discipline; and every halfedge sits on a `next`-cycle of some
input face's length. -/
structure FPInv (fs : List (List Nat)) (st : BuildState) : Prop where
  keysNodup : (st.edgeMap.map Prod.fst).Nodup
  valsNodup : (st.edgeMap.flatMap Prod.snd).Nodup
  bounds : ∀ e ∈ st.edgeMap, ∀ x ∈ e.2, x < st.mesh.halfedges.length
  nonempty : ∀ e ∈ st.edgeMap, e.2 ≠ []
  coverage : ∀ j, j < st.mesh.halfedges.length → ∃ e ∈ st.edgeMap, j ∈ e.2
  twinHead : ∀ e ∈ st.edgeMap, ∀ hh rest t, e.2 = hh :: rest → rest.getLast? = some t →
      heTwin st.mesh hh = some t
  twinRest : ∀ e ∈ st.edgeMap, ∀ hh rest, e.2 = hh :: rest → ∀ x ∈ rest,
      heTwin st.mesh x = some hh ∧ heEdge st.mesh x = heEdge st.mesh hh
  blocks : ∀ j, j < st.mesh.halfedges.length → ∃ base n, 3 ≤ n ∧
      n ∈ fs.map List.length ∧ base + n ≤ st.mesh.halfedges.length ∧
      base ≤ j ∧ j < base + n ∧
      ∀ i2, i2 < n → heNext st.mesh (base + i2) = some (base + (i2 + 1) % n)

/-- Inner connectivity-loop invariant: state after `i` of the `n` iterations
for the face `fv`, starting from mesh `mold` extended with the blank block. -/
structure LInv (fv : List Nat) (fIdx base n : Nat) (mold : HalfedgeMesh) (i : Nat)
    (s : BuildState) : Prop where
  hlen : s.mesh.halfedges.length = base + n
  keysNodup : (s.edgeMap.map Prod.fst).Nodup
  valsNodup : (s.edgeMap.flatMap Prod.snd).Nodup
  bounds : ∀ e ∈ s.edgeMap, ∀ x ∈ e.2, x < base + i
  nonempty : ∀ e ∈ s.edgeMap, e.2 ≠ []
  coverage : ∀ j, j < base + i → ∃ e ∈ s.edgeMap, j ∈ e.2
  twinHead : ∀ e ∈ s.edgeMap, ∀ hh rest t, e.2 = hh :: rest → rest.getLast? = some t →
      heTwin s.mesh hh = some t
  twinRest : ∀ e ∈ s.edgeMap, ∀ hh rest, e.2 = hh :: rest → ∀ x ∈ rest,
      heTwin s.mesh x = some hh ∧ heEdge s.mesh x = heEdge s.mesh hh
  newBlock : ∀ i2, i2 < i → heNext s.mesh (base + i2) = some (base + (i2 + 1) % n)
  fresh : ∀ i2, i ≤ i2 → i2 < n → s.mesh.halfedges[base + i2]? = some default
  oldStable : ∀ j, j < base → (s.mesh.halfedges[j]?).map stableOf
      = (mold.halfedges[j]?).map stableOf

/-- Boundary-loop invariant: the face-phase halfedge prefix keeps its
`next`/`vertex`/`edge`/`face` fields, and the twin wiring of every
multi-occurrence dictionary entry is untouched. -/
structure BInv (HF : Nat) (em : EdgeMap) (mesh0 m : HalfedgeMesh) : Prop where
  hlen : HF ≤ m.halfedges.length
  stable : ∀ j, j < HF →
      (m.halfedges[j]?).map stableOf = (mesh0.halfedges[j]?).map stableOf
  twinHead : ∀ e ∈ em, ∀ hh r2 rest t, e.2 = hh :: r2 :: rest →
      (r2 :: rest).getLast? = some t → heTwin m hh = some t
  twinRest : ∀ e ∈ em, ∀ hh r2 rest, e.2 = hh :: r2 :: rest → ∀ x ∈ r2 :: rest,
      heTwin m x = some hh ∧ heEdge m x = heEdge m hh

/-- What boundary synthesis establishes for a lone halfedge `h`, stated so
that it persists to the end of the boundary loop. -/
def LoneDone (HF : Nat) (h : Nat) (m : HalfedgeMesh) : Prop :=
  ∃ hb, HF ≤ hb ∧ hb < m.halfedges.length ∧
    heTwin m h = some hb ∧ heTwin m hb = some h ∧
    heNext m hb = some hb ∧ heEdge m hb = heEdge m h ∧
    (∃ fb, heFace m hb = some fb ∧ fb < m.faces.length ∧
      m.faces[fb]? = some ⟨none, true, false⟩) ∧
    (∀ base n, 3 ≤ n → n ≤ 1000 → base + n ≤ HF → base ≤ h → h < base + n →
      (∀ i2, i2 < n → heNext m (base + i2) = some (base + (i2 + 1) % n)) →
      ∃ p, p < HF ∧ heNext m p = some h ∧ heVertex m hb = heVertex m p) ∧
    (∀ base n, 1001 ≤ n → base + n ≤ HF → base ≤ h → h < base + n →
      (∀ i2, i2 < n → heNext m (base + i2) = some (base + (i2 + 1) % n)) →
      heVertex m hb = heVertex m h)

/-- The edge key of side `j` of the face `[0, 1, ..., n-1]`. -/
def keyOf (n j : Nat) : Nat × Nat := edgeKey j ((j + 1) % n)

/-- State of the connectivity loop on the single face `[0, ..., nn-1]` of a
fresh mesh, after `i` iterations: the dictionary lists the first `i` side keys
with singleton entries, processed halfedges carry their final fields except
`twin`, the rest are still blank. -/
structure NGonInv (nn i : Nat) (s : BuildState) : Prop where
  em : s.edgeMap = (List.range i).map (fun j => (keyOf nn j, [j]))
  hlen : s.mesh.halfedges.length = nn
  hdone : ∀ j, j < i → s.mesh.halfedges[j]?
      = some ⟨some ((j + 1) % nn), none, some ((j + 1) % nn), some j, some 0⟩
  hfresh : ∀ j, i ≤ j → j < nn → s.mesh.halfedges[j]? = some default
  elen : s.mesh.edges.length = i

/-- A single 1001-gon: one face with 1001 vertices, every edge key lone. -/
def ngonMesh : HalfedgeMesh :=
  buildHalfedgeConnectivity (initMesh (List.replicate 1001 default)) [List.range 1001]

theorem modifyHE_vertices (m : HalfedgeMesh) (i : Nat) (f : Halfedge → Halfedge) :
    (modifyHE m i f).vertices = m.vertices := by
  unfold modifyHE; cases m.halfedges[i]? <;> rfl

theorem modifyHE_edges (m : HalfedgeMesh) (i : Nat) (f : Halfedge → Halfedge) :
    (modifyHE m i f).edges = m.edges := by
  unfold modifyHE; cases m.halfedges[i]? <;> rfl

theorem modifyHE_faces (m : HalfedgeMesh) (i : Nat) (f : Halfedge → Halfedge) :
    (modifyHE m i f).faces = m.faces := by
  unfold modifyHE; cases m.halfedges[i]? <;> rfl

theorem modifyHE_bfaces (m : HalfedgeMesh) (i : Nat) (f : Halfedge → Halfedge) :
    (modifyHE m i f).boundary_faces = m.boundary_faces := by
  unfold modifyHE; cases m.halfedges[i]? <;> rfl

theorem modifyHE_hlen (m : HalfedgeMesh) (i : Nat) (f : Halfedge → Halfedge) :
    (modifyHE m i f).halfedges.length = m.halfedges.length := by
  unfold modifyHE; cases m.halfedges[i]? <;> simp

theorem modifyHE_get_self (m : HalfedgeMesh) (i : Nat) (f : Halfedge → Halfedge)
    (he : Halfedge) (h : m.halfedges[i]? = some he) :
    (modifyHE m i f).halfedges[i]? = some (f he) := by
  unfold modifyHE
  rw [h]
  have hlen : i < m.halfedges.length := by
    by_contra hc
    rw [List.getElem?_eq_none (by omega)] at h
    exact Option.noConfusion h
  simp [List.getElem?_set_self hlen]

theorem modifyHE_get_ne (m : HalfedgeMesh) (i j : Nat) (f : Halfedge → Halfedge)
    (h : i ≠ j) : (modifyHE m i f).halfedges[j]? = m.halfedges[j]? := by
  unfold modifyHE
  cases hg : m.halfedges[i]? with
  | none => rfl
  | some he => simpa using List.getElem?_set_ne h

theorem modifyHE_get_alt (m : HalfedgeMesh) (i j : Nat) (f : Halfedge → Halfedge) :
    (modifyHE m i f).halfedges[j]? = if i = j then (m.halfedges[j]?).map f else m.halfedges[j]? := by
  by_cases hij : i = j
  · subst hij
    cases hg : m.halfedges[i]? with
    | none => simp [modifyHE, hg]
    | some he => simp [modifyHE_get_self m i f he hg, hg]
  · simp [hij, modifyHE_get_ne m i j f hij]

theorem modifyHE_get_map_stable (m : HalfedgeMesh) (i : Nat) (f : Halfedge → Halfedge)
    (hf : ∀ he, stableOf (f he) = stableOf he) (j : Nat) :
    ((modifyHE m i f).halfedges[j]?).map stableOf = (m.halfedges[j]?).map stableOf := by
  rw [modifyHE_get_alt]
  by_cases hij : i = j
  · simp only [hij, if_pos rfl]
    cases m.halfedges[j]? with
    | none => rfl
    | some he => simp [hf]
  · simp [hij]

theorem touchVH_halfedges (m : HalfedgeMesh) (vc h : Nat) :
    (touchVertexHalfedge m vc h).halfedges = m.halfedges := by
  unfold touchVertexHalfedge
  cases m.vertices[vc]? with
  | none => rfl
  | some v => by_cases hh : v.halfedge = none <;> simp [hh]

theorem touchVH_edges (m : HalfedgeMesh) (vc h : Nat) :
    (touchVertexHalfedge m vc h).edges = m.edges := by
  unfold touchVertexHalfedge
  cases m.vertices[vc]? with
  | none => rfl
  | some v => by_cases hh : v.halfedge = none <;> simp [hh]

theorem touchVH_faces (m : HalfedgeMesh) (vc h : Nat) :
    (touchVertexHalfedge m vc h).faces = m.faces := by
  unfold touchVertexHalfedge
  cases m.vertices[vc]? with
  | none => rfl
  | some v => by_cases hh : v.halfedge = none <;> simp [hh]

theorem touchVH_bfaces (m : HalfedgeMesh) (vc h : Nat) :
    (touchVertexHalfedge m vc h).boundary_faces = m.boundary_faces := by
  unfold touchVertexHalfedge
  cases m.vertices[vc]? with
  | none => rfl
  | some v => by_cases hh : v.halfedge = none <;> simp [hh]

theorem touchVH_vlen (m : HalfedgeMesh) (vc h : Nat) :
    (touchVertexHalfedge m vc h).vertices.length = m.vertices.length := by
  unfold touchVertexHalfedge
  cases m.vertices[vc]? with
  | none => rfl
  | some v => by_cases hh : v.halfedge = none <;> simp [hh]

theorem touchVH_vpos (m : HalfedgeMesh) (vc h j : Nat) :
    ((touchVertexHalfedge m vc h).vertices[j]?).map (fun v => (v.position, v.deleted))
      = (m.vertices[j]?).map (fun v => (v.position, v.deleted)) := by
  unfold touchVertexHalfedge
  cases hv : m.vertices[vc]? with
  | none => rfl
  | some v =>
    dsimp only
    by_cases hh : v.halfedge = none
    · rw [if_pos hh]
      by_cases hj : vc = j
      · subst hj
        have hlt : vc < m.vertices.length := by
          by_contra hc
          rw [List.getElem?_eq_none (by omega)] at hv
          exact Option.noConfusion hv
        show ((m.vertices.set vc { v with halfedge := some h })[vc]?).map _ = _
        rw [List.getElem?_set_self hlt, hv]
        rfl
      · show ((m.vertices.set vc { v with halfedge := some h })[j]?).map _ = _
        rw [List.getElem?_set_ne hj]
    · rw [if_neg hh]

theorem connStep_hlen (fv : List Nat) (fIdx base n : Nat) (st : BuildState) (i : Nat) :
    (connStep fv fIdx base n st i).mesh.halfedges.length = st.mesh.halfedges.length := by
  simp only [connStep]
  cases hlk : emLookup st.edgeMap (edgeKey (fv.getD i 0) (fv.getD ((i + 1) % n) 0)) with
  | none => simp [hlk, touchVH_halfedges, modifyHE_hlen]
  | some l =>
    cases l with
    | nil => simp [hlk, touchVH_halfedges, modifyHE_hlen]
    | cons o rest => simp [hlk, touchVH_halfedges, modifyHE_hlen]

theorem connStep_faces (fv : List Nat) (fIdx base n : Nat) (st : BuildState) (i : Nat) :
    (connStep fv fIdx base n st i).mesh.faces = st.mesh.faces := by
  simp only [connStep]
  cases hlk : emLookup st.edgeMap (edgeKey (fv.getD i 0) (fv.getD ((i + 1) % n) 0)) with
  | none => simp [hlk, touchVH_faces, modifyHE_faces]
  | some l =>
    cases l with
    | nil => simp [hlk, touchVH_faces, modifyHE_faces]
    | cons o rest => simp [hlk, touchVH_faces, modifyHE_faces]

theorem connStep_bfaces (fv : List Nat) (fIdx base n : Nat) (st : BuildState) (i : Nat) :
    (connStep fv fIdx base n st i).mesh.boundary_faces = st.mesh.boundary_faces := by
  simp only [connStep]
  cases hlk : emLookup st.edgeMap (edgeKey (fv.getD i 0) (fv.getD ((i + 1) % n) 0)) with
  | none => simp [hlk, touchVH_bfaces, modifyHE_bfaces]
  | some l =>
    cases l with
    | nil => simp [hlk, touchVH_bfaces, modifyHE_bfaces]
    | cons o rest => simp [hlk, touchVH_bfaces, modifyHE_bfaces]

theorem connStep_vlen (fv : List Nat) (fIdx base n : Nat) (st : BuildState) (i : Nat) :
    (connStep fv fIdx base n st i).mesh.vertices.length = st.mesh.vertices.length := by
  simp only [connStep]
  cases hlk : emLookup st.edgeMap (edgeKey (fv.getD i 0) (fv.getD ((i + 1) % n) 0)) with
  | none => simp [hlk, touchVH_vlen, modifyHE_vertices]
  | some l =>
    cases l with
    | nil => simp [hlk, touchVH_vlen, modifyHE_vertices]
    | cons o rest => simp [hlk, touchVH_vlen, modifyHE_vertices]

theorem connStep_vpos (fv : List Nat) (fIdx base n : Nat) (st : BuildState) (i j : Nat) :
    ((connStep fv fIdx base n st i).mesh.vertices[j]?).map (fun v => (v.position, v.deleted))
      = (st.mesh.vertices[j]?).map (fun v => (v.position, v.deleted)) := by
  simp only [connStep]
  cases hlk : emLookup st.edgeMap (edgeKey (fv.getD i 0) (fv.getD ((i + 1) % n) 0)) with
  | none => rw [touchVH_vpos]; simp [modifyHE_vertices]
  | some l =>
    cases l with
    | nil => rw [touchVH_vpos]; simp [modifyHE_vertices]
    | cons o rest => rw [touchVH_vpos]; simp [modifyHE_vertices]

theorem connStep_get_ne (fv : List Nat) (fIdx base n : Nat) (st : BuildState) (i j : Nat)
    (hj : j ≠ base + i)
    (hother : ∀ o rest,
      emLookup st.edgeMap (edgeKey (fv.getD i 0) (fv.getD ((i + 1) % n) 0)) = some (o :: rest) →
      j ≠ o) :
    (connStep fv fIdx base n st i).mesh.halfedges[j]? = st.mesh.halfedges[j]? := by
  have hj' : base + i ≠ j := fun h => hj h.symm
  simp only [connStep]
  cases hlk : emLookup st.edgeMap (edgeKey (fv.getD i 0) (fv.getD ((i + 1) % n) 0)) with
  | none =>
    simp [hlk, touchVH_halfedges, modifyHE_get_ne _ _ _ _ hj']
  | some l =>
    cases l with
    | nil => simp [hlk, touchVH_halfedges, modifyHE_get_ne _ _ _ _ hj']
    | cons o rest =>
      have ho : o ≠ j := fun h => (hother o rest hlk) h.symm
      simp [hlk, touchVH_halfedges, modifyHE_get_ne _ _ _ _ hj', modifyHE_get_ne _ _ _ _ ho]

theorem connStep_stable_ne (fv : List Nat) (fIdx base n : Nat) (st : BuildState) (i j : Nat)
    (hj : j ≠ base + i) :
    ((connStep fv fIdx base n st i).mesh.halfedges[j]?).map stableOf
      = (st.mesh.halfedges[j]?).map stableOf := by
  have hj' : base + i ≠ j := fun h => hj h.symm
  simp only [connStep]
  cases hlk : emLookup st.edgeMap (edgeKey (fv.getD i 0) (fv.getD ((i + 1) % n) 0)) with
  | none =>
    simp [hlk, touchVH_halfedges, modifyHE_get_ne _ _ _ _ hj']
  | some l =>
    cases l with
    | nil => simp [hlk, touchVH_halfedges, modifyHE_get_ne _ _ _ _ hj']
    | cons o rest =>
      simp only [hlk, touchVH_halfedges]
      rw [modifyHE_get_ne _ _ _ _ hj']
      rw [modifyHE_get_map_stable _ o (setTwin (base + i)) (fun _ => rfl) j]
      rw [modifyHE_get_ne _ _ _ _ hj']
      rw [modifyHE_get_ne _ _ _ _ hj']

theorem connStep_map_new (fv : List Nat) (fIdx base n : Nat) (st : BuildState) (i : Nat)
    (hlk : emLookup st.edgeMap (edgeKey (fv.getD i 0) (fv.getD ((i + 1) % n) 0)) = none) :
    (connStep fv fIdx base n st i).edgeMap
      = st.edgeMap ++ [(edgeKey (fv.getD i 0) (fv.getD ((i + 1) % n) 0), [base + i])] := by
  simp only [connStep, hlk]

theorem connStep_map_join (fv : List Nat) (fIdx base n : Nat) (st : BuildState) (i o : Nat)
    (rest : List Nat)
    (hlk : emLookup st.edgeMap (edgeKey (fv.getD i 0) (fv.getD ((i + 1) % n) 0))
      = some (o :: rest)) :
    (connStep fv fIdx base n st i).edgeMap
      = emAppend st.edgeMap (edgeKey (fv.getD i 0) (fv.getD ((i + 1) % n) 0)) (base + i) := by
  simp only [connStep, hlk]

theorem connStep_map_skip (fv : List Nat) (fIdx base n : Nat) (st : BuildState) (i : Nat)
    (hlk : emLookup st.edgeMap (edgeKey (fv.getD i 0) (fv.getD ((i + 1) % n) 0)) = some []) :
    (connStep fv fIdx base n st i).edgeMap = st.edgeMap := by
  simp only [connStep, hlk]

theorem connStep_edges_new (fv : List Nat) (fIdx base n : Nat) (st : BuildState) (i : Nat)
    (hlk : emLookup st.edgeMap (edgeKey (fv.getD i 0) (fv.getD ((i + 1) % n) 0)) = none) :
    (connStep fv fIdx base n st i).mesh.edges
      = st.mesh.edges ++ [({ halfedge := some (base + i), deleted := false } : Edge)] := by
  simp only [connStep, hlk]
  simp [touchVH_edges, modifyHE_edges]

theorem connStep_edges_same (fv : List Nat) (fIdx base n : Nat) (st : BuildState) (i : Nat)
    (l : List Nat)
    (hlk : emLookup st.edgeMap (edgeKey (fv.getD i 0) (fv.getD ((i + 1) % n) 0)) = some l) :
    (connStep fv fIdx base n st i).mesh.edges = st.mesh.edges := by
  cases l with
  | nil =>
    simp only [connStep, hlk]
    simp [touchVH_edges, modifyHE_edges]
  | cons o rest =>
    simp only [connStep, hlk]
    simp [touchVH_edges, modifyHE_edges]

theorem connStep_edges_ext (fv : List Nat) (fIdx base n : Nat) (st : BuildState) (i : Nat) :
    ∃ ap : List Edge, (connStep fv fIdx base n st i).mesh.edges = st.mesh.edges ++ ap := by
  cases hlk : emLookup st.edgeMap (edgeKey (fv.getD i 0) (fv.getD ((i + 1) % n) 0)) with
  | none => exact ⟨_, connStep_edges_new fv fIdx base n st i hlk⟩
  | some l => exact ⟨[], by simpa using connStep_edges_same fv fIdx base n st i l hlk⟩

theorem connStep_self_new (fv : List Nat) (fIdx base n : Nat) (st : BuildState) (i : Nat)
    (he0 : Halfedge) (hin : st.mesh.halfedges[base + i]? = some he0)
    (hlk : emLookup st.edgeMap (edgeKey (fv.getD i 0) (fv.getD ((i + 1) % n) 0)) = none) :
    (connStep fv fIdx base n st i).mesh.halfedges[base + i]?
      = some ⟨some (base + (i + 1) % n), he0.twin, some (fv.getD ((i + 1) % n) 0),
          some st.mesh.edges.length, some fIdx⟩ := by
  simp only [connStep, hlk]
  rw [touchVH_halfedges]
  rw [modifyHE_get_self _ _ _
    ⟨some (base + (i + 1) % n), he0.twin, some (fv.getD ((i + 1) % n) 0), he0.edge, some fIdx⟩
    (by
      show ({ (modifyHE st.mesh (base + i) _) with
        edges := _ } : HalfedgeMesh).halfedges[base + i]? = _
      simp only []
      rw [modifyHE_get_self _ _ _ he0 hin]
      rfl)]
  simp [modifyHE_edges, setEdgeO]

theorem connStep_self_skip (fv : List Nat) (fIdx base n : Nat) (st : BuildState) (i : Nat)
    (he0 : Halfedge) (hin : st.mesh.halfedges[base + i]? = some he0)
    (hlk : emLookup st.edgeMap (edgeKey (fv.getD i 0) (fv.getD ((i + 1) % n) 0)) = some []) :
    (connStep fv fIdx base n st i).mesh.halfedges[base + i]?
      = some ⟨some (base + (i + 1) % n), he0.twin, some (fv.getD ((i + 1) % n) 0),
          he0.edge, some fIdx⟩ := by
  simp only [connStep, hlk]
  rw [touchVH_halfedges]
  rw [modifyHE_get_self _ _ _ he0 hin]
  rfl

theorem stableOf_setTwin (t : Nat) (he : Halfedge) : stableOf (setTwin t he) = stableOf he := rfl

theorem heEdge_modify_setTwin (m : HalfedgeMesh) (a t j : Nat) :
    heEdge (modifyHE m a (setTwin t)) j = heEdge m j := by
  unfold heEdge
  have h := modifyHE_get_map_stable m a (setTwin t) (stableOf_setTwin t) j
  cases hA : (modifyHE m a (setTwin t)).halfedges[j]? with
  | none =>
    rw [hA] at h
    cases hB : m.halfedges[j]? with
    | none => rfl
    | some y => rw [hB] at h; exact absurd h (by simp)
  | some y =>
    rw [hA] at h
    cases hB : m.halfedges[j]? with
    | none => rw [hB] at h; exact absurd h (by simp)
    | some z =>
      rw [hB] at h
      simp at h
      show (some y).bind (fun he => he.edge) = (some z).bind (fun he => he.edge)
      have hedge : y.edge = z.edge := congrArg (fun q => q.2.2.1) h
      simp [hedge]

theorem heEdge_modify_ne (m : HalfedgeMesh) (a j : Nat) (f : Halfedge → Halfedge)
    (h : a ≠ j) : heEdge (modifyHE m a f) j = heEdge m j := by
  unfold heEdge
  rw [modifyHE_get_ne m a j f h]

theorem connStep_self_join (fv : List Nat) (fIdx base n : Nat) (st : BuildState) (i o : Nat)
    (rest : List Nat) (he0 : Halfedge) (hin : st.mesh.halfedges[base + i]? = some he0)
    (hlk : emLookup st.edgeMap (edgeKey (fv.getD i 0) (fv.getD ((i + 1) % n) 0))
      = some (o :: rest))
    (ho : o ≠ base + i) :
    (connStep fv fIdx base n st i).mesh.halfedges[base + i]?
      = some ⟨some (base + (i + 1) % n), some o, some (fv.getD ((i + 1) % n) 0),
          heEdge st.mesh o, some fIdx⟩ := by
  simp only [connStep, hlk]
  rw [touchVH_halfedges]
  have h1 := modifyHE_get_self st.mesh (base + i)
    (setNVF (fv.getD ((i + 1) % n) 0) (base + (i + 1) % n) fIdx) he0 hin
  have h2 := modifyHE_get_self _ (base + i) (setTwin o) _ h1
  have h3 := (modifyHE_get_ne _ o (base + i) (setTwin (base + i)) ho).trans h2
  rw [modifyHE_get_self _ (base + i) _ _ h3]
  have hEdgeEq : heEdge (modifyHE (modifyHE (modifyHE st.mesh (base + i)
      (setNVF (fv.getD ((i + 1) % n) 0) (base + (i + 1) % n) fIdx))
      (base + i) (setTwin o)) o (setTwin (base + i))) o = heEdge st.mesh o := by
    rw [heEdge_modify_setTwin]
    rw [heEdge_modify_ne _ _ _ _ (fun hh => ho hh.symm)]
    rw [heEdge_modify_ne _ _ _ _ (fun hh => ho hh.symm)]
  rw [hEdgeEq]
  rfl

theorem connStep_other (fv : List Nat) (fIdx base n : Nat) (st : BuildState) (i o : Nat)
    (rest : List Nat) (heo : Halfedge) (hoin : st.mesh.halfedges[o]? = some heo)
    (hlk : emLookup st.edgeMap (edgeKey (fv.getD i 0) (fv.getD ((i + 1) % n) 0))
      = some (o :: rest))
    (ho : o ≠ base + i) :
    (connStep fv fIdx base n st i).mesh.halfedges[o]? = some (setTwin (base + i) heo) := by
  have ho' : base + i ≠ o := fun h => ho h.symm
  simp only [connStep, hlk]
  rw [touchVH_halfedges]
  rw [modifyHE_get_ne _ _ _ _ ho']
  rw [modifyHE_get_self _ o (setTwin (base + i)) heo
    (by rw [modifyHE_get_ne _ _ _ _ ho', modifyHE_get_ne _ _ _ _ ho']; exact hoin)]

/-! ### Dictionary (`edge_halfedges`) lemmas -/

theorem emLookup_append_some (em : EdgeMap) (k : Nat × Nat) (l : List Nat) (e : (Nat × Nat) × List Nat)
    (h : emLookup em k = some l) : emLookup (em ++ [e]) k = some l := by
  induction em with
  | nil => simp [emLookup] at h
  | cons hd tl ih =>
    obtain ⟨k', l'⟩ := hd
    by_cases hk : k' = k
    · simp [emLookup, hk] at h ⊢
      exact h
    · simp only [emLookup, if_neg hk] at h
      simpa [emLookup, hk] using ih h

theorem emLookup_append_none (em : EdgeMap) (k : Nat × Nat) (e : (Nat × Nat) × List Nat)
    (h : emLookup em k = none) :
    emLookup (em ++ [e]) k = if e.1 = k then some e.2 else none := by
  induction em with
  | nil => simp [emLookup]
  | cons hd tl ih =>
    obtain ⟨k', l'⟩ := hd
    by_cases hk : k' = k
    · simp [emLookup, hk] at h
    · simp only [emLookup, if_neg hk] at h
      simpa [emLookup, hk] using ih h

theorem emLookup_emAppend_self (em : EdgeMap) (k : Nat × Nat) (h : Nat) (l : List Nat)
    (hl : emLookup em k = some l) : emLookup (emAppend em k h) k = some (l ++ [h]) := by
  induction em with
  | nil => simp [emLookup] at hl
  | cons hd tl ih =>
    obtain ⟨k', l'⟩ := hd
    by_cases hk : k' = k
    · subst hk
      simp [emLookup, emAppend] at hl ⊢
      exact hl
    · simp only [emLookup, if_neg hk] at hl
      simpa [emLookup, emAppend, hk] using ih hl

theorem emLookup_emAppend_ne (em : EdgeMap) (k k' : Nat × Nat) (h : Nat) (hkk : k' ≠ k) :
    emLookup (emAppend em k h) k' = emLookup em k' := by
  induction em with
  | nil => simp [emAppend]
  | cons hd tl ih =>
    obtain ⟨k0, l0⟩ := hd
    by_cases hk : k0 = k
    · subst hk
      have hne : k0 ≠ k' := fun hh => hkk hh.symm
      simp [emAppend, emLookup, hne]
    · simp [emAppend, emLookup, hk]
      by_cases hk' : k0 = k'
      · simp [hk']
      · simp [hk', ih]

theorem emAppend_keys (em : EdgeMap) (k : Nat × Nat) (h : Nat) :
    (emAppend em k h).map Prod.fst = em.map Prod.fst := by
  induction em with
  | nil => simp [emAppend]
  | cons hd tl ih =>
    obtain ⟨k0, l0⟩ := hd
    by_cases hk : k0 = k <;> simp [emAppend, hk, ih]

theorem emAppend_mem (em : EdgeMap) (k : Nat × Nat) (h : Nat) (e : (Nat × Nat) × List Nat)
    (he : e ∈ emAppend em k h) :
    e ∈ em ∨ (∃ l, (k, l) ∈ em ∧ e = (k, l ++ [h])) := by
  induction em with
  | nil => simp [emAppend] at he
  | cons hd tl ih =>
    obtain ⟨k0, l0⟩ := hd
    by_cases hk : k0 = k
    · subst hk
      simp only [emAppend, if_pos rfl] at he
      cases he with
      | head => exact Or.inr ⟨l0, by simp⟩
      | tail _ ht => exact Or.inl (List.mem_cons_of_mem _ ht)
    · simp only [emAppend, if_neg hk] at he
      cases he with
      | head => exact Or.inl (List.mem_cons_self _ _)
      | tail _ ht =>
        cases ih ht with
        | inl hh => exact Or.inl (List.mem_cons_of_mem _ hh)
        | inr hh =>
          obtain ⟨l, hl, hel⟩ := hh
          exact Or.inr ⟨l, List.mem_cons_of_mem _ hl, hel⟩

theorem emLookup_none_notMem (em : EdgeMap) (k : Nat × Nat) (h : emLookup em k = none) :
    k ∉ em.map Prod.fst := by
  induction em with
  | nil => simp
  | cons hd tl ih =>
    obtain ⟨k0, l0⟩ := hd
    by_cases hk : k0 = k
    · simp [emLookup, hk] at h
    · simp only [emLookup, if_neg hk] at h
      simpa [hk, Ne.symm hk] using ih h

theorem emLookup_mem (em : EdgeMap) (k : Nat × Nat) (l : List Nat)
    (h : emLookup em k = some l) : (k, l) ∈ em := by
  induction em with
  | nil => simp [emLookup] at h
  | cons hd tl ih =>
    obtain ⟨k0, l0⟩ := hd
    by_cases hk : k0 = k
    · subst hk
      simp [emLookup] at h
      simp [h]
    · simp only [emLookup, if_neg hk] at h
      exact List.mem_cons_of_mem _ (ih h)

theorem emLookup_of_mem_nodup (em : EdgeMap) (k : Nat × Nat) (l : List Nat)
    (hnd : (em.map Prod.fst).Nodup) (h : (k, l) ∈ em) : emLookup em k = some l := by
  induction em with
  | nil => simp at h
  | cons hd tl ih =>
    obtain ⟨k0, l0⟩ := hd
    simp only [List.map_cons, List.nodup_cons] at hnd
    cases h with
    | head => simp [emLookup]
    | tail _ ht =>
      have hk : k0 ≠ k := by
        intro hh
        subst hh
        exact hnd.1 (List.mem_map_of_mem Prod.fst ht)
      simp only [emLookup, if_neg hk]
      exact ih hnd.2 ht

/-! ### Concrete meshes used as witnesses and counterexamples -/

-- Rational arithmetic must evaluate inside `decide`; the core library ships
-- these operations `irreducible`.
attribute [local semireducible] Rat.add Rat.mul Rat.inv Rat.sub

/-- C4: `subdivide_catmull_clark` signals its outcome by return value and never
raises.  Refuted by the source: its body is a single unconditional
`raise NotImplementedError`, so on the cube — or on any mesh with eligible
faces, such as this single quad — it raises instead of returning a boolean. -/
theorem c4_catmull_clark_raises :
    (∃ f ∈ quadMesh.faces, f.deleted = false ∧ f.is_boundary = false) ∧
    (∀ r : Bool × HalfedgeMesh, subdivide_catmull_clark quadMesh ≠ Except.ok r) ∧
    subdivide_catmull_clark quadMesh = Except.error PyError.notImplementedError := by
  refine ⟨⟨quadMesh.faces.getD 0 default, by decide, by decide, by decide⟩, ?_, rfl⟩
  intro r h
  exact Except.noConfusion h

/-- C7: the claim (and §4.2/§7 of the spec) requires every query traversal to
cap its iterations and survive a missing twin.  `Vertex.degree`'s only exit is
equality with the start halfedge: on `orbitTrapMesh` the orbit is constantly
`h1 ≠ h0` from step one on, so the source loop never terminates, and on
`missingTwinMesh` the very first `h.twin.next` dereferences a missing twin. -/
theorem c7_degree_traversal_unbounded :
    (∀ k : Nat, degOrbit orbitTrapMesh 0 (k + 1) = some 1) ∧
    (some 1 ≠ some (0 : Nat)) ∧
    vertexDegree orbitTrapMesh ⟨default, some 0, false⟩ = none ∧
    vdStep missingTwinMesh 0 = none ∧
    vertexDegree missingTwinMesh ⟨default, some 0, false⟩ = none := by
  refine ⟨?_, by decide, by decide, by decide, by decide⟩
  intro k
  induction k with
  | zero => decide
  | succ k ih =>
    show (degOrbit orbitTrapMesh 0 (k + 1)).bind (vdStep orbitTrapMesh) = some 1
    rw [ih]
    decide

/-- C8 counterexample: `bbox`/`center` do *not* ignore deleted vertices.  On a
mesh whose only non-deleted vertex sits at the origin, the deleted vertex at
`(5,5,5)` drags the box corner to `(5,5,5)` and the mean to `(5/2,5/2,5/2)`,
while the claim demands `((0,0,0),(0,0,0))` and `(0,0,0)`. -/
theorem c8_counterexample :
    (deletedVertexMesh.vertices.filter (fun v => !v.deleted)).map (fun v => v.position)
        = [⟨0, 0, 0⟩] ∧
    bbox deletedVertexMesh = (⟨0, 0, 0⟩, ⟨5, 5, 5⟩) ∧
    meshCenter deletedVertexMesh = ⟨5 / 2, 5 / 2, 5 / 2⟩ ∧
    (⟨5, 5, 5⟩ : Vec3) ≠ ⟨0, 0, 0⟩ := by decide

/-- C1 counterexample: on the (non-manifold but all-triangle) face list
`[[0,1,2], [1,0,3], [0,1,4]]` the third occurrence of edge key `{0,1}`
overwrites halfedge 0's twin, leaving the non-boundary halfedge 3 with
`twin.twin = 6 ≠ 3`. -/
theorem c1_counterexample :
    ([[0, 1, 2], [1, 0, 3], [0, 1, 4]] : List (List Nat)).all (fun fv => 3 ≤ fv.length) = true ∧
    heFace nonManifoldMesh 3 = some 1 ∧
    nonManifoldMesh.faces[1]? = some ⟨some 3, false, false⟩ ∧
    heTwin nonManifoldMesh 3 = some 0 ∧
    heTwin nonManifoldMesh 0 = some 6 ∧
    some 6 ≠ some (3 : Nat) := by decide

/-- C5 counterexample: `triangulate` performs a mutation on the quad mesh
(count 1 ≠ 0) yet does not clear the four collections: the pre-call vertex
objects are still there and the split face remains in `faces`, merely marked
deleted — a stale element from before the operation. -/
theorem c5_counterexample :
    (triangulate quadMesh).1 ≠ 0 ∧
    (triangulate quadMesh).2.vertices = quadMesh.vertices ∧
    (triangulate quadMesh).2.faces[0]? = some ⟨some 0, false, true⟩ ∧
    quadMesh.faces[0]? = some ⟨some 0, false, false⟩ := by decide

/-- C10 counterexample: the Connectivity Builder never assigns the boundary
face's incident-halfedge reference, so `Face.vertices()` on a boundary face
returns `[]` (0 vertices), not a single-vertex list: the synthesized halfedge
3 has `next = itself` and points at boundary face 1, but face 1's `halfedge`
is `None`. -/
theorem c10_counterexample :
    triMesh.faces[1]? = some ⟨none, true, false⟩ ∧
    heNext triMesh 3 = some 3 ∧
    heFace triMesh 3 = some 1 ∧
    faceVertices triMesh (triMesh.faces.getD 1 default) = [] ∧
    (0 : Nat) ≠ 1 := by decide

set_option maxRecDepth 100000 in
/-- C6 counterexample: `subdivide_linear` dedups by *exact* position equality
(`tuple(position)` dictionary keys), not by rounding at tolerance 1e-6: the
centroid `(1,1,0)` of the first triangle and the edge midpoint
`(1, 1 + 1e-7, 0)` of the second agree within 1e-6 yet end up as two distinct
created vertices in the rebuilt mesh. -/
theorem c6_counterexample :
    (subdivide_linear linearCexMesh).map Prod.fst = some true ∧
    ((((subdivide_linear linearCexMesh).getD (false, linearCexMesh)).2.vertices.map
        (fun v => v.position)).contains ⟨1, 1, 0⟩) = true ∧
    ((((subdivide_linear linearCexMesh).getD (false, linearCexMesh)).2.vertices.map
        (fun v => v.position)).contains ⟨1, 1 + 1 / 10000000, 0⟩) = true ∧
    (⟨1, 1, 0⟩ : Vec3) ≠ ⟨1, 1 + 1 / 10000000, 0⟩ ∧
    |(1 : Rat) - (1 + 1 / 10000000)| ≤ 1 / 1000000 ∧
    |(1 : Rat) - 1| ≤ 1 / 1000000 ∧ |(0 : Rat) - 0| ≤ 1 / 1000000 := by decide

/-- C3: if any non-deleted, non-boundary face has a vertex loop of length ≠ 3,
`subdivide_loop` returns `False` and leaves the mesh completely unmodified
(the validation loop runs before any state is touched). -/
theorem c3_loop_rejects_nontriangular (m : HalfedgeMesh)
    (hbad : ∃ f ∈ m.faces, f.deleted = false ∧ f.is_boundary = false ∧
      (faceVertices m f).length ≠ 3) :
    subdivide_loop m = some (false, m) := by
  obtain ⟨f, hfm, hd, hb, hn⟩ := hbad
  have hany : m.faces.any (fun f => !f.deleted && !f.is_boundary
      && decide ((faceVertices m f).length ≠ 3)) = true := by
    rw [List.any_eq_true]
    exact ⟨f, hfm, by simp [hd, hb, hn]⟩
  unfold subdivide_loop
  rw [if_pos hany]

/-- C3 witness: the single-quad mesh has a non-deleted, non-boundary face with
4 vertices, and Loop subdivision returns `False` with the mesh unchanged. -/
theorem c3_witness : subdivide_loop quadMesh = some (false, quadMesh) :=
  c3_loop_rejects_nontriangular quadMesh
    ⟨quadMesh.faces.getD 0 default, by decide, by decide, by decide, by decide⟩

theorem foldlMin_le_init (l : List Rat) (a : Rat) : l.foldl min a ≤ a := by
  induction l generalizing a with
  | nil => exact le_refl a
  | cons x xs ih => exact le_trans (ih (min a x)) (min_le_left a x)

theorem foldlMin_le_mem (l : List Rat) (a x : Rat) (hx : x ∈ l) : l.foldl min a ≤ x := by
  induction l generalizing a with
  | nil => simp at hx
  | cons y ys ih =>
    rcases List.mem_cons.mp hx with h | h
    · subst h
      exact le_trans (foldlMin_le_init ys (min a x)) (min_le_right a x)
    · exact ih (min a y) h

theorem foldlMin_mem (l : List Rat) (a : Rat) : l.foldl min a = a ∨ l.foldl min a ∈ l := by
  induction l generalizing a with
  | nil => exact Or.inl rfl
  | cons x xs ih =>
    rcases ih (min a x) with h | h
    · rcases min_choice a x with hm | hm
      · exact Or.inl (by rw [List.foldl_cons, h, hm])
      · exact Or.inr (by rw [List.foldl_cons, h, hm]; exact List.mem_cons_self x xs)
    · exact Or.inr (List.mem_cons_of_mem x h)

theorem foldlMax_init_le (l : List Rat) (a : Rat) : a ≤ l.foldl max a := by
  induction l generalizing a with
  | nil => exact le_refl a
  | cons x xs ih => exact le_trans (le_max_left a x) (ih (max a x))

theorem foldlMax_mem_le (l : List Rat) (a x : Rat) (hx : x ∈ l) : x ≤ l.foldl max a := by
  induction l generalizing a with
  | nil => simp at hx
  | cons y ys ih =>
    rcases List.mem_cons.mp hx with h | h
    · subst h
      exact le_trans (le_max_right a x) (foldlMax_init_le ys (max a x))
    · exact ih (max a y) h

theorem foldlMax_mem (l : List Rat) (a : Rat) : l.foldl max a = a ∨ l.foldl max a ∈ l := by
  induction l generalizing a with
  | nil => exact Or.inl rfl
  | cons x xs ih =>
    rcases ih (max a x) with h | h
    · rcases max_choice a x with hm | hm
      · exact Or.inl (by rw [List.foldl_cons, h, hm])
      · exact Or.inr (by rw [List.foldl_cons, h, hm]; exact List.mem_cons_self x xs)
    · exact Or.inr (List.mem_cons_of_mem x h)

theorem foldl_vecMin_x (l : List Vec3) (a : Vec3) :
    (l.foldl vecMin a).x = (l.map Vec3.x).foldl min a.x := by
  induction l generalizing a with
  | nil => rfl
  | cons p ps ih => simpa [vecMin] using ih (vecMin a p)

theorem foldl_vecMin_y (l : List Vec3) (a : Vec3) :
    (l.foldl vecMin a).y = (l.map Vec3.y).foldl min a.y := by
  induction l generalizing a with
  | nil => rfl
  | cons p ps ih => simpa [vecMin] using ih (vecMin a p)

theorem foldl_vecMin_z (l : List Vec3) (a : Vec3) :
    (l.foldl vecMin a).z = (l.map Vec3.z).foldl min a.z := by
  induction l generalizing a with
  | nil => rfl
  | cons p ps ih => simpa [vecMin] using ih (vecMin a p)

theorem foldl_vecMax_x (l : List Vec3) (a : Vec3) :
    (l.foldl vecMax a).x = (l.map Vec3.x).foldl max a.x := by
  induction l generalizing a with
  | nil => rfl
  | cons p ps ih => simpa [vecMax] using ih (vecMax a p)

theorem foldl_vecMax_y (l : List Vec3) (a : Vec3) :
    (l.foldl vecMax a).y = (l.map Vec3.y).foldl max a.y := by
  induction l generalizing a with
  | nil => rfl
  | cons p ps ih => simpa [vecMax] using ih (vecMax a p)

theorem foldl_vecMax_z (l : List Vec3) (a : Vec3) :
    (l.foldl vecMax a).z = (l.map Vec3.z).foldl max a.z := by
  induction l generalizing a with
  | nil => rfl
  | cons p ps ih => simpa [vecMax] using ih (vecMax a p)

theorem vecScale_cancel (n : Rat) (hn : n ≠ 0) (v : Vec3) :
    vecScale n (vecScale (1 / n) v) = v := by
  unfold vecScale
  have hx : n * (1 / n * v.x) = v.x := by field_simp
  have hy : n * (1 / n * v.y) = v.y := by field_simp
  have hz : n * (1 / n * v.z) = v.z := by field_simp
  rw [hx, hy, hz]

theorem bboxOf_bounds (ps : List Vec3) (p : Vec3) (hp : p ∈ ps) :
    ((bboxOf ps).1.x ≤ p.x ∧ (bboxOf ps).1.y ≤ p.y ∧ (bboxOf ps).1.z ≤ p.z) ∧
    (p.x ≤ (bboxOf ps).2.x ∧ p.y ≤ (bboxOf ps).2.y ∧ p.z ≤ (bboxOf ps).2.z) := by
  cases ps with
  | nil => simp at hp
  | cons q rest =>
    show ((rest.foldl vecMin q).x ≤ p.x ∧ (rest.foldl vecMin q).y ≤ p.y ∧
        (rest.foldl vecMin q).z ≤ p.z) ∧
      (p.x ≤ (rest.foldl vecMax q).x ∧ p.y ≤ (rest.foldl vecMax q).y ∧
        p.z ≤ (rest.foldl vecMax q).z)
    rw [foldl_vecMin_x, foldl_vecMin_y, foldl_vecMin_z,
      foldl_vecMax_x, foldl_vecMax_y, foldl_vecMax_z]
    rcases List.mem_cons.mp hp with h | h
    · subst h
      exact ⟨⟨foldlMin_le_init _ _, foldlMin_le_init _ _, foldlMin_le_init _ _⟩,
        foldlMax_init_le _ _, foldlMax_init_le _ _, foldlMax_init_le _ _⟩
    · have hx := List.mem_map_of_mem Vec3.x h
      have hy := List.mem_map_of_mem Vec3.y h
      have hz := List.mem_map_of_mem Vec3.z h
      exact ⟨⟨foldlMin_le_mem _ _ _ hx, foldlMin_le_mem _ _ _ hy, foldlMin_le_mem _ _ _ hz⟩,
        foldlMax_mem_le _ _ _ hx, foldlMax_mem_le _ _ _ hy, foldlMax_mem_le _ _ _ hz⟩

theorem bboxOf_attained (ps : List Vec3) (h : ps ≠ []) :
    ((bboxOf ps).1.x ∈ ps.map Vec3.x ∧ (bboxOf ps).1.y ∈ ps.map Vec3.y ∧
     (bboxOf ps).1.z ∈ ps.map Vec3.z) ∧
    ((bboxOf ps).2.x ∈ ps.map Vec3.x ∧ (bboxOf ps).2.y ∈ ps.map Vec3.y ∧
     (bboxOf ps).2.z ∈ ps.map Vec3.z) := by
  cases ps with
  | nil => exact absurd rfl h
  | cons q rest =>
    show (((rest.foldl vecMin q).x ∈ _ ∧ (rest.foldl vecMin q).y ∈ _ ∧
        (rest.foldl vecMin q).z ∈ _) ∧
      ((rest.foldl vecMax q).x ∈ _ ∧ (rest.foldl vecMax q).y ∈ _ ∧
        (rest.foldl vecMax q).z ∈ _))
    rw [foldl_vecMin_x, foldl_vecMin_y, foldl_vecMin_z,
      foldl_vecMax_x, foldl_vecMax_y, foldl_vecMax_z]
    have step : ∀ (proj : Vec3 → Rat) (r : Rat),
        r = proj q ∨ r ∈ rest.map proj → r ∈ (q :: rest).map proj := by
      intro proj r hr
      rcases hr with hh | hh
      · rw [hh]; exact List.mem_cons_self _ _
      · exact List.mem_cons_of_mem _ hh
    exact ⟨⟨step Vec3.x _ (foldlMin_mem _ _), step Vec3.y _ (foldlMin_mem _ _),
        step Vec3.z _ (foldlMin_mem _ _)⟩,
      step Vec3.x _ (foldlMax_mem _ _), step Vec3.y _ (foldlMax_mem _ _),
      step Vec3.z _ (foldlMax_mem _ _)⟩

theorem centerOf_mul (ps : List Vec3) (h : ps ≠ []) :
    vecScale (ps.length : Rat) (centerOf ps) = vecSum ps := by
  cases ps with
  | nil => exact absurd rfl h
  | cons p rest =>
    show vecScale ((p :: rest).length : Rat)
      (vecScale (1 / ((p :: rest).length : Rat)) (vecSum (p :: rest))) = vecSum (p :: rest)
    exact vecScale_cancel _ (Nat.cast_ne_zero.mpr (by simp)) _

/-- C8 (amended): `bbox` and `center` range over *all* vertices of the
collection, deleted ones included (the source applies no filter): both are
zero on an empty collection; on a non-empty one the box corners are
componentwise lower/upper bounds over every vertex position — deleted or not —
attained among the vertex coordinates, and the center times the vertex count
equals the componentwise position sum. -/
theorem c8_bbox_center_over_all_vertices (m : HalfedgeMesh) :
    (m.vertices = [] → bbox m = (⟨0, 0, 0⟩, ⟨0, 0, 0⟩) ∧ meshCenter m = ⟨0, 0, 0⟩) ∧
    (∀ v ∈ m.vertices,
      ((bbox m).1.x ≤ v.position.x ∧ (bbox m).1.y ≤ v.position.y ∧
        (bbox m).1.z ≤ v.position.z) ∧
      (v.position.x ≤ (bbox m).2.x ∧ v.position.y ≤ (bbox m).2.y ∧
        v.position.z ≤ (bbox m).2.z)) ∧
    (m.vertices ≠ [] →
      ((bbox m).1.x ∈ m.vertices.map (fun v => v.position.x) ∧
       (bbox m).1.y ∈ m.vertices.map (fun v => v.position.y) ∧
       (bbox m).1.z ∈ m.vertices.map (fun v => v.position.z) ∧
       (bbox m).2.x ∈ m.vertices.map (fun v => v.position.x) ∧
       (bbox m).2.y ∈ m.vertices.map (fun v => v.position.y) ∧
       (bbox m).2.z ∈ m.vertices.map (fun v => v.position.z)) ∧
      vecScale (m.vertices.length : Rat) (meshCenter m)
        = vecSum (m.vertices.map (fun v => v.position))) := by
  refine ⟨?_, ?_, ?_⟩
  · intro hm
    constructor
    · unfold bbox
      rw [hm]
      rfl
    · unfold meshCenter
      rw [hm]
      rfl
  · intro v hv
    exact bboxOf_bounds (m.vertices.map (fun w => w.position)) v.position
      (List.mem_map_of_mem _ hv)
  · intro hne
    have hne' : m.vertices.map (fun v => v.position) ≠ [] := by
      simpa using hne
    constructor
    · have h := bboxOf_attained (m.vertices.map (fun v => v.position)) hne'
      simp only [List.map_map] at h
      exact ⟨h.1.1, h.1.2.1, h.1.2.2, h.2.1, h.2.2.1, h.2.2.2⟩
    · have h := centerOf_mul (m.vertices.map (fun v => v.position)) hne'
      rw [List.length_map] at h
      exact h

/-- C8 witness: the amended theorem applied to the two-vertex mesh with one
deleted vertex. -/
theorem c8_witness :
    (((bbox deletedVertexMesh).1.x ≤ (0 : Rat) ∧ (bbox deletedVertexMesh).1.y ≤ (0 : Rat) ∧
        (bbox deletedVertexMesh).1.z ≤ (0 : Rat)) ∧
      ((0 : Rat) ≤ (bbox deletedVertexMesh).2.x ∧ (0 : Rat) ≤ (bbox deletedVertexMesh).2.y ∧
        (0 : Rat) ≤ (bbox deletedVertexMesh).2.z)) ∧
    vecScale ((deletedVertexMesh.vertices.length : Rat)) (meshCenter deletedVertexMesh)
      = vecSum (deletedVertexMesh.vertices.map (fun v => v.position)) :=
  ⟨(c8_bbox_center_over_all_vertices deletedVertexMesh).2.1
      ⟨⟨0, 0, 0⟩, none, false⟩ (by decide),
   ((c8_bbox_center_over_all_vertices deletedVertexMesh).2.2 (by decide)).2⟩

/-! ### `boundaryStep` characterization -/

theorem modifyHE_bind_keep (m : HalfedgeMesh) (a : Nat) (f : Halfedge → Halfedge)
    (g : Halfedge → Option Nat) (hfg : ∀ he, g (f he) = g he) (j : Nat) :
    ((modifyHE m a f).halfedges[j]?.bind g) = (m.halfedges[j]?.bind g) := by
  rw [modifyHE_get_alt]
  by_cases h : a = j
  · simp only [h, if_pos rfl]
    cases m.halfedges[j]? with
    | none => rfl
    | some he => simp [hfg]
  · simp [h]


/-! ### Stage lemmas for boundary synthesis -/

theorem bsTwins_vertices (m : HalfedgeMesh) (hb h : Nat) :
    (bsTwins m hb h).vertices = m.vertices := by
  unfold bsTwins
  rw [modifyHE_vertices, modifyHE_vertices]

theorem bsTwins_edges (m : HalfedgeMesh) (hb h : Nat) :
    (bsTwins m hb h).edges = m.edges := by
  unfold bsTwins
  rw [modifyHE_edges, modifyHE_edges]

theorem bsTwins_faces (m : HalfedgeMesh) (hb h : Nat) :
    (bsTwins m hb h).faces = m.faces := by
  unfold bsTwins
  rw [modifyHE_faces, modifyHE_faces]

theorem bsTwins_bfaces (m : HalfedgeMesh) (hb h : Nat) :
    (bsTwins m hb h).boundary_faces = m.boundary_faces := by
  unfold bsTwins
  rw [modifyHE_bfaces, modifyHE_bfaces]

theorem bsTwins_hlen (m : HalfedgeMesh) (hb h : Nat) :
    (bsTwins m hb h).halfedges.length = m.halfedges.length + 1 := by
  unfold bsTwins
  rw [modifyHE_hlen, modifyHE_hlen]
  simp

theorem bsTwins_get_old (m : HalfedgeMesh) (hb h j : Nat) (hj : j < m.halfedges.length)
    (hjh : j ≠ h) (hhb : hb = m.halfedges.length) :
    (bsTwins m hb h).halfedges[j]? = m.halfedges[j]? := by
  unfold bsTwins
  rw [modifyHE_get_ne _ _ _ _ (fun hh => hjh hh.symm)]
  rw [modifyHE_get_ne _ _ _ _ (by omega)]
  dsimp only
  rw [List.getElem?_append_left hj]

theorem bsTwins_get_h (m : HalfedgeMesh) (hb h : Nat) (heH : Halfedge)
    (hin : m.halfedges[h]? = some heH) (hh : h < m.halfedges.length)
    (hhb : hb = m.halfedges.length) :
    (bsTwins m hb h).halfedges[h]? = some (setTwin hb heH) := by
  unfold bsTwins
  rw [modifyHE_get_self _ h (setTwin hb) heH (by
    rw [modifyHE_get_ne _ _ _ _ (by omega)]
    dsimp only
    rw [List.getElem?_append_left hh]
    exact hin)]

theorem bsTwins_get_hb (m : HalfedgeMesh) (hb h : Nat) (hh : h < m.halfedges.length)
    (hhb : hb = m.halfedges.length) :
    (bsTwins m hb h).halfedges[hb]? = some ⟨none, some h, none, none, none⟩ := by
  unfold bsTwins
  rw [modifyHE_get_ne _ _ _ _ (by omega)]
  rw [modifyHE_get_self _ hb (setTwin h) default (by
    dsimp only
    rw [hhb, List.getElem?_append_right (le_refl _)]
    simp)]
  rfl

theorem bsTwins_heNext (m : HalfedgeMesh) (hb h j : Nat) (hj : j < m.halfedges.length) :
    heNext (bsTwins m hb h) j = heNext m j := by
  unfold bsTwins heNext
  rw [modifyHE_bind_keep _ _ (setTwin hb) (fun he => he.next) (fun _ => rfl)]
  rw [modifyHE_bind_keep _ _ (setTwin h) (fun he => he.next) (fun _ => rfl)]
  dsimp only
  rw [List.getElem?_append_left hj]

theorem bsTwins_heVertex (m : HalfedgeMesh) (hb h j : Nat) (hj : j < m.halfedges.length) :
    heVertex (bsTwins m hb h) j = heVertex m j := by
  unfold bsTwins heVertex
  rw [modifyHE_bind_keep _ _ (setTwin hb) (fun he => he.vertex) (fun _ => rfl)]
  rw [modifyHE_bind_keep _ _ (setTwin h) (fun he => he.vertex) (fun _ => rfl)]
  dsimp only
  rw [List.getElem?_append_left hj]

theorem bsTwins_heEdge (m : HalfedgeMesh) (hb h j : Nat) (hj : j < m.halfedges.length) :
    heEdge (bsTwins m hb h) j = heEdge m j := by
  unfold bsTwins heEdge
  rw [modifyHE_bind_keep _ _ (setTwin hb) (fun he => he.edge) (fun _ => rfl)]
  rw [modifyHE_bind_keep _ _ (setTwin h) (fun he => he.edge) (fun _ => rfl)]
  dsimp only
  rw [List.getElem?_append_left hj]

theorem bsFields_vertices (m3 : HalfedgeMesh) (hb h : Nat) :
    (bsFields m3 hb h).vertices = m3.vertices := by
  unfold bsFields
  rw [modifyHE_vertices, modifyHE_vertices, modifyHE_vertices]

theorem bsFields_edges (m3 : HalfedgeMesh) (hb h : Nat) :
    (bsFields m3 hb h).edges = m3.edges := by
  unfold bsFields
  rw [modifyHE_edges, modifyHE_edges, modifyHE_edges]

theorem bsFields_faces (m3 : HalfedgeMesh) (hb h : Nat) :
    (bsFields m3 hb h).faces = m3.faces := by
  unfold bsFields
  rw [modifyHE_faces, modifyHE_faces, modifyHE_faces]

theorem bsFields_bfaces (m3 : HalfedgeMesh) (hb h : Nat) :
    (bsFields m3 hb h).boundary_faces = m3.boundary_faces := by
  unfold bsFields
  rw [modifyHE_bfaces, modifyHE_bfaces, modifyHE_bfaces]

theorem bsFields_hlen (m3 : HalfedgeMesh) (hb h : Nat) :
    (bsFields m3 hb h).halfedges.length = m3.halfedges.length := by
  unfold bsFields
  rw [modifyHE_hlen, modifyHE_hlen, modifyHE_hlen]

theorem bsFields_get_ne (m3 : HalfedgeMesh) (hb h j : Nat) (hj : hb ≠ j) :
    (bsFields m3 hb h).halfedges[j]? = m3.halfedges[j]? := by
  unfold bsFields
  rw [modifyHE_get_ne _ _ _ _ hj, modifyHE_get_ne _ _ _ _ hj, modifyHE_get_ne _ _ _ _ hj]

theorem bsFields_get_hb (m3 : HalfedgeMesh) (hb h : Nat) (he3 : Halfedge)
    (hin : m3.halfedges[hb]? = some he3) :
    (bsFields m3 hb h).halfedges[hb]?
      = some ⟨some hb, he3.twin, bsSrcV m3 h, heEdge m3 h, he3.face⟩ := by
  unfold bsFields
  have g4 := modifyHE_get_self m3 hb (setVertexO (bsSrcV m3 h)) he3 hin
  have hedge : heEdge (modifyHE m3 hb (setVertexO (bsSrcV m3 h))) h = heEdge m3 h := by
    unfold heEdge
    rw [modifyHE_bind_keep _ _ (setVertexO (bsSrcV m3 h)) (fun he => he.edge) (fun _ => rfl)]
  have g5 := modifyHE_get_self _ hb
    (setEdgeO (heEdge (modifyHE m3 hb (setVertexO (bsSrcV m3 h))) h)) _ g4
  rw [modifyHE_get_self _ hb (setNextSelf hb) _ g5]
  rw [hedge]
  rfl

theorem bsFace_vertices (m6 : HalfedgeMesh) (hb : Nat) :
    (bsFace m6 hb).vertices = m6.vertices := by
  unfold bsFace
  rw [show (∀ a : HalfedgeMesh, a.vertices = a.vertices) from fun _ => rfl]
  dsimp only
  rw [modifyHE_vertices]

theorem bsFace_edges (m6 : HalfedgeMesh) (hb : Nat) :
    (bsFace m6 hb).edges = m6.edges := by
  unfold bsFace
  dsimp only
  rw [modifyHE_edges]

theorem bsFace_faces (m6 : HalfedgeMesh) (hb : Nat) :
    (bsFace m6 hb).faces = m6.faces ++
      [({ halfedge := none, is_boundary := true, deleted := false } : Face)] := by
  unfold bsFace
  dsimp only
  rw [modifyHE_faces]

theorem bsFace_bfaces (m6 : HalfedgeMesh) (hb : Nat) :
    (bsFace m6 hb).boundary_faces = m6.boundary_faces ++ [m6.faces.length] := by
  unfold bsFace
  dsimp only
  rw [modifyHE_bfaces]

theorem bsFace_hlen (m6 : HalfedgeMesh) (hb : Nat) :
    (bsFace m6 hb).halfedges.length = m6.halfedges.length := by
  unfold bsFace
  dsimp only
  rw [modifyHE_hlen]

theorem bsFace_get_ne (m6 : HalfedgeMesh) (hb j : Nat) (hj : hb ≠ j) :
    (bsFace m6 hb).halfedges[j]? = m6.halfedges[j]? := by
  unfold bsFace
  dsimp only
  rw [modifyHE_get_ne _ _ _ _ hj]

theorem bsFace_get_hb (m6 : HalfedgeMesh) (hb : Nat) (he6 : Halfedge)
    (hin : m6.halfedges[hb]? = some he6) :
    (bsFace m6 hb).halfedges[hb]? = some (setFace m6.faces.length he6) := by
  unfold bsFace
  dsimp only
  rw [modifyHE_get_self _ hb (setFace m6.faces.length) he6 (by dsimp only; exact hin)]

/-! ### Composed boundary-synthesis lemmas -/

theorem boundarySynth_vertices (m : HalfedgeMesh) (h : Nat) :
    (boundarySynth m h).vertices = m.vertices := by
  unfold boundarySynth
  rw [bsFace_vertices, bsFields_vertices, bsTwins_vertices]

theorem boundarySynth_edges (m : HalfedgeMesh) (h : Nat) :
    (boundarySynth m h).edges = m.edges := by
  unfold boundarySynth
  rw [bsFace_edges, bsFields_edges, bsTwins_edges]

theorem boundarySynth_faces (m : HalfedgeMesh) (h : Nat) :
    (boundarySynth m h).faces = m.faces ++
      [({ halfedge := none, is_boundary := true, deleted := false } : Face)] := by
  unfold boundarySynth
  rw [bsFace_faces, bsFields_faces, bsTwins_faces]

theorem boundarySynth_bfaces (m : HalfedgeMesh) (h : Nat) :
    (boundarySynth m h).boundary_faces = m.boundary_faces ++ [m.faces.length] := by
  unfold boundarySynth
  rw [bsFace_bfaces, bsFields_bfaces, bsTwins_bfaces, bsFields_faces, bsTwins_faces]

theorem boundarySynth_hlen (m : HalfedgeMesh) (h : Nat) :
    (boundarySynth m h).halfedges.length = m.halfedges.length + 1 := by
  unfold boundarySynth
  rw [bsFace_hlen, bsFields_hlen, bsTwins_hlen]

theorem boundarySynth_get_old (m : HalfedgeMesh) (h j : Nat) (hj : j < m.halfedges.length)
    (hjh : j ≠ h) :
    (boundarySynth m h).halfedges[j]? = m.halfedges[j]? := by
  unfold boundarySynth
  rw [bsFace_get_ne _ _ _ (by omega), bsFields_get_ne _ _ _ _ (by omega)]
  exact bsTwins_get_old m _ h j hj hjh rfl

theorem boundarySynth_get_h (m : HalfedgeMesh) (h : Nat) (heH : Halfedge)
    (hin : m.halfedges[h]? = some heH) (hh : h < m.halfedges.length) :
    (boundarySynth m h).halfedges[h]? = some (setTwin m.halfedges.length heH) := by
  unfold boundarySynth
  rw [bsFace_get_ne _ _ _ (by omega), bsFields_get_ne _ _ _ _ (by omega)]
  exact bsTwins_get_h m _ h heH hin hh rfl

theorem boundarySynth_get_hb (m : HalfedgeMesh) (h : Nat) (hh : h < m.halfedges.length) :
    (boundarySynth m h).halfedges[m.halfedges.length]?
      = some ⟨some m.halfedges.length, some h,
              bsSrcV (bsTwins m m.halfedges.length h) h,
              heEdge m h, some m.faces.length⟩ := by
  unfold boundarySynth
  have hEdge : heEdge (bsTwins m m.halfedges.length h) h = heEdge m h :=
    bsTwins_heEdge m _ h h hh
  have g3 := bsTwins_get_hb m m.halfedges.length h hh rfl
  have g6 := bsFields_get_hb (bsTwins m m.halfedges.length h) m.halfedges.length h _ g3
  rw [hEdge] at g6
  have hfl : (bsFields (bsTwins m m.halfedges.length h) m.halfedges.length h).faces
      = m.faces := by
    rw [bsFields_faces, bsTwins_faces]
  rw [bsFace_get_hb _ _ _ g6, hfl]
  rfl

theorem boundaryStep_skip (m : HalfedgeMesh) (entry : (Nat × Nat) × List Nat)
    (hob : ∀ h, entry.2 ≠ [h]) : boundaryStep m entry = m := by
  unfold boundaryStep
  cases hl : entry.2 with
  | nil => rfl
  | cons a t =>
    cases t with
    | nil => exact absurd hl (hob a)
    | cons b t2 => rfl

theorem boundaryStep_single (m : HalfedgeMesh) (k : Nat × Nat) (h : Nat) :
    boundaryStep m (k, [h]) = boundarySynth m h := rfl

theorem boundaryStep_vertices (m : HalfedgeMesh) (entry : (Nat × Nat) × List Nat) :
    (boundaryStep m entry).vertices = m.vertices := by
  unfold boundaryStep
  cases entry.2 with
  | nil => rfl
  | cons a t =>
    cases t with
    | nil => exact boundarySynth_vertices m a
    | cons b t2 => rfl

theorem boundaryStep_edges (m : HalfedgeMesh) (entry : (Nat × Nat) × List Nat) :
    (boundaryStep m entry).edges = m.edges := by
  unfold boundaryStep
  cases entry.2 with
  | nil => rfl
  | cons a t =>
    cases t with
    | nil => exact boundarySynth_edges m a
    | cons b t2 => rfl

theorem boundaryStep_faces_ext (m : HalfedgeMesh) (entry : (Nat × Nat) × List Nat) :
    ∃ ap : List Face, (boundaryStep m entry).faces = m.faces ++ ap ∧
      ∀ fc ∈ ap, fc = ({ halfedge := none, is_boundary := true, deleted := false } : Face) := by
  unfold boundaryStep
  cases entry.2 with
  | nil => exact ⟨[], by simp⟩
  | cons a t =>
    cases t with
    | nil =>
      refine ⟨[({ halfedge := none, is_boundary := true, deleted := false } : Face)],
        boundarySynth_faces m a, ?_⟩
      intro fc hfc
      simpa using hfc
    | cons b t2 => exact ⟨[], by simp⟩

theorem boundaryStep_hlen_ge (m : HalfedgeMesh) (entry : (Nat × Nat) × List Nat) :
    m.halfedges.length ≤ (boundaryStep m entry).halfedges.length := by
  unfold boundaryStep
  cases entry.2 with
  | nil => exact le_refl _
  | cons a t =>
    cases t with
    | nil => rw [boundarySynth_hlen]; omega
    | cons b t2 => exact le_refl _

/-! ### Builder preservation: the Connectivity Builder only appends -/

theorem MeshPres.refl (m : HalfedgeMesh) : MeshPres m m :=
  ⟨le_refl _, fun _ _ => rfl, le_refl _, fun _ _ => rfl, le_refl _,
    fun _ _ => rfl, rfl, fun _ => rfl⟩

theorem MeshPres.trans {m0 m1 m2 : HalfedgeMesh} (a : MeshPres m0 m1) (b : MeshPres m1 m2) :
    MeshPres m0 m2 :=
  ⟨le_trans a.hlen b.hlen,
   fun j hj => (b.hpre j (lt_of_lt_of_le hj a.hlen)).trans (a.hpre j hj),
   le_trans a.elen b.elen,
   fun j hj => (b.epre j (lt_of_lt_of_le hj a.elen)).trans (a.epre j hj),
   le_trans a.flen b.flen,
   fun j hj => (b.fpre j (lt_of_lt_of_le hj a.flen)).trans (a.fpre j hj),
   b.vlen.trans a.vlen,
   fun j => (b.vfr j).trans (a.vfr j)⟩

theorem foldl_inv {α β : Type} (P : β → Prop) (f : β → α → β) :
    ∀ (l : List α) (b : β), (∀ b' a, a ∈ l → P b' → P (f b' a)) → P b → P (l.foldl f b) := by
  intro l
  induction l with
  | nil => intro b _ hb; exact hb
  | cons a t ih =>
    intro b hstep hb
    exact ih (f b a) (fun b' a' ha' => hstep b' a' (List.mem_cons_of_mem _ ha'))
      (hstep b a (List.mem_cons_self _ _) hb)

theorem connStep_pres (fv : List Nat) (fIdx base n : Nat) (st : BuildState) (i : Nat)
    (m0 : HalfedgeMesh) (hbase : m0.halfedges.length ≤ base)
    (hi : base + i < st.mesh.halfedges.length)
    (hpres : MeshPres m0 st.mesh)
    (hbnd : EMBounded m0.halfedges.length st.edgeMap st.mesh.halfedges.length) :
    MeshPres m0 (connStep fv fIdx base n st i).mesh ∧
    EMBounded m0.halfedges.length (connStep fv fIdx base n st i).edgeMap
      (connStep fv fIdx base n st i).mesh.halfedges.length := by
  obtain ⟨ap, hap⟩ := connStep_edges_ext fv fIdx base n st i
  constructor
  · refine ⟨?_, ?_, ?_, ?_, ?_, ?_, ?_, ?_⟩
    · rw [connStep_hlen]; exact hpres.hlen
    · intro j hj
      rw [connStep_get_ne fv fIdx base n st i j (by omega) ?_]
      · exact hpres.hpre j hj
      · intro o rest hlk
        have hmem := emLookup_mem _ _ _ hlk
        have hb := (hbnd _ hmem o (List.mem_cons_self _ _)).1
        omega
    · rw [hap, List.length_append]
      exact le_trans hpres.elen (Nat.le_add_right _ _)
    · intro j hj
      rw [hap, List.getElem?_append_left (lt_of_lt_of_le hj hpres.elen)]
      exact hpres.epre j hj
    · rw [connStep_faces]; exact hpres.flen
    · intro j hj; rw [connStep_faces]; exact hpres.fpre j hj
    · rw [connStep_vlen]; exact hpres.vlen
    · intro j
      have hv := hpres.vfr j
      unfold vframe at hv ⊢
      rw [connStep_vpos]
      exact hv
  · rw [connStep_hlen]
    cases hlk : emLookup st.edgeMap (edgeKey (fv.getD i 0) (fv.getD ((i + 1) % n) 0)) with
    | none =>
      rw [connStep_map_new fv fIdx base n st i hlk]
      intro e he x hx
      rcases List.mem_append.mp he with h1 | h2
      · exact hbnd e h1 x hx
      · have he2 : e = (edgeKey (fv.getD i 0) (fv.getD ((i + 1) % n) 0), [base + i]) := by
          simpa using h2
        subst he2
        have hx2 : x = base + i := by simpa using hx
        subst hx2
        exact ⟨by omega, hi⟩
    | some l =>
      cases l with
      | nil =>
        rw [connStep_map_skip fv fIdx base n st i hlk]
        exact hbnd
      | cons o rest =>
        rw [connStep_map_join fv fIdx base n st i o rest hlk]
        intro e he x hx
        rcases emAppend_mem _ _ _ _ he with h1 | ⟨l', hl', hel⟩
        · exact hbnd e h1 x hx
        · subst hel
          rcases List.mem_append.mp hx with hx1 | hx2
          · exact hbnd _ hl' x hx1
          · have hx2' : x = base + i := by simpa using hx2
            subst hx2'
            exact ⟨by omega, hi⟩

theorem connLoop_pres (fv : List Nat) (fIdx base n : Nat) (st : BuildState)
    (m0 : HalfedgeMesh) (hbase : m0.halfedges.length ≤ base)
    (hlen : st.mesh.halfedges.length = base + n)
    (hpres : MeshPres m0 st.mesh)
    (hbnd : EMBounded m0.halfedges.length st.edgeMap st.mesh.halfedges.length) :
    MeshPres m0 ((List.range n).foldl (connStep fv fIdx base n) st).mesh ∧
    EMBounded m0.halfedges.length
      ((List.range n).foldl (connStep fv fIdx base n) st).edgeMap
      ((List.range n).foldl (connStep fv fIdx base n) st).mesh.halfedges.length ∧
    ((List.range n).foldl (connStep fv fIdx base n) st).mesh.halfedges.length = base + n := by
  refine foldl_inv (fun s => MeshPres m0 s.mesh ∧
      EMBounded m0.halfedges.length s.edgeMap s.mesh.halfedges.length ∧
      s.mesh.halfedges.length = base + n)
    (connStep fv fIdx base n) (List.range n) st ?_ ⟨hpres, hbnd, hlen⟩
  intro s a ha ⟨hp, hb, hl⟩
  have han : a < n := List.mem_range.mp ha
  have hia : base + a < s.mesh.halfedges.length := by omega
  obtain ⟨hp', hb'⟩ := connStep_pres fv fIdx base n s a m0 hbase hia hp hb
  exact ⟨hp', hb', by rw [connStep_hlen]; exact hl⟩


theorem pfTail_eq (st2 : BuildState) (fIdx base : Nat) :
    (⟨match st2.mesh.faces[fIdx]? with
       | some f => { st2.mesh with faces := st2.mesh.faces.set fIdx { f with halfedge := some base } }
       | none => st2.mesh, st2.edgeMap⟩ : BuildState) = pfSetFace st2 fIdx base := by
  unfold pfSetFace
  cases st2.mesh.faces[fIdx]? with
  | none => rfl
  | some f => rfl

theorem processFace_eq (st : BuildState) (fv : List Nat) (h3 : ¬ fv.length < 3) :
    processFace st fv
      = pfSetFace (pfLoop st fv) st.mesh.faces.length st.mesh.halfedges.length := by
  unfold processFace
  rw [if_neg h3]
  exact pfTail_eq (pfLoop st fv) st.mesh.faces.length st.mesh.halfedges.length

theorem pfLoop_def (st : BuildState) (fv : List Nat) :
    pfLoop st fv = (List.range fv.length).foldl
      (connStep fv st.mesh.faces.length st.mesh.halfedges.length fv.length)
      ⟨pfM2 st fv, st.edgeMap⟩ := rfl

theorem pfSetFace_edgeMap (st2 : BuildState) (fIdx base : Nat) :
    (pfSetFace st2 fIdx base).edgeMap = st2.edgeMap := by
  unfold pfSetFace
  cases st2.mesh.faces[fIdx]? with
  | none => rfl
  | some f => rfl

theorem pfSetFace_halfedges (st2 : BuildState) (fIdx base : Nat) :
    (pfSetFace st2 fIdx base).mesh.halfedges = st2.mesh.halfedges := by
  unfold pfSetFace
  cases st2.mesh.faces[fIdx]? with
  | none => rfl
  | some f => rfl

theorem pfSetFace_pres (st2 : BuildState) (fIdx base : Nat) (m0 : HalfedgeMesh)
    (hf : m0.faces.length ≤ fIdx) (hpres : MeshPres m0 st2.mesh) :
    MeshPres m0 (pfSetFace st2 fIdx base).mesh := by
  unfold pfSetFace
  cases hm : st2.mesh.faces[fIdx]? with
  | none => exact hpres
  | some f =>
    dsimp only
    refine ⟨hpres.hlen, hpres.hpre, hpres.elen, hpres.epre, ?_, ?_, hpres.vlen, hpres.vfr⟩
    · dsimp only; rw [List.length_set]; exact hpres.flen
    · intro j hj
      dsimp only
      rw [List.getElem?_set_ne (by omega : fIdx ≠ j)]
      exact hpres.fpre j hj

theorem pfM2_pres (st : BuildState) (fv : List Nat) (m0 : HalfedgeMesh)
    (hpres : MeshPres m0 st.mesh) : MeshPres m0 (pfM2 st fv) := by
  refine MeshPres.trans hpres ⟨?_, ?_, ?_, ?_, ?_, ?_, ?_, ?_⟩
  · unfold pfM2; dsimp only; rw [List.length_append]; exact Nat.le_add_right _ _
  · intro j hj
    unfold pfM2; dsimp only
    rw [List.getElem?_append_left hj]
  · exact le_refl _
  · intro j hj; rfl
  · unfold pfM2; dsimp only; rw [List.length_append]; exact Nat.le_add_right _ _
  · intro j hj
    unfold pfM2; dsimp only
    rw [List.getElem?_append_left hj]
  · rfl
  · intro j; rfl

theorem processFace_pres (st : BuildState) (fv : List Nat) (m0 : HalfedgeMesh)
    (hpres : MeshPres m0 st.mesh)
    (hbnd : EMBounded m0.halfedges.length st.edgeMap st.mesh.halfedges.length) :
    MeshPres m0 (processFace st fv).mesh ∧
    EMBounded m0.halfedges.length (processFace st fv).edgeMap
      (processFace st fv).mesh.halfedges.length := by
  by_cases h3 : fv.length < 3
  · unfold processFace; rw [if_pos h3]; exact ⟨hpres, hbnd⟩
  · rw [processFace_eq st fv h3]
    have hl2 : (pfM2 st fv).halfedges.length = st.mesh.halfedges.length + fv.length := by
      unfold pfM2; dsimp only; rw [List.length_append, List.length_replicate]
    have hb2 : EMBounded m0.halfedges.length st.edgeMap (pfM2 st fv).halfedges.length := by
      intro e he x hx
      obtain ⟨ha, hb⟩ := hbnd e he x hx
      exact ⟨ha, by omega⟩
    obtain ⟨hpL, hbL, hlL⟩ := connLoop_pres fv st.mesh.faces.length st.mesh.halfedges.length
      fv.length ⟨pfM2 st fv, st.edgeMap⟩ m0 hpres.hlen hl2 (pfM2_pres st fv m0 hpres) hb2
    rw [← pfLoop_def] at hpL hbL hlL
    constructor
    · exact pfSetFace_pres _ _ _ m0 hpres.flen hpL
    · rw [pfSetFace_edgeMap, pfSetFace_halfedges]
      exact hbL

theorem boundarySynth_pres (m m0 : HalfedgeMesh) (h : Nat)
    (hpres : MeshPres m0 m) (hh0 : m0.halfedges.length ≤ h) :
    MeshPres m0 (boundarySynth m h) := by
  refine ⟨?_, ?_, ?_, ?_, ?_, ?_, ?_, ?_⟩
  · rw [boundarySynth_hlen]; exact le_trans hpres.hlen (Nat.le_succ _)
  · intro j hj
    rw [boundarySynth_get_old m h j (lt_of_lt_of_le hj hpres.hlen) (by omega)]
    exact hpres.hpre j hj
  · rw [boundarySynth_edges]; exact hpres.elen
  · intro j hj; rw [boundarySynth_edges]; exact hpres.epre j hj
  · rw [boundarySynth_faces, List.length_append]
    exact le_trans hpres.flen (Nat.le_add_right _ _)
  · intro j hj
    rw [boundarySynth_faces, List.getElem?_append_left (lt_of_lt_of_le hj hpres.flen)]
    exact hpres.fpre j hj
  · rw [boundarySynth_vertices]; exact hpres.vlen
  · intro j
    unfold vframe
    rw [boundarySynth_vertices]
    exact hpres.vfr j

theorem boundaryStep_pres (m m0 : HalfedgeMesh) (entry : (Nat × Nat) × List Nat)
    (hpres : MeshPres m0 m) (hh0 : ∀ x ∈ entry.2, m0.halfedges.length ≤ x) :
    MeshPres m0 (boundaryStep m entry) := by
  unfold boundaryStep
  cases hl : entry.2 with
  | nil => exact hpres
  | cons a t =>
    cases t with
    | nil =>
      exact boundarySynth_pres m m0 a hpres (hh0 a (by rw [hl]; exact List.mem_cons_self _ _))
    | cons b t2 => exact hpres

theorem builder_pres (m0 : HalfedgeMesh) (fs : List (List Nat)) :
    MeshPres m0 (buildHalfedgeConnectivity m0 fs) := by
  unfold buildHalfedgeConnectivity
  dsimp only
  have hface : MeshPres m0 (fs.foldl processFace ⟨m0, []⟩).mesh ∧
      EMBounded m0.halfedges.length (fs.foldl processFace ⟨m0, []⟩).edgeMap
        (fs.foldl processFace ⟨m0, []⟩).mesh.halfedges.length := by
    refine foldl_inv (fun s => MeshPres m0 s.mesh ∧
        EMBounded m0.halfedges.length s.edgeMap s.mesh.halfedges.length)
      processFace fs ⟨m0, []⟩ ?_ ⟨MeshPres.refl m0, fun e he => absurd he (List.not_mem_nil e)⟩
    intro s fv _ ⟨hp, hb⟩
    exact processFace_pres s fv m0 hp hb
  refine foldl_inv (fun m => MeshPres m0 m) boundaryStep
    (fs.foldl processFace ⟨m0, []⟩).edgeMap (fs.foldl processFace ⟨m0, []⟩).mesh ?_ hface.1
  intro m entry hentry hp
  exact boundaryStep_pres m m0 entry hp
    (fun x hx => (hface.2 entry hentry x hx).1)

theorem triangulate_eq (m : HalfedgeMesh) :
    triangulate m = if (triScan m).2.2 = 0 then (0, m)
      else ((triScan m).2.2,
        buildHalfedgeConnectivity (markDeleted m (triScan m).2.1) (triScan m).1) := rfl

theorem triangulate_cases (m : HalfedgeMesh) :
    (triangulate m).2 = m ∨
    ∃ lst tris, (triangulate m).2 = buildHalfedgeConnectivity (markDeleted m lst) tris := by
  rw [triangulate_eq]
  by_cases hz : (triScan m).2.2 = 0
  · rw [if_pos hz]; exact Or.inl rfl
  · rw [if_neg hz]; exact Or.inr ⟨(triScan m).2.1, (triScan m).1, rfl⟩

theorem markDeleted_flen (m : HalfedgeMesh) (lst : List Nat) :
    (markDeleted m lst).faces.length = m.faces.length := by
  unfold markDeleted
  dsimp only
  rw [List.length_map, List.enum_length]

theorem markDeleted_fget (m : HalfedgeMesh) (lst : List Nat) (j : Nat) :
    (markDeleted m lst).faces[j]?
      = (m.faces[j]?).map (fun f => if j ∈ lst then { f with deleted := true } else f) := by
  unfold markDeleted
  dsimp only
  rw [List.getElem?_map, List.getElem?_enum]
  cases m.faces[j]? with
  | none => rfl
  | some f => rfl

/-- C9: `triangulate` never changes the vertex collection — the mesh afterwards
has the same number of vertices, each with unchanged position and deleted flag.
Edges and halfedges are only added: every pre-call entry is still at its index,
unchanged.  Pre-call faces also stay at their indices with unchanged `halfedge`
and `is_boundary` fields; at most their `deleted` flag is newly set. -/
theorem c9_triangulate_vertex_frame (m : HalfedgeMesh) :
    ((triangulate m).2.vertices.length = m.vertices.length ∧
      ∀ j, vframe (triangulate m).2 j = vframe m j) ∧
    (∀ j, j < m.edges.length → (triangulate m).2.edges[j]? = m.edges[j]?) ∧
    (∀ j, j < m.halfedges.length → (triangulate m).2.halfedges[j]? = m.halfedges[j]?) ∧
    m.edges.length ≤ (triangulate m).2.edges.length ∧
    m.halfedges.length ≤ (triangulate m).2.halfedges.length ∧
    m.faces.length ≤ (triangulate m).2.faces.length ∧
    (∀ (j : Nat) (f : Face), m.faces[j]? = some f →
      ∃ f2 : Face, (triangulate m).2.faces[j]? = some f2 ∧
      f2.halfedge = f.halfedge ∧ f2.is_boundary = f.is_boundary ∧
      (f2.deleted = f.deleted ∨ f2.deleted = true)) := by
  rcases triangulate_cases m with hc | ⟨lst, tris, hc⟩
  · rw [hc]
    exact ⟨⟨rfl, fun _ => rfl⟩, fun _ _ => rfl, fun _ _ => rfl, le_refl _, le_refl _,
      le_refl _, fun j f hf => ⟨f, hf, rfl, rfl, Or.inl rfl⟩⟩
  · rw [hc]
    have hp := builder_pres (markDeleted m lst) tris
    refine ⟨⟨hp.vlen, fun j => hp.vfr j⟩, fun j hj => hp.epre j hj, fun j hj => hp.hpre j hj,
      hp.elen, hp.hlen, ?_, ?_⟩
    · rw [← markDeleted_flen m lst]; exact hp.flen
    · intro j f hf
      have hj : j < m.faces.length := by
        by_contra hcn
        rw [List.getElem?_eq_none (by omega)] at hf
        exact Option.noConfusion hf
      have h1 := hp.fpre j (by rw [markDeleted_flen]; exact hj)
      rw [markDeleted_fget, hf] at h1
      have h2 : (buildHalfedgeConnectivity (markDeleted m lst) tris).faces[j]?
          = some (if j ∈ lst then { f with deleted := true } else f) := h1.trans rfl
      by_cases hin : j ∈ lst
      · exact ⟨_, h2, by rw [if_pos hin], by rw [if_pos hin],
          by rw [if_pos hin]; exact Or.inr rfl⟩
      · exact ⟨_, h2, by rw [if_neg hin], by rw [if_neg hin],
          by rw [if_neg hin]; exact Or.inl rfl⟩

theorem c9_witness :
    0 < quadMesh.edges.length ∧ 0 < quadMesh.halfedges.length ∧
    quadMesh.faces[0]? = some (quadMesh.faces.getD 0 default) ∧
    (triangulate quadMesh).2.edges[0]? = quadMesh.edges[0]? ∧
    (triangulate quadMesh).2.halfedges[0]? = quadMesh.halfedges[0]? ∧
    ∃ f2 : Face, (triangulate quadMesh).2.faces[0]? = some f2 ∧
      f2.halfedge = (quadMesh.faces.getD 0 default).halfedge ∧
      f2.is_boundary = (quadMesh.faces.getD 0 default).is_boundary ∧
      (f2.deleted = (quadMesh.faces.getD 0 default).deleted ∨ f2.deleted = true) :=
  ⟨by decide, by decide, by decide,
   (c9_triangulate_vertex_frame quadMesh).2.1 0 (by decide),
   (c9_triangulate_vertex_frame quadMesh).2.2.1 0 (by decide),
   (c9_triangulate_vertex_frame quadMesh).2.2.2.2.2.2 0 (quadMesh.faces.getD 0 default)
     (by decide)⟩

theorem linear_clear_rebuild (m r : HalfedgeMesh)
    (hr : subdivide_linear m = some (true, r)) :
    ∃ vs fs, r = buildHalfedgeConnectivity (initMesh vs) fs := by
  unfold subdivide_linear at hr
  simp only [] at hr
  split at hr
  · simp at hr
  · split at hr
    · exact Option.noConfusion hr
    · have h := Option.some.inj hr
      exact ⟨_, _, (congrArg Prod.snd h).symm⟩

theorem loop_clear_rebuild (m r : HalfedgeMesh)
    (hr : subdivide_loop m = some (true, r)) :
    ∃ vs fs, r = buildHalfedgeConnectivity (initMesh vs) fs := by
  unfold subdivide_loop at hr
  simp only [] at hr
  split at hr
  · simp at hr
  · split at hr
    · simp at hr
    · split at hr
      · exact Option.noConfusion hr
      · split at hr
        · exact Option.noConfusion hr
        · have h := Option.some.inj hr
          exact ⟨_, _, (congrArg Prod.snd h).symm⟩

/-- C5 (amended): `subdivide_linear` and `subdivide_loop`, whenever they mutate
the mesh, replace it by a Connectivity-Builder rebuild from a fresh vertex list
over empty edge/face/halfedge/boundary collections; `triangulate` does not
clear — every pre-call edge and halfedge is still at its index unchanged, and
every pre-call face is still at its index with unchanged `halfedge` and
`is_boundary` fields (only its `deleted` flag may newly be set). -/
theorem c5_clear_and_rebuild (m : HalfedgeMesh) :
    (∀ r : HalfedgeMesh, subdivide_linear m = some (true, r) →
      ∃ vs fs, r = buildHalfedgeConnectivity (initMesh vs) fs) ∧
    (∀ r : HalfedgeMesh, subdivide_loop m = some (true, r) →
      ∃ vs fs, r = buildHalfedgeConnectivity (initMesh vs) fs) ∧
    (∀ j : Nat, j < m.halfedges.length → (triangulate m).2.halfedges[j]? = m.halfedges[j]?) ∧
    (∀ j : Nat, j < m.edges.length → (triangulate m).2.edges[j]? = m.edges[j]?) ∧
    (∀ (j : Nat) (f : Face), m.faces[j]? = some f → ∃ f2 : Face,
      (triangulate m).2.faces[j]? = some f2 ∧ f2.halfedge = f.halfedge ∧
      f2.is_boundary = f.is_boundary) := by
  refine ⟨linear_clear_rebuild m, loop_clear_rebuild m, ?_, ?_, ?_⟩ <;>
    rcases triangulate_cases m with hc | ⟨lst, tris, hc⟩
  · rw [hc]; exact fun j hj => rfl
  · rw [hc]; exact fun j hj => (builder_pres (markDeleted m lst) tris).hpre j hj
  · rw [hc]; exact fun j hj => rfl
  · rw [hc]; exact fun j hj => (builder_pres (markDeleted m lst) tris).epre j hj
  · rw [hc]; exact fun j f hf => ⟨f, hf, rfl, rfl⟩
  · rw [hc]
    intro j f hf
    have hj : j < m.faces.length := by
      by_contra hcn
      rw [List.getElem?_eq_none (by omega)] at hf
      exact Option.noConfusion hf
    have h1 := (builder_pres (markDeleted m lst) tris).fpre j
      (by rw [markDeleted_flen]; exact hj)
    rw [markDeleted_fget, hf] at h1
    have h2 : (buildHalfedgeConnectivity (markDeleted m lst) tris).faces[j]?
        = some (if j ∈ lst then { f with deleted := true } else f) := h1.trans rfl
    by_cases hin : j ∈ lst
    · exact ⟨_, h2, by rw [if_pos hin], by rw [if_pos hin]⟩
    · exact ⟨_, h2, by rw [if_neg hin], by rw [if_neg hin]⟩

set_option maxRecDepth 100000 in
theorem c5_witness :
    (∃ vs fs, ((subdivide_linear quadMesh).getD (false, quadMesh)).2
        = buildHalfedgeConnectivity (initMesh vs) fs) ∧
    (∃ vs fs, ((subdivide_loop triMesh).getD (false, triMesh)).2
        = buildHalfedgeConnectivity (initMesh vs) fs) ∧
    0 < quadMesh.edges.length ∧
    (triangulate quadMesh).2.edges[0]? = quadMesh.edges[0]? :=
  ⟨(c5_clear_and_rebuild quadMesh).1 _ (by decide),
   (c5_clear_and_rebuild triMesh).2.1 _ (by decide),
   by decide,
   (c5_clear_and_rebuild quadMesh).2.2.2.1 0 (by decide)⟩

theorem pmLookup_none_notMem (st : PosMap) (p : Vec3) (h : pmLookup st p = none) :
    p ∉ st.map Prod.fst := by
  induction st with
  | nil => simp
  | cons hd tl ih =>
    obtain ⟨k, v⟩ := hd
    by_cases hk : k = p
    · simp [pmLookup, hk] at h
    · simp only [pmLookup, if_neg hk] at h
      simpa [hk, Ne.symm hk] using ih h

theorem getOrCreate_inv (st : PosMap) (p : Vec3) (h : PMInv st) :
    PMInv (getOrCreate st p).1 := by
  unfold getOrCreate
  cases hl : pmLookup st p with
  | some v => exact h
  | none =>
    dsimp only
    constructor
    · rw [List.map_append]
      rw [List.nodup_append]
      refine ⟨h.1, by simp, ?_⟩
      intro a ha hb
      simp at hb
      subst hb
      exact pmLookup_none_notMem st a hl ha
    · intro e he
      rcases List.mem_append.mp he with h1 | h2
      · exact h.2 e h1
      · have he2 : e = (p, p) := by simpa using h2
        rw [he2]

theorem linearSubface_inv (acc : PosMap × List (List Vec3)) (vpos : List Vec3)
    (h : PMInv acc.1) : PMInv (linearSubface acc vpos).1 := by
  unfold linearSubface
  dsimp only
  exact foldl_inv (fun s : PosMap × List (List Vec3) => PMInv s.1) _ _ _
    (fun b a _ hb => getOrCreate_inv _ _ hb)
    (foldl_inv (fun s : PosMap × List Vec3 => PMInv s.1) _ _ _
      (fun b a _ hb => getOrCreate_inv _ _ hb)
      (getOrCreate_inv _ _ h))

theorem linear_result_shape (m r : HalfedgeMesh)
    (hr : subdivide_linear m = some (true, r)) :
    ∃ fs, r = buildHalfedgeConnectivity
      (initMesh (((linearFaceData m).foldl linearSubface ([], [])).1.map
        (fun p => (⟨p.2, none, false⟩ : Vertex)))) fs := by
  unfold subdivide_linear at hr
  simp only [] at hr
  split at hr
  · simp at hr
  · split at hr
    · exact Option.noConfusion hr
    · exact ⟨_, (congrArg Prod.snd (Option.some.inj hr)).symm⟩

theorem pres_positions (m0 m1 : HalfedgeMesh) (hp : MeshPres m0 m1) :
    m1.vertices.map (fun v => v.position) = m0.vertices.map (fun v => v.position) := by
  apply List.ext_getElem?
  intro j
  rw [List.getElem?_map, List.getElem?_map]
  have hv := hp.vfr j
  unfold vframe at hv
  cases h1 : m1.vertices[j]? with
  | none =>
    rw [h1] at hv
    cases h0 : m0.vertices[j]? with
    | none => rfl
    | some v => rw [h0] at hv; exact absurd hv (by simp)
  | some v =>
    rw [h1] at hv
    cases h0 : m0.vertices[j]? with
    | none => rw [h0] at hv; exact absurd hv (by simp)
    | some w =>
      rw [h0] at hv
      simp at hv
      simp [hv.1]

/-- C6 (amended): `subdivide_linear` deduplicates newly created vertices by
exact position equality (a dictionary keyed by the unrounded position tuple),
so whenever it mutates the mesh, the rebuilt vertex list holds pairwise
distinct positions. -/
theorem c6_exact_position_dedup (m r : HalfedgeMesh)
    (hr : subdivide_linear m = some (true, r)) :
    (r.vertices.map (fun v => v.position)).Nodup := by
  obtain ⟨fs, hfs⟩ := linear_result_shape m r hr
  rw [hfs]
  rw [pres_positions _ _ (builder_pres _ fs)]
  have hinv : PMInv ((linearFaceData m).foldl linearSubface ([], [])).1 :=
    foldl_inv (fun s : PosMap × List (List Vec3) => PMInv s.1) linearSubface
      (linearFaceData m) ([], [])
      (fun b a _ hb => linearSubface_inv b a hb)
      ⟨List.nodup_nil, fun e he => absurd he (List.not_mem_nil e)⟩
  show ((((linearFaceData m).foldl linearSubface ([], [])).1.map
    (fun p => (⟨p.2, none, false⟩ : Vertex))).map (fun v => v.position)).Nodup
  rw [List.map_map]
  have hmc : (((linearFaceData m).foldl linearSubface ([], [])).1.map
      ((fun v : Vertex => v.position) ∘ (fun p => (⟨p.2, none, false⟩ : Vertex))))
      = (((linearFaceData m).foldl linearSubface ([], [])).1.map Prod.fst) := by
    apply List.map_congr_left
    intro e he
    exact hinv.2 e he
  rw [hmc]
  exact hinv.1

set_option maxRecDepth 100000 in
theorem c6_witness :
    (((subdivide_linear triMesh).getD (false, triMesh)).2.vertices.map
      (fun v => v.position)).Nodup :=
  c6_exact_position_dedup triMesh _ (by decide)

theorem connLoop_faces_bfaces (fv : List Nat) (fIdx base n : Nat) (st : BuildState) :
    ((List.range n).foldl (connStep fv fIdx base n) st).mesh.faces = st.mesh.faces ∧
    ((List.range n).foldl (connStep fv fIdx base n) st).mesh.boundary_faces
      = st.mesh.boundary_faces := by
  refine foldl_inv (fun s => s.mesh.faces = st.mesh.faces ∧
      s.mesh.boundary_faces = st.mesh.boundary_faces) (connStep fv fIdx base n)
    (List.range n) st ?_ ⟨rfl, rfl⟩
  intro s a _ hs
  exact ⟨(connStep_faces fv fIdx base n s a).trans hs.1,
         (connStep_bfaces fv fIdx base n s a).trans hs.2⟩

theorem pfSetFace_bfaces (st2 : BuildState) (fIdx base : Nat) :
    (pfSetFace st2 fIdx base).mesh.boundary_faces = st2.mesh.boundary_faces := by
  unfold pfSetFace
  cases st2.mesh.faces[fIdx]? with
  | none => rfl
  | some f => rfl

theorem pfSetFace_fget_ne (st2 : BuildState) (fIdx base j : Nat) (hj : fIdx ≠ j) :
    (pfSetFace st2 fIdx base).mesh.faces[j]? = st2.mesh.faces[j]? := by
  unfold pfSetFace
  cases st2.mesh.faces[fIdx]? with
  | none => rfl
  | some f =>
    dsimp only
    rw [List.getElem?_set_ne hj]

theorem processFace_bfinv (st : BuildState) (fv : List Nat) (h : BFInv st.mesh) :
    BFInv (processFace st fv).mesh := by
  by_cases h3 : fv.length < 3
  · unfold processFace; rw [if_pos h3]; exact h
  · rw [processFace_eq st fv h3]
    intro fb hfb
    rw [pfSetFace_bfaces, pfLoop_def st fv] at hfb
    rw [(connLoop_faces_bfaces fv st.mesh.faces.length st.mesh.halfedges.length
      fv.length ⟨pfM2 st fv, st.edgeMap⟩).2] at hfb
    have hfb' : fb ∈ st.mesh.boundary_faces := hfb
    have hget := h fb hfb'
    have hlt : fb < st.mesh.faces.length := by
      by_contra hc
      rw [List.getElem?_eq_none (by omega)] at hget
      exact Option.noConfusion hget
    rw [pfSetFace_fget_ne _ _ _ _ (by omega), pfLoop_def st fv]
    rw [(connLoop_faces_bfaces fv st.mesh.faces.length st.mesh.halfedges.length
      fv.length ⟨pfM2 st fv, st.edgeMap⟩).1]
    show (pfM2 st fv).faces[fb]? = _
    unfold pfM2
    dsimp only
    rw [List.getElem?_append_left hlt]
    exact hget

theorem boundaryStep_bfinv (m : HalfedgeMesh) (entry : (Nat × Nat) × List Nat)
    (h : BFInv m) : BFInv (boundaryStep m entry) := by
  unfold boundaryStep
  cases hl : entry.2 with
  | nil => exact h
  | cons a t =>
    cases t with
    | cons b t2 => exact h
    | nil =>
      intro fb hfb
      rw [boundarySynth_bfaces] at hfb
      rw [boundarySynth_faces]
      rcases List.mem_append.mp hfb with h1 | h2
      · have hget := h fb h1
        have hlt : fb < m.faces.length := by
          by_contra hc
          rw [List.getElem?_eq_none (by omega)] at hget
          exact Option.noConfusion hget
        rw [List.getElem?_append_left hlt]
        exact hget
      · have hfb2 : fb = m.faces.length := by simpa using h2
        subst hfb2
        rw [List.getElem?_append_right (le_refl _)]
        simp

theorem builder_bfinv (m0 : HalfedgeMesh) (fs : List (List Nat)) (h : BFInv m0) :
    BFInv (buildHalfedgeConnectivity m0 fs) := by
  unfold buildHalfedgeConnectivity
  dsimp only
  refine foldl_inv (fun m => BFInv m) boundaryStep _ _
    (fun m e _ hm => boundaryStep_bfinv m e hm) ?_
  exact foldl_inv (fun s : BuildState => BFInv s.mesh) processFace fs ⟨m0, []⟩
    (fun s fv _ hs => processFace_bfinv s fv hs) h

/-- C10 (amended): every face the Connectivity Builder records as a boundary
face has the boundary flag set but its incident-halfedge reference still
`None` (the builder never assigns it), so `Face.vertices` on it returns the
empty list — 0 vertices, not 1 — and consequently `Face.area` returns `0.0`
and `is_triangle()` and `is_quad()` are both `False`. -/
theorem c10_boundary_face_empty (vs : List Vertex) (fs : List (List Nat)) (fb : Nat)
    (hfb : fb ∈ (buildHalfedgeConnectivity (initMesh vs) fs).boundary_faces) :
    ∃ bf : Face, (buildHalfedgeConnectivity (initMesh vs) fs).faces[fb]? = some bf ∧
      bf.halfedge = none ∧ bf.is_boundary = true ∧
      faceVertices (buildHalfedgeConnectivity (initMesh vs) fs) bf = [] ∧
      faceArea (buildHalfedgeConnectivity (initMesh vs) fs) bf = 0 ∧
      faceIsTriangle (buildHalfedgeConnectivity (initMesh vs) fs) bf = false ∧
      faceIsQuad (buildHalfedgeConnectivity (initMesh vs) fs) bf = false := by
  have hget := builder_bfinv (initMesh vs) fs
    (fun b hb => absurd hb (List.not_mem_nil b)) fb hfb
  refine ⟨⟨none, true, false⟩, hget, rfl, rfl, rfl, ?_, rfl, rfl⟩
  show faceArea _ ⟨none, true, false⟩ = 0
  unfold faceArea faceVertices
  simp

theorem c10_witness :
    1 ∈ triMesh.boundary_faces ∧
    ∃ bf : Face, triMesh.faces[1]? = some bf ∧ bf.halfedge = none ∧
      bf.is_boundary = true ∧ faceVertices triMesh bf = [] ∧ faceArea triMesh bf = 0 ∧
      faceIsTriangle triMesh bf = false ∧ faceIsQuad triMesh bf = false :=
  ⟨by decide, c10_boundary_face_empty (List.replicate 3 default) [[0, 1, 2]] 1 (by decide)⟩

/-! ### Generic fold machinery for the boundary loop -/

theorem foldl_keepR {α β : Type} (I R : β → Prop) (f : β → α → β) (l : List α)
    (hI : ∀ b a, a ∈ l → I b → I (f b a))
    (hR : ∀ b a, a ∈ l → I b → R b → R (f b a)) :
    ∀ b, I b → R b → R (l.foldl f b) := by
  induction l with
  | nil => intro b _ hr; exact hr
  | cons hd tl ih =>
    intro b hb hr
    exact ih (fun b' a ha => hI b' a (List.mem_cons_of_mem _ ha))
      (fun b' a ha => hR b' a (List.mem_cons_of_mem _ ha)) (f b hd)
      (hI b hd (List.mem_cons_self _ _) hb) (hR b hd (List.mem_cons_self _ _) hb hr)

theorem foldl_process {α β : Type} (I : β → Prop) (R : α → β → Prop) (f : β → α → β) :
    ∀ (l : List α), l.Nodup →
    (∀ b a, a ∈ l → I b → I (f b a)) →
    (∀ b a, a ∈ l → I b → R a (f b a)) →
    (∀ b a a', a ∈ l → a' ∈ l → a ≠ a' → I b → R a b → R a (f b a')) →
    ∀ b, I b → ∀ a ∈ l, R a (l.foldl f b) := by
  intro l
  induction l with
  | nil => intro _ _ _ _ b _ a ha; exact absurd ha (List.not_mem_nil a)
  | cons hd tl ih =>
    intro hnd hI hpost hkeep b hb a ha
    have hndtl : tl.Nodup := (List.nodup_cons.mp hnd).2
    have hhdtl : hd ∉ tl := (List.nodup_cons.mp hnd).1
    cases ha with
    | head =>
      show R hd ((hd :: tl).foldl f b)
      rw [List.foldl_cons]
      refine foldl_keepR I (R hd) f tl
        (fun b' a' ha' => hI b' a' (List.mem_cons_of_mem _ ha')) ?_ (f b hd)
        (hI b hd (List.mem_cons_self _ _) hb) (hpost b hd (List.mem_cons_self _ _) hb)
      intro b' a' ha' hib' hr'
      refine hkeep b' hd a' (List.mem_cons_self _ _) (List.mem_cons_of_mem _ ha') ?_ hib' hr'
      intro heq
      exact hhdtl (heq ▸ ha')
    | tail _ hatl =>
      show R a ((hd :: tl).foldl f b)
      rw [List.foldl_cons]
      exact ih hndtl
        (fun b' a' ha' => hI b' a' (List.mem_cons_of_mem _ ha'))
        (fun b' a' ha' => hpost b' a' (List.mem_cons_of_mem _ ha'))
        (fun b' a' a'' ha' ha'' => hkeep b' a' a'' (List.mem_cons_of_mem _ ha')
          (List.mem_cons_of_mem _ ha''))
        (f b hd) (hI b hd (List.mem_cons_self _ _) hb) a hatl

/-! ### Stable-projection helpers -/

theorem heNext_of_stable (m m' : HalfedgeMesh) (j : Nat)
    (h : (m'.halfedges[j]?).map stableOf = (m.halfedges[j]?).map stableOf) :
    heNext m' j = heNext m j := by
  unfold heNext
  cases h1 : m'.halfedges[j]? with
  | none =>
    rw [h1] at h
    cases h0 : m.halfedges[j]? with
    | none => rfl
    | some v => rw [h0] at h; exact absurd h (by simp)
  | some v =>
    rw [h1] at h
    cases h0 : m.halfedges[j]? with
    | none => rw [h0] at h; exact absurd h (by simp)
    | some w =>
      rw [h0] at h
      simp only [Option.map_some'] at h
      have : v.next = w.next := congrArg Prod.fst (Option.some.inj h)
      simp [this]

theorem heVertex_of_stable (m m' : HalfedgeMesh) (j : Nat)
    (h : (m'.halfedges[j]?).map stableOf = (m.halfedges[j]?).map stableOf) :
    heVertex m' j = heVertex m j := by
  unfold heVertex
  cases h1 : m'.halfedges[j]? with
  | none =>
    rw [h1] at h
    cases h0 : m.halfedges[j]? with
    | none => rfl
    | some v => rw [h0] at h; exact absurd h (by simp)
  | some v =>
    rw [h1] at h
    cases h0 : m.halfedges[j]? with
    | none => rw [h0] at h; exact absurd h (by simp)
    | some w =>
      rw [h0] at h
      simp only [Option.map_some'] at h
      have : v.vertex = w.vertex := congrArg (fun q => q.2.1) (Option.some.inj h)
      simp [this]

theorem heEdge_of_stable (m m' : HalfedgeMesh) (j : Nat)
    (h : (m'.halfedges[j]?).map stableOf = (m.halfedges[j]?).map stableOf) :
    heEdge m' j = heEdge m j := by
  unfold heEdge
  cases h1 : m'.halfedges[j]? with
  | none =>
    rw [h1] at h
    cases h0 : m.halfedges[j]? with
    | none => rfl
    | some v => rw [h0] at h; exact absurd h (by simp)
  | some v =>
    rw [h1] at h
    cases h0 : m.halfedges[j]? with
    | none => rw [h0] at h; exact absurd h (by simp)
    | some w =>
      rw [h0] at h
      simp only [Option.map_some'] at h
      have : v.edge = w.edge := congrArg (fun q => q.2.2.1) (Option.some.inj h)
      simp [this]

theorem some_of_stable (m m' : HalfedgeMesh) (j : Nat) (he : Halfedge)
    (h : (m'.halfedges[j]?).map stableOf = (m.halfedges[j]?).map stableOf)
    (hs : m.halfedges[j]? = some he) : ∃ he', m'.halfedges[j]? = some he' := by
  rw [hs] at h
  cases h1 : m'.halfedges[j]? with
  | none => rw [h1] at h; exact absurd h (by simp)
  | some v => exact ⟨v, rfl⟩

/-! ### Further `edge_halfedges` dictionary lemmas -/

theorem emAppend_bind_mem (em : EdgeMap) (k : Nat × Nat) (h x : Nat)
    (hx : x ∈ (emAppend em k h).flatMap Prod.snd) : x ∈ em.flatMap Prod.snd ∨ x = h := by
  rcases List.mem_flatMap.mp hx with ⟨e, he, hxe⟩
  rcases emAppend_mem em k h e he with h1 | ⟨l, hl, hel⟩
  · exact Or.inl (List.mem_flatMap.mpr ⟨e, h1, hxe⟩)
  · subst hel
    rcases List.mem_append.mp hxe with h2 | h3
    · exact Or.inl (List.mem_flatMap.mpr ⟨(k, l), hl, h2⟩)
    · exact Or.inr (by simpa using h3)

theorem emAppend_bind_nodup (em : EdgeMap) (k : Nat × Nat) (h : Nat)
    (hnd : (em.flatMap Prod.snd).Nodup) (hh : h ∉ em.flatMap Prod.snd) :
    ((emAppend em k h).flatMap Prod.snd).Nodup := by
  induction em with
  | nil => simp [emAppend]
  | cons hd tl ih =>
    obtain ⟨k0, l0⟩ := hd
    rw [List.flatMap_cons] at hnd
    have h1 : l0.Nodup := (List.nodup_append.mp hnd).1
    have h2 : (tl.flatMap Prod.snd).Nodup := (List.nodup_append.mp hnd).2.1
    have hdisj := (List.nodup_append.mp hnd).2.2
    rw [List.flatMap_cons] at hh
    have hh1 : h ∉ l0 := fun hc => hh (List.mem_append.mpr (Or.inl hc))
    have hh2 : h ∉ tl.flatMap Prod.snd := fun hc => hh (List.mem_append.mpr (Or.inr hc))
    by_cases hk : k0 = k
    · show ((if k0 = k then (k0, l0 ++ [h]) :: tl else (k0, l0) :: emAppend tl k h).flatMap
        Prod.snd).Nodup
      rw [if_pos hk, List.flatMap_cons]
      rw [List.nodup_append]
      refine ⟨?_, h2, ?_⟩
      · dsimp only
        rw [List.nodup_append]
        refine ⟨h1, by simp, ?_⟩
        intro a ha hb
        have hah : a = h := by simpa using hb
        exact hh1 (hah ▸ ha)
      · intro a ha hb
        dsimp only at ha
        rcases List.mem_append.mp ha with ha1 | ha2
        · exact hdisj ha1 hb
        · have : a = h := by simpa using ha2
          exact hh2 (this ▸ hb)
    · show ((if k0 = k then (k0, l0 ++ [h]) :: tl else (k0, l0) :: emAppend tl k h).flatMap
        Prod.snd).Nodup
      rw [if_neg hk, List.flatMap_cons]
      rw [List.nodup_append]
      refine ⟨h1, ih h2 hh2, ?_⟩
      intro a ha hb
      rcases emAppend_bind_mem tl k h a hb with hb1 | hb2
      · exact hdisj ha hb1
      · exact hh1 (hb2 ▸ ha)

theorem emAppend_self_mem (em : EdgeMap) (k : Nat × Nat) (h : Nat) (l : List Nat)
    (hnd : (em.map Prod.fst).Nodup) (hl : (k, l) ∈ em) :
    (k, l ++ [h]) ∈ emAppend em k h := by
  induction em with
  | nil => exact absurd hl (List.not_mem_nil _)
  | cons hd tl ih =>
    obtain ⟨k0, l0⟩ := hd
    simp only [List.map_cons, List.nodup_cons] at hnd
    cases hl with
    | head =>
      show (k, l ++ [h]) ∈ if k = k then (k, l ++ [h]) :: tl else _
      rw [if_pos rfl]
      exact List.mem_cons_self _ _
    | tail _ htl =>
      have hk : k0 ≠ k := by
        intro hh
        subst hh
        exact hnd.1 (List.mem_map_of_mem Prod.fst htl)
      show (k, l ++ [h]) ∈ if k0 = k then (k0, l0 ++ [h]) :: tl else (k0, l0) :: emAppend tl k h
      rw [if_neg hk]
      exact List.mem_cons_of_mem _ (ih hnd.2 htl)

theorem emAppend_covers (em : EdgeMap) (k : Nat × Nat) (h : Nat)
    (e : (Nat × Nat) × List Nat) (he : e ∈ em) (x : Nat) (hx : x ∈ e.2) :
    ∃ e' ∈ emAppend em k h, x ∈ e'.2 := by
  induction em with
  | nil => exact absurd he (List.not_mem_nil _)
  | cons hd tl ih =>
    obtain ⟨k0, l0⟩ := hd
    by_cases hk : k0 = k
    · show ∃ e' ∈ (if k0 = k then (k0, l0 ++ [h]) :: tl else _), x ∈ e'.2
      rw [if_pos hk]
      cases he with
      | head => exact ⟨(k0, l0 ++ [h]), List.mem_cons_self _ _,
          List.mem_append.mpr (Or.inl hx)⟩
      | tail _ htl => exact ⟨e, List.mem_cons_of_mem _ htl, hx⟩
    · show ∃ e' ∈ (if k0 = k then (k0, l0 ++ [h]) :: tl else (k0, l0) :: emAppend tl k h),
        x ∈ e'.2
      rw [if_neg hk]
      cases he with
      | head => exact ⟨(k0, l0), List.mem_cons_self _ _, hx⟩
      | tail _ htl =>
        obtain ⟨e', he', hxe'⟩ := ih htl
        exact ⟨e', List.mem_cons_of_mem _ he', hxe'⟩

theorem nodup_of_mem_flat (em : EdgeMap) (hnd : (em.flatMap Prod.snd).Nodup)
    (e : (Nat × Nat) × List Nat) (he : e ∈ em) : e.2.Nodup := by
  induction em with
  | nil => exact absurd he (List.not_mem_nil _)
  | cons hd tl ih =>
    rw [List.flatMap_cons] at hnd
    cases he with
    | head => exact (List.nodup_append.mp hnd).1
    | tail _ htl => exact ih (List.nodup_append.mp hnd).2.1 htl

theorem emAppend_mem_nodup (em : EdgeMap) (k : Nat × Nat) (h : Nat)
    (hknd : (em.map Prod.fst).Nodup) (e : (Nat × Nat) × List Nat)
    (he : e ∈ emAppend em k h) :
    (e ∈ em ∧ e.1 ≠ k) ∨ (∃ l, (k, l) ∈ em ∧ e = (k, l ++ [h])) := by
  induction em with
  | nil => simp [emAppend] at he
  | cons hd tl ih =>
    obtain ⟨k0, l0⟩ := hd
    simp only [List.map_cons, List.nodup_cons] at hknd
    by_cases hk : k0 = k
    · subst hk
      rw [show emAppend ((k0, l0) :: tl) k0 h = (k0, l0 ++ [h]) :: tl from by
        simp [emAppend]] at he
      cases he with
      | head => exact Or.inr ⟨l0, List.mem_cons_self _ _, rfl⟩
      | tail _ htl =>
        refine Or.inl ⟨List.mem_cons_of_mem _ htl, ?_⟩
        intro hek
        exact hknd.1 (hek ▸ List.mem_map_of_mem Prod.fst htl)
    · rw [show emAppend ((k0, l0) :: tl) k h = (k0, l0) :: emAppend tl k h from by
        simp [emAppend, hk]] at he
      cases he with
      | head => exact Or.inl ⟨List.mem_cons_self _ _, fun hc => hk hc⟩
      | tail _ htl =>
        rcases ih hknd.2 htl with ⟨h1, h2⟩ | ⟨l, hl, hel⟩
        · exact Or.inl ⟨List.mem_cons_of_mem _ h1, h2⟩
        · exact Or.inr ⟨l, List.mem_cons_of_mem _ hl, hel⟩

theorem bind_nodup_cross (em : EdgeMap) (hnd : (em.flatMap Prod.snd).Nodup) :
    ∀ a ∈ em, ∀ b ∈ em, a ≠ b → ∀ x ∈ a.2, x ∉ b.2 := by
  induction em with
  | nil => intro a ha; exact absurd ha (List.not_mem_nil a)
  | cons hd tl ih =>
    rw [List.flatMap_cons] at hnd
    have h2 : (tl.flatMap Prod.snd).Nodup := (List.nodup_append.mp hnd).2.1
    have hdisj := (List.nodup_append.mp hnd).2.2
    intro a ha b hb hab x hxa hxb
    cases ha with
    | head =>
      cases hb with
      | head => exact hab rfl
      | tail _ hbtl => exact hdisj hxa (List.mem_flatMap.mpr ⟨b, hbtl, hxb⟩)
    | tail _ hatl =>
      cases hb with
      | head => exact hdisj hxb (List.mem_flatMap.mpr ⟨a, hatl, hxa⟩)
      | tail _ hbtl => exact ih h2 a hatl b hbtl hab x hxa hxb

theorem replicate_getElem? (n i : Nat) (a : Halfedge) (hi : i < n) :
    (List.replicate n a)[i]? = some a := by
  rw [List.getElem?_eq_getElem (by simpa using hi)]
  simp

/-! ### Face-phase invariant of the Connectivity Builder -/

theorem some_of_heNext (m : HalfedgeMesh) (j x : Nat) (h : heNext m j = some x) :
    ∃ he, m.halfedges[j]? = some he := by
  unfold heNext at h
  cases h1 : m.halfedges[j]? with
  | none => rw [h1] at h; exact Option.noConfusion h
  | some he => exact ⟨he, rfl⟩

theorem FPInv.someInv {fs : List (List Nat)} {st : BuildState} (hF : FPInv fs st)
    (j : Nat) (hj : j < st.mesh.halfedges.length) :
    ∃ he, st.mesh.halfedges[j]? = some he := by
  obtain ⟨base, n, _, _, _, hbj, hjn, hcyc⟩ := hF.blocks j hj
  have h := hcyc (j - base) (by omega)
  rw [show base + (j - base) = j from by omega] at h
  exact some_of_heNext _ _ _ h

theorem emLookup_notMem_none (em : EdgeMap) (k : Nat × Nat)
    (h : k ∉ em.map Prod.fst) : emLookup em k = none := by
  induction em with
  | nil => rfl
  | cons hd tl ih =>
    obtain ⟨k0, l0⟩ := hd
    simp only [List.map_cons, List.mem_cons] at h
    have hk : k0 ≠ k := fun hc => h (Or.inl hc.symm)
    show (if k0 = k then some l0 else emLookup tl k) = none
    rw [if_neg hk]
    exact ih (fun hc => h (Or.inr hc))

theorem connStep_heTwin_ne (fv : List Nat) (fIdx base n : Nat) (st : BuildState) (i j : Nat)
    (hj : j ≠ base + i)
    (hother : ∀ o rest,
      emLookup st.edgeMap (edgeKey (fv.getD i 0) (fv.getD ((i + 1) % n) 0)) = some (o :: rest) →
      j ≠ o) :
    heTwin (connStep fv fIdx base n st i).mesh j = heTwin st.mesh j := by
  unfold heTwin
  rw [connStep_get_ne fv fIdx base n st i j hj hother]

theorem connStep_heEdge_ne (fv : List Nat) (fIdx base n : Nat) (st : BuildState) (i j : Nat)
    (hj : j ≠ base + i)
    (hother : ∀ o rest,
      emLookup st.edgeMap (edgeKey (fv.getD i 0) (fv.getD ((i + 1) % n) 0)) = some (o :: rest) →
      j ≠ o) :
    heEdge (connStep fv fIdx base n st i).mesh j = heEdge st.mesh j := by
  unfold heEdge
  rw [connStep_get_ne fv fIdx base n st i j hj hother]

theorem connStep_heNext_stable (fv : List Nat) (fIdx base n : Nat) (st : BuildState)
    (i j : Nat) (hj : j ≠ base + i) :
    heNext (connStep fv fIdx base n st i).mesh j = heNext st.mesh j :=
  heNext_of_stable _ _ _ (connStep_stable_ne fv fIdx base n st i j hj)

theorem connStep_LInv (fv : List Nat) (fIdx base n : Nat) (mold : HalfedgeMesh)
    (s : BuildState) (i : Nat) (hin : i < n)
    (hold : ∀ j, j < base → ∃ he, mold.halfedges[j]? = some he)
    (hL : LInv fv fIdx base n mold i s) :
    LInv fv fIdx base n mold (i + 1) (connStep fv fIdx base n s i) := by
  have hfreshI : s.mesh.halfedges[base + i]? = some default := hL.fresh i (le_refl i) hin
  have hsome : ∀ j, j < base + i → ∃ he, s.mesh.halfedges[j]? = some he := by
    intro j hj
    by_cases hjb : j < base
    · obtain ⟨he0, hhe0⟩ := hold j hjb
      exact some_of_stable _ _ _ he0 (hL.oldStable j hjb) hhe0
    · have h2 := hL.newBlock (j - base) (by omega)
      rw [show base + (j - base) = j from by omega] at h2
      exact some_of_heNext _ _ _ h2
  cases hlk : emLookup s.edgeMap (edgeKey (fv.getD i 0) (fv.getD ((i + 1) % n) 0)) with
  | none =>
    have hvac : ∀ o2 r2,
        emLookup s.edgeMap (edgeKey (fv.getD i 0) (fv.getD ((i + 1) % n) 0))
          = some (o2 :: r2) → True := fun _ _ _ => trivial
    have hoth0 : ∀ j : Nat, ∀ o2 r2,
        emLookup s.edgeMap (edgeKey (fv.getD i 0) (fv.getD ((i + 1) % n) 0))
          = some (o2 :: r2) → j ≠ o2 := by
      intro j o2 r2 hl2
      rw [hlk] at hl2
      exact Option.noConfusion hl2
    refine ⟨(connStep_hlen fv fIdx base n s i).trans hL.hlen, ?_, ?_, ?_, ?_, ?_, ?_, ?_,
      ?_, ?_, ?_⟩
    · rw [connStep_map_new fv fIdx base n s i hlk, List.map_append, List.nodup_append]
      refine ⟨hL.keysNodup, by simp, ?_⟩
      intro a ha hb
      have hak : a = edgeKey (fv.getD i 0) (fv.getD ((i + 1) % n) 0) := by simpa using hb
      exact emLookup_none_notMem _ _ hlk (hak ▸ ha)
    · rw [connStep_map_new fv fIdx base n s i hlk, List.flatMap_append, List.nodup_append]
      refine ⟨hL.valsNodup, by simp, ?_⟩
      intro a ha hb
      have hah : a = base + i := by simpa using hb
      rcases List.mem_flatMap.mp ha with ⟨e, he, hae⟩
      exact absurd (hL.bounds e he a hae) (by omega)
    · rw [connStep_map_new fv fIdx base n s i hlk]
      intro e he x hx
      rcases List.mem_append.mp he with h1 | h2
      · exact lt_trans (hL.bounds e h1 x hx) (by omega)
      · have he2 : e = (edgeKey (fv.getD i 0) (fv.getD ((i + 1) % n) 0), [base + i]) := by
          simpa using h2
        subst he2
        have hx2 : x = base + i := by simpa using hx
        omega
    · rw [connStep_map_new fv fIdx base n s i hlk]
      intro e he
      rcases List.mem_append.mp he with h1 | h2
      · exact hL.nonempty e h1
      · have he2 : e = (edgeKey (fv.getD i 0) (fv.getD ((i + 1) % n) 0), [base + i]) := by
          simpa using h2
        subst he2
        simp
    · rw [connStep_map_new fv fIdx base n s i hlk]
      intro j hj
      by_cases hji : j < base + i
      · obtain ⟨e, he, hje⟩ := hL.coverage j hji
        exact ⟨e, List.mem_append.mpr (Or.inl he), hje⟩
      · have hj2 : j = base + i := by omega
        exact ⟨(edgeKey (fv.getD i 0) (fv.getD ((i + 1) % n) 0), [base + i]),
          List.mem_append.mpr (Or.inr (List.mem_singleton.mpr rfl)), by rw [hj2]; simp⟩
    · rw [connStep_map_new fv fIdx base n s i hlk]
      intro e he hh rest t he2 hlast
      rcases List.mem_append.mp he with h1 | h2
      · have hhh : hh ∈ e.2 := he2 ▸ List.mem_cons_self _ _
        have hhlt : hh < base + i := hL.bounds e h1 hh hhh
        rw [connStep_heTwin_ne fv fIdx base n s i hh (by omega) (hoth0 hh)]
        exact hL.twinHead e h1 hh rest t he2 hlast
      · have he3 : e = (edgeKey (fv.getD i 0) (fv.getD ((i + 1) % n) 0), [base + i]) := by
          simpa using h2
        subst he3
        have he4 : [base + i] = hh :: rest := he2
        injection he4 with hhh hrest
        rw [← hrest] at hlast
        simp at hlast
    · rw [connStep_map_new fv fIdx base n s i hlk]
      intro e he hh rest he2 x hx
      rcases List.mem_append.mp he with h1 | h2
      · have hhh : hh ∈ e.2 := he2 ▸ List.mem_cons_self _ _
        have hhlt : hh < base + i := hL.bounds e h1 hh hhh
        have hxx : x ∈ e.2 := he2 ▸ List.mem_cons_of_mem _ hx
        have hxlt : x < base + i := hL.bounds e h1 x hxx
        rw [connStep_heTwin_ne fv fIdx base n s i x (by omega) (hoth0 x)]
        rw [connStep_heEdge_ne fv fIdx base n s i x (by omega) (hoth0 x)]
        rw [connStep_heEdge_ne fv fIdx base n s i hh (by omega) (hoth0 hh)]
        exact hL.twinRest e h1 hh rest he2 x hx
      · have he3 : e = (edgeKey (fv.getD i 0) (fv.getD ((i + 1) % n) 0), [base + i]) := by
          simpa using h2
        subst he3
        have he4 : [base + i] = hh :: rest := he2
        injection he4 with hhh hrest
        rw [← hrest] at hx
        simp at hx
    · intro i2 hi2
      by_cases hii : i2 < i
      · rw [connStep_heNext_stable fv fIdx base n s i (base + i2) (by omega)]
        exact hL.newBlock i2 hii
      · have : i2 = i := by omega
        subst this
        unfold heNext
        rw [connStep_self_new fv fIdx base n s i2 default hfreshI hlk]
        rfl
    · intro i2 h1 h2
      rw [connStep_get_ne fv fIdx base n s i (base + i2) (by omega) (hoth0 _)]
      exact hL.fresh i2 (by omega) h2
    · intro j hj
      rw [connStep_stable_ne fv fIdx base n s i j (by omega)]
      exact hL.oldStable j hj
  | some l =>
    cases l with
    | nil =>
      exact ((hL.nonempty _ (emLookup_mem _ _ _ hlk)) rfl).elim
    | cons o rest =>
      have hent : (edgeKey (fv.getD i 0) (fv.getD ((i + 1) % n) 0), o :: rest) ∈ s.edgeMap :=
        emLookup_mem _ _ _ hlk
      have holt : o < base + i := hL.bounds _ hent o (List.mem_cons_self _ _)
      have ho : o ≠ base + i := by omega
      obtain ⟨heo, hoin⟩ := hsome o holt
      have hselfJ := connStep_self_join fv fIdx base n s i o rest default hfreshI hlk ho
      have hotherJ := connStep_other fv fIdx base n s i o rest heo hoin hlk ho
      have hoth : ∀ j : Nat, j ≠ o → ∀ o2 r2,
          emLookup s.edgeMap (edgeKey (fv.getD i 0) (fv.getD ((i + 1) % n) 0))
            = some (o2 :: r2) → j ≠ o2 := by
        intro j hjo o2 r2 hl2
        have h12 : o :: rest = o2 :: r2 := Option.some.inj (hlk.symm.trans hl2)
        injection h12 with ha hb
        exact ha ▸ hjo
      have hEdgeO : heEdge (connStep fv fIdx base n s i).mesh o = heEdge s.mesh o := by
        unfold heEdge
        rw [hotherJ, hoin]
        rfl
      refine ⟨(connStep_hlen fv fIdx base n s i).trans hL.hlen, ?_, ?_, ?_, ?_, ?_, ?_, ?_,
        ?_, ?_, ?_⟩
      · rw [connStep_map_join fv fIdx base n s i o rest hlk, emAppend_keys]
        exact hL.keysNodup
      · rw [connStep_map_join fv fIdx base n s i o rest hlk]
        refine emAppend_bind_nodup _ _ _ hL.valsNodup ?_
        intro hc
        rcases List.mem_flatMap.mp hc with ⟨e, he, hae⟩
        exact absurd (hL.bounds e he _ hae) (by omega)
      · rw [connStep_map_join fv fIdx base n s i o rest hlk]
        intro e he x hx
        rcases emAppend_mem _ _ _ _ he with h1 | ⟨l2, hl2, hel⟩
        · exact lt_trans (hL.bounds e h1 x hx) (by omega)
        · subst hel
          rcases List.mem_append.mp hx with hx1 | hx2
          · exact lt_trans (hL.bounds _ hl2 x hx1) (by omega)
          · have : x = base + i := by simpa using hx2
            omega
      · rw [connStep_map_join fv fIdx base n s i o rest hlk]
        intro e he
        rcases emAppend_mem _ _ _ _ he with h1 | ⟨l2, hl2, hel⟩
        · exact hL.nonempty e h1
        · subst hel
          simp
      · rw [connStep_map_join fv fIdx base n s i o rest hlk]
        intro j hj
        by_cases hji : j < base + i
        · obtain ⟨e, he, hje⟩ := hL.coverage j hji
          exact emAppend_covers _ _ _ e he j hje
        · have hj2 : j = base + i := by omega
          refine ⟨(edgeKey (fv.getD i 0) (fv.getD ((i + 1) % n) 0), (o :: rest) ++ [base + i]),
            emAppend_self_mem _ _ _ _ hL.keysNodup hent, ?_⟩
          rw [hj2]
          exact List.mem_append.mpr (Or.inr (by simp))
      · rw [connStep_map_join fv fIdx base n s i o rest hlk]
        intro e he hh rest2 t he2 hlast
        rcases emAppend_mem_nodup _ _ _ hL.keysNodup e he with ⟨h1, hk1⟩ | ⟨l2, hl2, hel⟩
        · have hne : e ≠ (edgeKey (fv.getD i 0) (fv.getD ((i + 1) % n) 0), o :: rest) :=
            fun hc => hk1 (congrArg Prod.fst hc)
          have hcross := bind_nodup_cross s.edgeMap hL.valsNodup e h1 _ hent hne
          have hhh : hh ∈ e.2 := he2 ▸ List.mem_cons_self _ _
          have hhno : hh ≠ o := fun hc =>
            hcross hh hhh (hc ▸ List.mem_cons_self o rest)
          have hhlt : hh < base + i := hL.bounds e h1 hh hhh
          rw [connStep_heTwin_ne fv fIdx base n s i hh (by omega) (hoth hh hhno)]
          exact hL.twinHead e h1 hh rest2 t he2 hlast
        · have hleq : l2 = o :: rest := by
            have := emLookup_of_mem_nodup _ _ _ hL.keysNodup hl2
            exact Option.some.inj (this.symm.trans hlk)
          subst hleq
          subst hel
          have he4 : o :: (rest ++ [base + i]) = hh :: rest2 := he2
          injection he4 with hho hrest
          subst hho
          rw [← hrest] at hlast
          rw [List.getLast?_concat] at hlast
          have ht : t = base + i := (Option.some.inj hlast).symm
          subst ht
          unfold heTwin
          rw [hotherJ]
          rfl
      · rw [connStep_map_join fv fIdx base n s i o rest hlk]
        intro e he hh rest2 he2 x hx
        rcases emAppend_mem_nodup _ _ _ hL.keysNodup e he with ⟨h1, hk1⟩ | ⟨l2, hl2, hel⟩
        · have hne : e ≠ (edgeKey (fv.getD i 0) (fv.getD ((i + 1) % n) 0), o :: rest) :=
            fun hc => hk1 (congrArg Prod.fst hc)
          have hcross := bind_nodup_cross s.edgeMap hL.valsNodup e h1 _ hent hne
          have hhh : hh ∈ e.2 := he2 ▸ List.mem_cons_self _ _
          have hxx : x ∈ e.2 := he2 ▸ List.mem_cons_of_mem _ hx
          have hhno : hh ≠ o := fun hc => hcross hh hhh (hc ▸ List.mem_cons_self o rest)
          have hxno : x ≠ o := fun hc => hcross x hxx (hc ▸ List.mem_cons_self o rest)
          have hhlt : hh < base + i := hL.bounds e h1 hh hhh
          have hxlt : x < base + i := hL.bounds e h1 x hxx
          rw [connStep_heTwin_ne fv fIdx base n s i x (by omega) (hoth x hxno)]
          rw [connStep_heEdge_ne fv fIdx base n s i x (by omega) (hoth x hxno)]
          rw [connStep_heEdge_ne fv fIdx base n s i hh (by omega) (hoth hh hhno)]
          exact hL.twinRest e h1 hh rest2 he2 x hx
        · have hleq : l2 = o :: rest := by
            have := emLookup_of_mem_nodup _ _ _ hL.keysNodup hl2
            exact Option.some.inj (this.symm.trans hlk)
          subst hleq
          subst hel
          have he4 : o :: (rest ++ [base + i]) = hh :: rest2 := he2
          injection he4 with hho hrest
          subst hho
          rw [← hrest] at hx
          have hondup : (o :: rest).Nodup :=
            nodup_of_mem_flat s.edgeMap hL.valsNodup _ hent
          rcases List.mem_append.mp hx with hx1 | hx2
          · have hxlt : x < base + i :=
              hL.bounds _ hent x (List.mem_cons_of_mem _ hx1)
            have hxno : x ≠ o := by
              intro hc
              exact (List.nodup_cons.mp hondup).1 (hc ▸ hx1)
            rw [connStep_heTwin_ne fv fIdx base n s i x (by omega) (hoth x hxno)]
            rw [connStep_heEdge_ne fv fIdx base n s i x (by omega) (hoth x hxno)]
            rw [hEdgeO]
            exact hL.twinRest _ hent o rest rfl x hx1
          · have hx3 : x = base + i := by simpa using hx2
            constructor
            · rw [hx3]
              unfold heTwin
              rw [hselfJ]
              rfl
            · have h5 : heEdge (connStep fv fIdx base n s i).mesh x = heEdge s.mesh o := by
                rw [hx3]
                unfold heEdge
                rw [hselfJ]
                rfl
              rw [h5, hEdgeO]
      · intro i2 hi2
        by_cases hii : i2 < i
        · rw [connStep_heNext_stable fv fIdx base n s i (base + i2) (by omega)]
          exact hL.newBlock i2 hii
        · have : i2 = i := by omega
          subst this
          unfold heNext
          rw [hselfJ]
          rfl
      · intro i2 h1 h2
        have hno : base + i2 ≠ o := by omega
        rw [connStep_get_ne fv fIdx base n s i (base + i2) (by omega) (hoth _ hno)]
        exact hL.fresh i2 (by omega) h2
      · intro j hj
        rw [connStep_stable_ne fv fIdx base n s i j (by omega)]
        exact hL.oldStable j hj

theorem pfM2_get_old (st : BuildState) (fv : List Nat) (j : Nat)
    (hj : j < st.mesh.halfedges.length) :
    (pfM2 st fv).halfedges[j]? = st.mesh.halfedges[j]? := by
  unfold pfM2
  dsimp only
  rw [List.getElem?_append_left hj]

theorem heTwin_of_hal (m m' : HalfedgeMesh) (h : m'.halfedges = m.halfedges) (j : Nat) :
    heTwin m' j = heTwin m j := by
  unfold heTwin
  rw [h]

theorem heNext_of_hal (m m' : HalfedgeMesh) (h : m'.halfedges = m.halfedges) (j : Nat) :
    heNext m' j = heNext m j := by
  unfold heNext
  rw [h]

theorem heEdge_of_hal (m m' : HalfedgeMesh) (h : m'.halfedges = m.halfedges) (j : Nat) :
    heEdge m' j = heEdge m j := by
  unfold heEdge
  rw [h]

theorem heTwin_of_get (m m' : HalfedgeMesh) (j : Nat)
    (h : m'.halfedges[j]? = m.halfedges[j]?) : heTwin m' j = heTwin m j := by
  unfold heTwin
  rw [h]

theorem heEdge_of_get (m m' : HalfedgeMesh) (j : Nat)
    (h : m'.halfedges[j]? = m.halfedges[j]?) : heEdge m' j = heEdge m j := by
  unfold heEdge
  rw [h]

theorem entry_LInv (fs : List (List Nat)) (st : BuildState) (fv : List Nat)
    (h3 : ¬ fv.length < 3) (hF : FPInv fs st) :
    LInv fv st.mesh.faces.length st.mesh.halfedges.length fv.length st.mesh 0
      ⟨pfM2 st fv, st.edgeMap⟩ := by
  refine ⟨?_, hF.keysNodup, hF.valsNodup, ?_, hF.nonempty, ?_, ?_, ?_, ?_, ?_, ?_⟩
  · unfold pfM2
    dsimp only
    rw [List.length_append, List.length_replicate]
  · intro e he x hx
    have := hF.bounds e he x hx
    omega
  · intro j hj
    exact hF.coverage j (by omega)
  · intro e he hh rest t he2 hlast
    have hhlt : hh < st.mesh.halfedges.length :=
      hF.bounds e he hh (he2 ▸ List.mem_cons_self _ _)
    rw [heTwin_of_get st.mesh (pfM2 st fv) hh (pfM2_get_old st fv hh hhlt)]
    exact hF.twinHead e he hh rest t he2 hlast
  · intro e he hh rest he2 x hx
    have hhlt : hh < st.mesh.halfedges.length :=
      hF.bounds e he hh (he2 ▸ List.mem_cons_self _ _)
    have hxlt : x < st.mesh.halfedges.length :=
      hF.bounds e he x (he2 ▸ List.mem_cons_of_mem _ hx)
    rw [heTwin_of_get st.mesh (pfM2 st fv) x (pfM2_get_old st fv x hxlt)]
    rw [heEdge_of_get st.mesh (pfM2 st fv) x (pfM2_get_old st fv x hxlt)]
    rw [heEdge_of_get st.mesh (pfM2 st fv) hh (pfM2_get_old st fv hh hhlt)]
    exact hF.twinRest e he hh rest he2 x hx
  · intro i2 hi2
    omega
  · intro i2 h1 h2
    unfold pfM2
    dsimp only
    rw [List.getElem?_append_right (by omega)]
    rw [show st.mesh.halfedges.length + i2 - st.mesh.halfedges.length = i2 from by omega]
    exact replicate_getElem? fv.length i2 default h2
  · intro j hj
    rw [pfM2_get_old st fv j hj]

theorem connLoop_LInv (fv : List Nat) (fIdx base n : Nat) (mold : HalfedgeMesh)
    (st1 : BuildState)
    (hold : ∀ j, j < base → ∃ he, mold.halfedges[j]? = some he)
    (h0 : LInv fv fIdx base n mold 0 st1) :
    ∀ i, i ≤ n →
      LInv fv fIdx base n mold i ((List.range i).foldl (connStep fv fIdx base n) st1)
  | 0, _ => by
    rw [List.range_zero, List.foldl_nil]
    exact h0
  | i + 1, hi => by
    rw [List.range_succ, List.foldl_append]
    exact connStep_LInv fv fIdx base n mold _ i (by omega) hold
      (connLoop_LInv fv fIdx base n mold st1 hold h0 i (by omega))

theorem processFace_FPInv (fs : List (List Nat)) (st : BuildState) (fv : List Nat)
    (hmem : fv ∈ fs) (hF : FPInv fs st) : FPInv fs (processFace st fv) := by
  by_cases h3 : fv.length < 3
  · unfold processFace; rw [if_pos h3]; exact hF
  · rw [processFace_eq st fv h3]
    have hLn := connLoop_LInv fv st.mesh.faces.length st.mesh.halfedges.length fv.length
      st.mesh ⟨pfM2 st fv, st.edgeMap⟩ (fun j hj => hF.someInv j hj)
      (entry_LInv fs st fv h3 hF) fv.length (le_refl _)
    rw [← pfLoop_def] at hLn
    have hhal : (pfSetFace (pfLoop st fv) st.mesh.faces.length
        st.mesh.halfedges.length).mesh.halfedges = (pfLoop st fv).mesh.halfedges :=
      pfSetFace_halfedges _ _ _
    have hem : (pfSetFace (pfLoop st fv) st.mesh.faces.length
        st.mesh.halfedges.length).edgeMap = (pfLoop st fv).edgeMap :=
      pfSetFace_edgeMap _ _ _
    have hlen' : (pfSetFace (pfLoop st fv) st.mesh.faces.length
        st.mesh.halfedges.length).mesh.halfedges.length
        = st.mesh.halfedges.length + fv.length := by
      rw [hhal]; exact hLn.hlen
    refine ⟨?_, ?_, ?_, ?_, ?_, ?_, ?_, ?_⟩
    · rw [hem]; exact hLn.keysNodup
    · rw [hem]; exact hLn.valsNodup
    · rw [hem, hlen']
      intro e he x hx
      exact hLn.bounds e he x hx
    · rw [hem]; exact hLn.nonempty
    · rw [hem, hlen']
      intro j hj
      exact hLn.coverage j hj
    · rw [hem]
      intro e he hh rest t he2 hlast
      rw [heTwin_of_hal _ _ hhal]
      exact hLn.twinHead e he hh rest t he2 hlast
    · rw [hem]
      intro e he hh rest he2 x hx
      rw [heTwin_of_hal _ _ hhal, heEdge_of_hal _ _ hhal, heEdge_of_hal _ _ hhal]
      exact hLn.twinRest e he hh rest he2 x hx
    · rw [hlen']
      intro j hj
      by_cases hjb : j < st.mesh.halfedges.length
      · obtain ⟨b2, n2, h32, hmem2, hbn2, hb2, hjn2, hcyc2⟩ := hF.blocks j hjb
        refine ⟨b2, n2, h32, hmem2, by omega, hb2, hjn2, ?_⟩
        intro i2 hi2
        rw [heNext_of_hal _ _ hhal]
        rw [heNext_of_stable st.mesh (pfLoop st fv).mesh (b2 + i2)
          (hLn.oldStable (b2 + i2) (by omega))]
        exact hcyc2 i2 hi2
      · refine ⟨st.mesh.halfedges.length, fv.length, by omega, ?_, by omega, by omega,
          by omega, ?_⟩
        · exact List.mem_map_of_mem List.length hmem
        · intro i2 hi2
          rw [heNext_of_hal _ _ hhal]
          exact hLn.newBlock i2 hi2

theorem facePhase_FPInv (vs : List Vertex) (fs : List (List Nat)) :
    FPInv fs (fs.foldl processFace ⟨initMesh vs, []⟩) := by
  refine foldl_inv (FPInv fs) processFace fs ⟨initMesh vs, []⟩
    (fun s fv hfv hF => processFace_FPInv fs s fv hfv hF) ?_
  refine ⟨by simp, by simp, ?_, ?_, ?_, ?_, ?_, ?_⟩
  · intro e he; exact absurd he (List.not_mem_nil e)
  · intro e he; exact absurd he (List.not_mem_nil e)
  · intro j hj; simp [initMesh] at hj
  · intro e he; exact absurd he (List.not_mem_nil e)
  · intro e he; exact absurd he (List.not_mem_nil e)
  · intro j hj; simp [initMesh] at hj

theorem heNext_of_get (m m' : HalfedgeMesh) (j : Nat)
    (h : m'.halfedges[j]? = m.halfedges[j]?) : heNext m' j = heNext m j := by
  unfold heNext
  rw [h]

theorem heVertex_of_get (m m' : HalfedgeMesh) (j : Nat)
    (h : m'.halfedges[j]? = m.halfedges[j]?) : heVertex m' j = heVertex m j := by
  unfold heVertex
  rw [h]

/-! ### The previous-halfedge walk on a `next`-cycle -/

theorem findPrevAux_cycle_aux (m : HalfedgeMesh) (base n i0 : Nat)
    (h3 : 3 ≤ n) (hcap : n ≤ 1000) (hi0 : i0 < n)
    (hblk : ∀ i2, i2 < n → heNext m (base + i2) = some (base + (i2 + 1) % n)) :
    ∀ j k, k + j = n - 1 →
      findPrevAux m (base + i0) (1000 - k) (base + (i0 + k) % n) k
        = (base + (i0 + (n - 1)) % n, n - 1)
  | 0, k, hk => by
    have hkk : k = n - 1 := by omega
    subst hkk
    have hfu : 1000 - (n - 1) = (1000 - n) + 1 := by omega
    rw [hfu]
    have hmod : ((i0 + (n - 1)) % n + 1) % n = i0 := by
      rw [Nat.mod_add_mod]
      rw [show i0 + (n - 1) + 1 = i0 + n from by omega]
      rw [Nat.add_mod_right]
      exact Nat.mod_eq_of_lt hi0
    have hstep : heNext m (base + (i0 + (n - 1)) % n) = some (base + i0) := by
      rw [hblk _ (Nat.mod_lt _ (by omega)), hmod]
    simp only [findPrevAux, hstep]
    simp
  | j + 1, k, hk => by
    have hkn : k < n - 1 := by omega
    have hfu : 1000 - k = (1000 - k - 1) + 1 := by omega
    have hmod : ((i0 + k) % n + 1) % n = (i0 + (k + 1)) % n := by
      rw [Nat.mod_add_mod]
      rfl
    have hstep : heNext m (base + (i0 + k) % n) = some (base + (i0 + (k + 1)) % n) := by
      rw [hblk _ (Nat.mod_lt _ (by omega)), hmod]
    have hne : base + (i0 + (k + 1)) % n ≠ base + i0 := by
      intro hc
      have h1 : (i0 + (k + 1)) % n = i0 % n := by
        rw [Nat.mod_eq_of_lt hi0]; omega
      have h2 : n ∣ i0 + (k + 1) - i0 := (Nat.modEq_iff_dvd' (by omega)).mp h1.symm
      rw [show i0 + (k + 1) - i0 = k + 1 from by omega] at h2
      have := Nat.le_of_dvd (by omega) h2
      omega
    rw [hfu]
    simp only [findPrevAux, hstep]
    rw [if_neg hne]
    have hrec := findPrevAux_cycle_aux m base n i0 h3 hcap hi0 hblk j (k + 1) (by omega)
    rw [show 1000 - k - 1 = 1000 - (k + 1) from by omega]
    exact hrec

theorem findPrevAux_cycle (m : HalfedgeMesh) (base n i0 : Nat)
    (h3 : 3 ≤ n) (hcap : n ≤ 1000) (hi0 : i0 < n)
    (hblk : ∀ i2, i2 < n → heNext m (base + i2) = some (base + (i2 + 1) % n)) :
    findPrevAux m (base + i0) 1000 (base + i0) 0
      = (base + (i0 + (n - 1)) % n, n - 1) := by
  have hmain := findPrevAux_cycle_aux m base n i0 h3 hcap hi0 hblk (n - 1) 0 (by omega)
  rw [show (i0 + 0) % n = i0 from by rw [Nat.add_zero, Nat.mod_eq_of_lt hi0]] at hmain
  exact hmain

theorem findPrevAux_cap_aux (m : HalfedgeMesh) (base n i0 : Nat)
    (hbig : 1001 ≤ n) (hi0 : i0 < n)
    (hblk : ∀ i2, i2 < n → heNext m (base + i2) = some (base + (i2 + 1) % n)) :
    ∀ j k, k + j = 1000 →
      (findPrevAux m (base + i0) (1000 - k) (base + (i0 + k) % n) k).2 = 1000
  | 0, k, hk => by
    have hkk : k = 1000 := by omega
    subst hkk
    rfl
  | j + 1, k, hk => by
    have hkn : k < 1000 := by omega
    have hfu : 1000 - k = (1000 - k - 1) + 1 := by omega
    have hmod : ((i0 + k) % n + 1) % n = (i0 + (k + 1)) % n := by
      rw [Nat.mod_add_mod]
      rfl
    have hstep : heNext m (base + (i0 + k) % n) = some (base + (i0 + (k + 1)) % n) := by
      rw [hblk _ (Nat.mod_lt _ (by omega)), hmod]
    have hne : base + (i0 + (k + 1)) % n ≠ base + i0 := by
      intro hc
      have h1 : (i0 + (k + 1)) % n = i0 % n := by
        rw [Nat.mod_eq_of_lt hi0]; omega
      have h2 : n ∣ i0 + (k + 1) - i0 := (Nat.modEq_iff_dvd' (by omega)).mp h1.symm
      rw [show i0 + (k + 1) - i0 = k + 1 from by omega] at h2
      have := Nat.le_of_dvd (by omega) h2
      omega
    rw [hfu]
    simp only [findPrevAux, hstep]
    rw [if_neg hne]
    have hrec := findPrevAux_cap_aux m base n i0 hbig hi0 hblk j (k + 1) (by omega)
    rw [show 1000 - k - 1 = 1000 - (k + 1) from by omega]
    exact hrec

theorem findPrevAux_cap (m : HalfedgeMesh) (base n i0 : Nat)
    (hbig : 1001 ≤ n) (hi0 : i0 < n)
    (hblk : ∀ i2, i2 < n → heNext m (base + i2) = some (base + (i2 + 1) % n)) :
    (findPrevAux m (base + i0) 1000 (base + i0) 0).2 = 1000 := by
  have hmain := findPrevAux_cap_aux m base n i0 hbig hi0 hblk 1000 0 (by omega)
  rw [show (i0 + 0) % n = i0 from by rw [Nat.add_zero, Nat.mod_eq_of_lt hi0]] at hmain
  exact hmain

theorem boundarySynth_stable_old (m : HalfedgeMesh) (h j : Nat)
    (hj : j < m.halfedges.length) :
    ((boundarySynth m h).halfedges[j]?).map stableOf
      = (m.halfedges[j]?).map stableOf := by
  unfold boundarySynth
  rw [bsFace_get_ne _ _ _ (by omega)]
  rw [bsFields_get_ne _ _ _ _ (by omega)]
  unfold bsTwins
  rw [modifyHE_get_map_stable _ h (setTwin m.halfedges.length)
    (fun he => stableOf_setTwin _ he) j]
  rw [modifyHE_get_map_stable _ m.halfedges.length (setTwin h)
    (fun he => stableOf_setTwin _ he) j]
  dsimp only
  rw [List.getElem?_append_left hj]

theorem heFace_of_get (m m' : HalfedgeMesh) (j : Nat)
    (h : m'.halfedges[j]? = m.halfedges[j]?) : heFace m' j = heFace m j := by
  unfold heFace
  rw [h]

theorem boundaryStep_BInv (HF : Nat) (em : EdgeMap) (mesh0 m : HalfedgeMesh)
    (S2 : (em.flatMap Prod.snd).Nodup) (S3 : ∀ e ∈ em, ∀ x ∈ e.2, x < HF)
    (ent : (Nat × Nat) × List Nat) (hent : ent ∈ em)
    (hI : BInv HF em mesh0 m) : BInv HF em mesh0 (boundaryStep m ent) := by
  unfold boundaryStep
  cases hl : ent.2 with
  | nil => exact hI
  | cons a t =>
    cases t with
    | cons b t2 => exact hI
    | nil =>
      have haHF : a < HF := S3 ent hent a (by rw [hl]; exact List.mem_cons_self _ _)
      refine ⟨?_, ?_, ?_, ?_⟩
      · rw [boundarySynth_hlen]
        have := hI.hlen
        omega
      · intro j hj
        rw [boundarySynth_stable_old m a j (by have := hI.hlen; omega)]
        exact hI.stable j hj
      · intro e he hh r2 rest t he2 hlast
        have hne : e ≠ ent := by
          intro hc
          rw [hc, hl] at he2
          injection he2 with h1 h2
          exact List.noConfusion h2
        have hcross := bind_nodup_cross em S2 e he ent hent hne
        have hhmem : hh ∈ e.2 := he2 ▸ List.mem_cons_self _ _
        have hha : hh ≠ a := fun hc =>
          hcross hh hhmem (by rw [hl]; exact hc ▸ List.mem_cons_self _ _)
        have hhlt : hh < HF := S3 e he hh hhmem
        rw [heTwin_of_get m _ hh
          (boundarySynth_get_old m a hh (by have := hI.hlen; omega) hha)]
        exact hI.twinHead e he hh r2 rest t he2 hlast
      · intro e he hh r2 rest he2 x hx
        have hne : e ≠ ent := by
          intro hc
          rw [hc, hl] at he2
          injection he2 with h1 h2
          exact List.noConfusion h2
        have hcross := bind_nodup_cross em S2 e he ent hent hne
        have hhmem : hh ∈ e.2 := he2 ▸ List.mem_cons_self _ _
        have hxmem : x ∈ e.2 := he2 ▸ List.mem_cons_of_mem _ hx
        have hha : hh ≠ a := fun hc =>
          hcross hh hhmem (by rw [hl]; exact hc ▸ List.mem_cons_self _ _)
        have hxa : x ≠ a := fun hc =>
          hcross x hxmem (by rw [hl]; exact hc ▸ List.mem_cons_self _ _)
        have hhlt : hh < HF := S3 e he hh hhmem
        have hxlt : x < HF := S3 e he x hxmem
        rw [heTwin_of_get m _ x
          (boundarySynth_get_old m a x (by have := hI.hlen; omega) hxa)]
        rw [heEdge_of_get m _ x
          (boundarySynth_get_old m a x (by have := hI.hlen; omega) hxa)]
        rw [heEdge_of_get m _ hh
          (boundarySynth_get_old m a hh (by have := hI.hlen; omega) hha)]
        exact hI.twinRest e he hh r2 rest he2 x hx

theorem boundaryStep_LoneDone (HF : Nat) (em : EdgeMap) (mesh0 m : HalfedgeMesh)
    (S3 : ∀ e ∈ em, ∀ x ∈ e.2, x < HF)
    (hsome0 : ∀ j, j < HF → ∃ he, mesh0.halfedges[j]? = some he)
    (ent : (Nat × Nat) × List Nat) (hent : ent ∈ em)
    (hI : BInv HF em mesh0 m)
    (h : Nat) (hl : ent.2 = [h]) :
    LoneDone HF h (boundaryStep m ent) := by
  have hIlen := hI.hlen
  have hhHF : h < HF := S3 ent hent h (by rw [hl]; exact List.mem_cons_self _ _)
  have hhm : h < m.halfedges.length := lt_of_lt_of_le hhHF hI.hlen
  obtain ⟨he0, hhe0⟩ := hsome0 h hhHF
  obtain ⟨heH, hheH⟩ := some_of_stable mesh0 m h he0 (hI.stable h hhHF) hhe0
  have hstep : boundaryStep m ent = boundarySynth m h := by
    unfold boundaryStep
    rw [hl]
  rw [hstep]
  have hvbsrc : heVertex (boundarySynth m h) m.halfedges.length
      = bsSrcV (bsTwins m m.halfedges.length h) h := by
    unfold heVertex
    rw [boundarySynth_get_hb m h hhm]
    rfl
  refine ⟨m.halfedges.length, hI.hlen, ?_, ?_, ?_, ?_, ?_, ?_, ?_, ?_⟩
  · rw [boundarySynth_hlen]
    omega
  · unfold heTwin
    rw [boundarySynth_get_h m h heH hheH hhm]
    rfl
  · unfold heTwin
    rw [boundarySynth_get_hb m h hhm]
    rfl
  · unfold heNext
    rw [boundarySynth_get_hb m h hhm]
    rfl
  · have e1 : heEdge (boundarySynth m h) m.halfedges.length = heEdge m h := by
      unfold heEdge
      rw [boundarySynth_get_hb m h hhm]
      rfl
    have e2 : heEdge (boundarySynth m h) h = heEdge m h :=
      heEdge_of_stable _ _ _ (boundarySynth_stable_old m h h hhm)
    rw [e1, e2]
  · refine ⟨m.faces.length, ?_, ?_, ?_⟩
    · unfold heFace
      rw [boundarySynth_get_hb m h hhm]
      rfl
    · rw [boundarySynth_faces, List.length_append]
      simp
    · rw [boundarySynth_faces]
      rw [List.getElem?_append_right (le_refl _)]
      simp
  · intro base n h3 hcap hbHF hbh hhn hblk
    have hblkm : ∀ i2, i2 < n → heNext m (base + i2) = some (base + (i2 + 1) % n) := by
      intro i2 hi2
      have hx := hblk i2 hi2
      rw [heNext_of_stable m (boundarySynth m h) (base + i2)
        (boundarySynth_stable_old m h (base + i2) (by omega))] at hx
      exact hx
    have hblk3 : ∀ i2, i2 < n →
        heNext (bsTwins m m.halfedges.length h) (base + i2) = some (base + (i2 + 1) % n) := by
      intro i2 hi2
      rw [bsTwins_heNext m _ h (base + i2) (by omega)]
      exact hblkm i2 hi2
    have hh_eq : base + (h - base) = h := by omega
    have hwalk := findPrevAux_cycle (bsTwins m m.halfedges.length h) base n (h - base) h3 hcap
      (by omega) hblk3
    rw [hh_eq] at hwalk
    have hmlt : ((h - base) + (n - 1)) % n < n := Nat.mod_lt _ (by omega)
    have hplt : base + ((h - base) + (n - 1)) % n < HF := by omega
    refine ⟨base + ((h - base) + (n - 1)) % n, hplt, ?_, ?_⟩
    · rw [heNext_of_stable m _ _ (boundarySynth_stable_old m h _ (by omega))]
      rw [hblkm _ hmlt]
      have hmod : (((h - base) + (n - 1)) % n + 1) % n = h - base := by
        rw [Nat.mod_add_mod]
        rw [show (h - base) + (n - 1) + 1 = (h - base) + n from by omega]
        rw [Nat.add_mod_right]
        exact Nat.mod_eq_of_lt (by omega)
      rw [hmod, hh_eq]
    · rw [hvbsrc]
      unfold bsSrcV
      rw [hwalk]
      rw [if_neg (by omega)]
      dsimp only
      rw [bsTwins_heVertex m _ h _ (by omega)]
      rw [heVertex_of_stable m (boundarySynth m h) _
        (boundarySynth_stable_old m h _ (by omega))]
  · intro base n hbig hbHF hbh hhn hblk
    have hblkm : ∀ i2, i2 < n → heNext m (base + i2) = some (base + (i2 + 1) % n) := by
      intro i2 hi2
      have hx := hblk i2 hi2
      rw [heNext_of_stable m (boundarySynth m h) (base + i2)
        (boundarySynth_stable_old m h (base + i2) (by omega))] at hx
      exact hx
    have hblk3 : ∀ i2, i2 < n →
        heNext (bsTwins m m.halfedges.length h) (base + i2) = some (base + (i2 + 1) % n) := by
      intro i2 hi2
      rw [bsTwins_heNext m _ h (base + i2) (by omega)]
      exact hblkm i2 hi2
    have hh_eq : base + (h - base) = h := by omega
    have hwalk := findPrevAux_cap (bsTwins m m.halfedges.length h) base n (h - base) hbig
      (by omega) hblk3
    rw [hh_eq] at hwalk
    rw [hvbsrc]
    unfold bsSrcV
    rw [hwalk]
    rw [if_pos (le_refl _)]
    rw [bsTwins_heVertex m _ h h hhm]
    rw [heVertex_of_stable m (boundarySynth m h) h (boundarySynth_stable_old m h h hhm)]

theorem boundaryStep_keep (HF : Nat) (em : EdgeMap) (mesh0 m : HalfedgeMesh)
    (S2 : (em.flatMap Prod.snd).Nodup) (S3 : ∀ e ∈ em, ∀ x ∈ e.2, x < HF)
    (a a2 : (Nat × Nat) × List Nat) (ha : a ∈ em) (ha2 : a2 ∈ em) (hne : a ≠ a2)
    (hI : BInv HF em mesh0 m)
    (h : Nat) (hl : a.2 = [h]) (hld : LoneDone HF h m) :
    LoneDone HF h (boundaryStep m a2) := by
  have hIlen := hI.hlen
  unfold boundaryStep
  cases hl2 : a2.2 with
  | nil => exact hld
  | cons b t =>
    cases t with
    | cons c t2 => exact hld
    | nil =>
      have hbHF : b < HF := S3 a2 ha2 b (by rw [hl2]; exact List.mem_cons_self _ _)
      have hcross := bind_nodup_cross em S2 a ha a2 ha2 hne
      have hhb : h ≠ b := fun hc =>
        hcross h (by rw [hl]; exact List.mem_cons_self _ _)
          (by rw [hl2]; exact hc ▸ List.mem_cons_self _ _)
      have hhHF : h < HF := S3 a ha h (by rw [hl]; exact List.mem_cons_self _ _)
      obtain ⟨hb, hbge, hbm, ht1, ht2, hn1, he1, ⟨fb, hf1, hf2, hf3⟩, hcap, hfall⟩ := hld
      have hpresh : (boundarySynth m b).halfedges[h]? = m.halfedges[h]? :=
        boundarySynth_get_old m b h (by omega) hhb
      have hpreshb : (boundarySynth m b).halfedges[hb]? = m.halfedges[hb]? :=
        boundarySynth_get_old m b hb hbm (by omega)
      refine ⟨hb, hbge, ?_, ?_, ?_, ?_, ?_, ?_, ?_, ?_⟩
      · rw [boundarySynth_hlen]
        omega
      · rw [heTwin_of_get m _ h hpresh]
        exact ht1
      · rw [heTwin_of_get m _ hb hpreshb]
        exact ht2
      · rw [heNext_of_get m _ hb hpreshb]
        exact hn1
      · rw [heEdge_of_get m _ hb hpreshb, heEdge_of_get m _ h hpresh]
        exact he1
      · refine ⟨fb, ?_, ?_, ?_⟩
        · rw [heFace_of_get m _ hb hpreshb]
          exact hf1
        · rw [boundarySynth_faces, List.length_append]
          omega
        · rw [boundarySynth_faces, List.getElem?_append_left hf2]
          exact hf3
      · intro base n h3 hcapn hbHF3 hbh3 hhn3 hblk
        have hblkm : ∀ i2, i2 < n → heNext m (base + i2) = some (base + (i2 + 1) % n) := by
          intro i2 hi2
          have hx := hblk i2 hi2
          rw [heNext_of_stable m (boundarySynth m b) (base + i2)
            (boundarySynth_stable_old m b (base + i2) (by omega))] at hx
          exact hx
        obtain ⟨p, hpHF, hpn, hpv⟩ := hcap base n h3 hcapn hbHF3 hbh3 hhn3 hblkm
        refine ⟨p, hpHF, ?_, ?_⟩
        · rw [heNext_of_stable m _ p (boundarySynth_stable_old m b p (by omega))]
          exact hpn
        · rw [heVertex_of_get m _ hb hpreshb]
          rw [heVertex_of_stable m _ p (boundarySynth_stable_old m b p (by omega))]
          exact hpv
      · intro base n hbig hbHF3 hbh3 hhn3 hblk
        have hblkm : ∀ i2, i2 < n → heNext m (base + i2) = some (base + (i2 + 1) % n) := by
          intro i2 hi2
          have hx := hblk i2 hi2
          rw [heNext_of_stable m (boundarySynth m b) (base + i2)
            (boundarySynth_stable_old m b (base + i2) (by omega))] at hx
          exact hx
        have hres := hfall base n hbig hbHF3 hbh3 hhn3 hblkm
        rw [heVertex_of_get m _ hb hpreshb, heVertex_of_get m _ h hpresh]
        exact hres

theorem boundary_master (HF : Nat) (em : EdgeMap) (mesh0 : HalfedgeMesh)
    (S1 : (em.map Prod.fst).Nodup) (S2 : (em.flatMap Prod.snd).Nodup)
    (S3 : ∀ e ∈ em, ∀ x ∈ e.2, x < HF)
    (hsome0 : ∀ j, j < HF → ∃ he, mesh0.halfedges[j]? = some he)
    (h0 : BInv HF em mesh0 mesh0) :
    BInv HF em mesh0 (em.foldl boundaryStep mesh0) ∧
    ∀ e ∈ em, ∀ h, e.2 = [h] → LoneDone HF h (em.foldl boundaryStep mesh0) := by
  have hnd : em.Nodup := S1.of_map
  constructor
  · exact foldl_inv (BInv HF em mesh0) boundaryStep em mesh0
      (fun b a ha hb => boundaryStep_BInv HF em mesh0 b S2 S3 a ha hb) h0
  · intro e he h hl
    exact foldl_process (BInv HF em mesh0)
      (fun (a : (Nat × Nat) × List Nat) (m : HalfedgeMesh) =>
        ∀ h2, a.2 = [h2] → LoneDone HF h2 m) boundaryStep em hnd
      (fun b a ha hb => boundaryStep_BInv HF em mesh0 b S2 S3 a ha hb)
      (fun b a ha hb h2 hl2 => boundaryStep_LoneDone HF em mesh0 b S3 hsome0 a ha hb h2 hl2)
      (fun b a a' ha ha' hne hb hr h2 hl2 =>
        boundaryStep_keep HF em mesh0 b S2 S3 a a' ha ha' hne hb h2 hl2 (hr h2 hl2))
      mesh0 h0 e he h hl

/-- C1 (amended): when the Connectivity Builder runs on a face list whose
faces each have at least 3 vertices and in which every unordered edge key
occurs at most twice (every dictionary list has length ≤ 2), every halfedge
created by the face loop — indices below the face-phase halfedge count, i.e.
the non-boundary halfedges — has a twin `t` with `t.twin` pointing back at it
and `t.edge` equal to its own edge. -/
theorem c1_twin_involution (vs : List Vertex) (fs : List (List Nat))
    (hman : ((fs.foldl processFace ⟨initMesh vs, []⟩).edgeMap.all
      (fun e => e.2.length ≤ 2)) = true)
    (j : Nat) (hj : j < (fs.foldl processFace ⟨initMesh vs, []⟩).mesh.halfedges.length) :
    ∃ t, heTwin (buildHalfedgeConnectivity (initMesh vs) fs) j = some t ∧
      heTwin (buildHalfedgeConnectivity (initMesh vs) fs) t = some j ∧
      heEdge (buildHalfedgeConnectivity (initMesh vs) fs) t
        = heEdge (buildHalfedgeConnectivity (initMesh vs) fs) j := by
  have hF := facePhase_FPInv vs fs
  have hmaster := boundary_master
    (fs.foldl processFace ⟨initMesh vs, []⟩).mesh.halfedges.length
    (fs.foldl processFace ⟨initMesh vs, []⟩).edgeMap
    (fs.foldl processFace ⟨initMesh vs, []⟩).mesh
    hF.keysNodup hF.valsNodup hF.bounds (fun j2 hj2 => hF.someInv j2 hj2)
    ⟨le_refl _, fun _ _ => rfl,
     fun e he hh r2 rest t he2 hlast => hF.twinHead e he hh (r2 :: rest) t he2 hlast,
     fun e he hh r2 rest he2 x hx => hF.twinRest e he hh (r2 :: rest) he2 x hx⟩
  rw [show buildHalfedgeConnectivity (initMesh vs) fs
      = (fs.foldl processFace ⟨initMesh vs, []⟩).edgeMap.foldl boundaryStep
        (fs.foldl processFace ⟨initMesh vs, []⟩).mesh from rfl]
  obtain ⟨e, he, hje⟩ := hF.coverage j hj
  have hlen2 : e.2.length ≤ 2 := by
    have := List.all_eq_true.mp hman e he
    exact of_decide_eq_true this
  cases he2 : e.2 with
  | nil =>
    rw [he2] at hje
    exact absurd hje (List.not_mem_nil j)
  | cons h1 t1 =>
    cases t1 with
    | nil =>
      rw [he2] at hje
      have hj1 : j = h1 := by simpa using hje
      subst hj1
      obtain ⟨hb, _, _, ht1, ht2, _, he1, _, _, _⟩ := hmaster.2 e he j he2
      exact ⟨hb, ht1, ht2, he1⟩
    | cons h2 t2 =>
      cases t2 with
      | nil =>
        rw [he2] at hje
        have hth := hmaster.1.twinHead e he h1 h2 [] h2 he2 rfl
        have htr := hmaster.1.twinRest e he h1 h2 [] he2 h2 (List.mem_singleton.mpr rfl)
        rcases (by simpa using hje : j = h1 ∨ j = h2) with hj1 | hj2
        · subst hj1
          exact ⟨h2, hth, htr.1, htr.2⟩
        · subst hj2
          exact ⟨h1, htr.1, hth, htr.2.symm⟩
      | cons h3 t3 =>
        rw [he2] at hlen2
        simp at hlen2

theorem c1_witness :
    (([[0, 1, 2], [0, 3, 1], [0, 2, 3], [1, 3, 2]] : List (List Nat)).foldl processFace
      ⟨initMesh (List.replicate 4 default), []⟩).edgeMap.all
        (fun e => e.2.length ≤ 2) = true ∧
    0 < (([[0, 1, 2], [0, 3, 1], [0, 2, 3], [1, 3, 2]] : List (List Nat)).foldl processFace
      ⟨initMesh (List.replicate 4 default), []⟩).mesh.halfedges.length ∧
    ∃ t, heTwin (buildHalfedgeConnectivity (initMesh (List.replicate 4 default))
        [[0, 1, 2], [0, 3, 1], [0, 2, 3], [1, 3, 2]]) 0 = some t ∧
      heTwin (buildHalfedgeConnectivity (initMesh (List.replicate 4 default))
        [[0, 1, 2], [0, 3, 1], [0, 2, 3], [1, 3, 2]]) t = some 0 ∧
      heEdge (buildHalfedgeConnectivity (initMesh (List.replicate 4 default))
        [[0, 1, 2], [0, 3, 1], [0, 2, 3], [1, 3, 2]]) t
        = heEdge (buildHalfedgeConnectivity (initMesh (List.replicate 4 default))
          [[0, 1, 2], [0, 3, 1], [0, 2, 3], [1, 3, 2]]) 0 :=
  ⟨by decide, by decide,
   c1_twin_involution (List.replicate 4 default) [[0, 1, 2], [0, 3, 1], [0, 2, 3], [1, 3, 2]]
     (by decide) 0 (by decide)⟩

/-- C2 (amended): for every edge key recorded exactly once by the face loop
(a dictionary entry holding a single halfedge `h`), provided every input face
has at most 1000 vertices, the boundary loop synthesizes a halfedge `hb` that
is `h`'s twin (both directions), whose `next` is itself, whose `edge` is `h`'s
edge, whose face is a fresh boundary `Face` with no incident-halfedge
reference, and whose target vertex is the source vertex of `h` — the vertex
of the halfedge `p` whose `next` is `h`. -/
theorem c2_boundary_synthesis (vs : List Vertex) (fs : List (List Nat))
    (hcap : fs.all (fun fv => fv.length ≤ 1000) = true)
    (k : Nat × Nat) (h : Nat)
    (hlone : (k, [h]) ∈ (fs.foldl processFace ⟨initMesh vs, []⟩).edgeMap) :
    ∃ hb, heTwin (buildHalfedgeConnectivity (initMesh vs) fs) h = some hb ∧
      heTwin (buildHalfedgeConnectivity (initMesh vs) fs) hb = some h ∧
      heNext (buildHalfedgeConnectivity (initMesh vs) fs) hb = some hb ∧
      heEdge (buildHalfedgeConnectivity (initMesh vs) fs) hb
        = heEdge (buildHalfedgeConnectivity (initMesh vs) fs) h ∧
      (∃ fb, heFace (buildHalfedgeConnectivity (initMesh vs) fs) hb = some fb ∧
        (buildHalfedgeConnectivity (initMesh vs) fs).faces[fb]?
          = some ⟨none, true, false⟩) ∧
      (∃ p, heNext (buildHalfedgeConnectivity (initMesh vs) fs) p = some h ∧
        heVertex (buildHalfedgeConnectivity (initMesh vs) fs) hb
          = heVertex (buildHalfedgeConnectivity (initMesh vs) fs) p) := by
  have hF := facePhase_FPInv vs fs
  have hmaster := boundary_master
    (fs.foldl processFace ⟨initMesh vs, []⟩).mesh.halfedges.length
    (fs.foldl processFace ⟨initMesh vs, []⟩).edgeMap
    (fs.foldl processFace ⟨initMesh vs, []⟩).mesh
    hF.keysNodup hF.valsNodup hF.bounds (fun j2 hj2 => hF.someInv j2 hj2)
    ⟨le_refl _, fun _ _ => rfl,
     fun e he hh r2 rest t he2 hlast => hF.twinHead e he hh (r2 :: rest) t he2 hlast,
     fun e he hh r2 rest he2 x hx => hF.twinRest e he hh (r2 :: rest) he2 x hx⟩
  rw [show buildHalfedgeConnectivity (initMesh vs) fs
      = (fs.foldl processFace ⟨initMesh vs, []⟩).edgeMap.foldl boundaryStep
        (fs.foldl processFace ⟨initMesh vs, []⟩).mesh from rfl]
  have hhHF : h < (fs.foldl processFace ⟨initMesh vs, []⟩).mesh.halfedges.length :=
    hF.bounds (k, [h]) hlone h (List.mem_cons_self _ _)
  obtain ⟨hb, hbge, hbm, ht1, ht2, hn1, he1, ⟨fb, hfc1, hfc2, hfc3⟩, hcapC, _⟩ :=
    hmaster.2 (k, [h]) hlone h rfl
  obtain ⟨base, n, h3, hnmem, hbn, hbh, hhn, hcyc⟩ := hF.blocks h hhHF
  have hncap : n ≤ 1000 := by
    rcases List.mem_map.mp hnmem with ⟨fv, hfv, hfvn⟩
    have := List.all_eq_true.mp hcap fv hfv
    have := of_decide_eq_true this
    omega
  have hblkM : ∀ i2, i2 < n →
      heNext ((fs.foldl processFace ⟨initMesh vs, []⟩).edgeMap.foldl boundaryStep
          (fs.foldl processFace ⟨initMesh vs, []⟩).mesh) (base + i2)
        = some (base + (i2 + 1) % n) := by
    intro i2 hi2
    rw [heNext_of_stable _ _ _ (hmaster.1.stable (base + i2) (by omega))]
    exact hcyc i2 hi2
  obtain ⟨p, hpHF, hpn, hpv⟩ := hcapC base n h3 hncap hbn hbh hhn hblkM
  exact ⟨hb, ht1, ht2, hn1, he1, ⟨fb, hfc1, hfc3⟩, ⟨p, hpn, hpv⟩⟩

theorem c2_witness :
    ([[0, 1, 2]] : List (List Nat)).all (fun fv => fv.length ≤ 1000) = true ∧
    ((0, 1), [0]) ∈ (([[0, 1, 2]] : List (List Nat)).foldl processFace
      ⟨initMesh (List.replicate 3 default), []⟩).edgeMap ∧
    ∃ hb, heTwin triMesh 0 = some hb ∧ heTwin triMesh hb = some 0 ∧
      heNext triMesh hb = some hb ∧ heEdge triMesh hb = heEdge triMesh 0 ∧
      (∃ fb, heFace triMesh hb = some fb ∧
        triMesh.faces[fb]? = some ⟨none, true, false⟩) ∧
      (∃ p, heNext triMesh p = some 0 ∧ heVertex triMesh hb = heVertex triMesh p) :=
  ⟨by decide, by decide,
   c2_boundary_synthesis (List.replicate 3 default) [[0, 1, 2]] (by decide) (0, 1) 0
     (by decide)⟩

/-! ### The single `n`-gon face: exact characterization -/

theorem getD_range (n j : Nat) (hj : j < n) : (List.range n).getD j 0 = j := by
  simp [List.getD, List.getElem?_range hj]

theorem keyOf_inj (n j1 j2 : Nat) (h3 : 3 ≤ n) (hj1 : j1 < n) (hj2 : j2 < n)
    (h : keyOf n j1 = keyOf n j2) : j1 = j2 := by
  unfold keyOf edgeKey at h
  by_cases c1 : j1 + 1 < n
  · rw [Nat.mod_eq_of_lt c1] at h
    by_cases c2 : j2 + 1 < n
    · rw [Nat.mod_eq_of_lt c2] at h
      have h1 := congrArg Prod.fst h
      have h2 := congrArg Prod.snd h
      dsimp only at h1 h2
      omega
    · rw [show j2 + 1 = n from by omega, Nat.mod_self] at h
      have h1 := congrArg Prod.fst h
      have h2 := congrArg Prod.snd h
      dsimp only at h1 h2
      omega
  · rw [show j1 + 1 = n from by omega, Nat.mod_self] at h
    by_cases c2 : j2 + 1 < n
    · rw [Nat.mod_eq_of_lt c2] at h
      have h1 := congrArg Prod.fst h
      have h2 := congrArg Prod.snd h
      dsimp only at h1 h2
      omega
    · omega

theorem ngon_step (nn i : Nat) (h3nn : 3 ≤ nn) (hin : i < nn)
    (s : BuildState) (hN : NGonInv nn i s) :
    NGonInv nn (i + 1) (connStep (List.range nn) 0 0 nn s i) := by
  have hg1 : (List.range nn).getD i 0 = i := getD_range nn i hin
  have hg2 : (List.range nn).getD ((i + 1) % nn) 0 = (i + 1) % nn :=
    getD_range nn _ (Nat.mod_lt _ (by omega))
  have hlk : emLookup s.edgeMap
      (edgeKey ((List.range nn).getD i 0) ((List.range nn).getD ((i + 1) % nn) 0))
      = none := by
    rw [hg1, hg2, hN.em]
    apply emLookup_notMem_none
    intro hc
    rw [List.map_map] at hc
    rcases List.mem_map.mp hc with ⟨j, hjr, hkj⟩
    have hji : j = i := keyOf_inj nn j i h3nn
      (lt_of_lt_of_le (List.mem_range.mp hjr) (by omega)) hin hkj
    have := List.mem_range.mp hjr
    omega
  have hoth0 : ∀ j : Nat, ∀ o2 r2,
      emLookup s.edgeMap
        (edgeKey ((List.range nn).getD i 0) ((List.range nn).getD ((i + 1) % nn) 0))
        = some (o2 :: r2) → j ≠ o2 := by
    intro j o2 r2 hl2
    rw [hlk] at hl2
    exact Option.noConfusion hl2
  have hself := connStep_self_new (List.range nn) 0 0 nn s i default
    (by rw [Nat.zero_add]; exact hN.hfresh i (le_refl i) hin) hlk
  simp only [Nat.zero_add] at hself
  rw [hg2, hN.elen] at hself
  refine ⟨?_, ?_, ?_, ?_, ?_⟩
  · rw [connStep_map_new _ _ _ _ _ _ hlk, hN.em, hg1, hg2]
    rw [List.range_succ, List.map_append]
    simp [keyOf]
  · rw [connStep_hlen]
    exact hN.hlen
  · intro j hj
    by_cases hji : j < i
    · rw [connStep_get_ne _ _ _ _ _ _ j (by omega) (hoth0 j)]
      exact hN.hdone j hji
    · have hje : j = i := by omega
      rw [hje]
      exact hself
  · intro j h1 h2
    rw [connStep_get_ne _ _ _ _ _ _ j (by omega) (hoth0 j)]
    exact hN.hfresh j (by omega) h2
  · rw [connStep_edges_new _ _ _ _ _ _ hlk, List.length_append, hN.elen]
    rfl

theorem ngon_loop (vs : List Vertex) (nn : Nat) (h3nn : 3 ≤ nn) :
    ∀ i, i ≤ nn → NGonInv nn i
      ((List.range i).foldl (connStep (List.range nn) 0 0 nn)
        ⟨pfM2 ⟨initMesh vs, []⟩ (List.range nn), []⟩)
  | 0, _ => by
    rw [List.range_zero, List.foldl_nil]
    refine ⟨rfl, ?_, ?_, ?_, ?_⟩
    · show (pfM2 ⟨initMesh vs, []⟩ (List.range nn)).halfedges.length = nn
      unfold pfM2
      dsimp only
      simp [initMesh]
    · intro j hj
      omega
    · intro j h1 h2
      show (pfM2 ⟨initMesh vs, []⟩ (List.range nn)).halfedges[j]? = some default
      unfold pfM2
      dsimp only
      rw [show (⟨initMesh vs, []⟩ : BuildState).mesh.halfedges = ([] : List Halfedge)
        from rfl]
      rw [List.nil_append]
      exact replicate_getElem? _ j default (by rw [List.length_range]; exact h2)
    · rfl
  | i + 1, hi => by
    rw [List.range_succ, List.foldl_append]
    exact ngon_step nn i h3nn (by omega)
      _ (ngon_loop vs nn h3nn i (by omega))

theorem ngon_faceSt (vs : List Vertex) (nn : Nat) (h3nn : 3 ≤ nn) :
    ([List.range nn].foldl processFace ⟨initMesh vs, []⟩).edgeMap
      = (List.range nn).map (fun j => (keyOf nn j, [j])) ∧
    ([List.range nn].foldl processFace ⟨initMesh vs, []⟩).mesh.halfedges.length = nn ∧
    ∀ j, j < nn → ([List.range nn].foldl processFace ⟨initMesh vs, []⟩).mesh.halfedges[j]?
      = some ⟨some ((j + 1) % nn), none, some ((j + 1) % nn), some j, some 0⟩ := by
  have hne3 : ¬ (List.range nn).length < 3 := by
    rw [List.length_range]
    omega
  have hfold : [List.range nn].foldl processFace ⟨initMesh vs, []⟩
      = processFace ⟨initMesh vs, []⟩ (List.range nn) := rfl
  have hN : NGonInv nn nn (pfLoop ⟨initMesh vs, []⟩ (List.range nn)) := by
    have hmain := ngon_loop vs nn h3nn nn (le_refl nn)
    rw [pfLoop_def]
    rw [show (⟨initMesh vs, []⟩ : BuildState).mesh.faces.length = 0 from rfl]
    rw [show (⟨initMesh vs, []⟩ : BuildState).mesh.halfedges.length = 0 from rfl]
    rw [show (List.range nn).length = nn from List.length_range nn]
    exact hmain
  rw [hfold, processFace_eq _ _ hne3]
  refine ⟨?_, ?_, ?_⟩
  · rw [pfSetFace_edgeMap]
    exact hN.em
  · rw [pfSetFace_halfedges]
    exact hN.hlen
  · intro j hj
    rw [pfSetFace_halfedges]
    exact hN.hdone j hj

theorem c2_counterexample :
    (heTwin ngonMesh 0).bind (fun hb => heNext ngonMesh hb) = heTwin ngonMesh 0 ∧
    (heTwin ngonMesh 0).bind (fun hb => heVertex ngonMesh hb) = some 1 ∧
    heNext ngonMesh 1000 = some 0 ∧
    heVertex ngonMesh 1000 = some 0 ∧
    (1 : Nat) ≠ 0 := by
  have hchar := ngon_faceSt (List.replicate 1001 default) 1001 (by omega)
  have hF := facePhase_FPInv (List.replicate 1001 default) [List.range 1001]
  have hmaster := boundary_master
    (([List.range 1001].foldl processFace
      ⟨initMesh (List.replicate 1001 default), []⟩).mesh.halfedges.length)
    (([List.range 1001].foldl processFace
      ⟨initMesh (List.replicate 1001 default), []⟩).edgeMap)
    (([List.range 1001].foldl processFace
      ⟨initMesh (List.replicate 1001 default), []⟩).mesh)
    hF.keysNodup hF.valsNodup hF.bounds (fun j2 hj2 => hF.someInv j2 hj2)
    ⟨le_refl _, fun _ _ => rfl,
     fun e he hh r2 rest t he2 hlast => hF.twinHead e he hh (r2 :: rest) t he2 hlast,
     fun e he hh r2 rest he2 x hx => hF.twinRest e he hh (r2 :: rest) he2 x hx⟩
  have hmm : ngonMesh = ([List.range 1001].foldl processFace
      ⟨initMesh (List.replicate 1001 default), []⟩).edgeMap.foldl boundaryStep
      ([List.range 1001].foldl processFace
        ⟨initMesh (List.replicate 1001 default), []⟩).mesh := rfl
  have hlone : (keyOf 1001 0, [0]) ∈ ([List.range 1001].foldl processFace
      ⟨initMesh (List.replicate 1001 default), []⟩).edgeMap := by
    rw [hchar.1]
    exact List.mem_map.mpr ⟨0, List.mem_range.mpr (by omega), rfl⟩
  obtain ⟨hb, hbge, hbm, ht1, ht2, hn1, he1, hface, hcapC, hfallC⟩ :=
    hmaster.2 (keyOf 1001 0, [0]) hlone 0 rfl
  have hHF := hchar.2.1
  have hstable := hmaster.1.stable
  have hNextM : ∀ j, j < 1001 → heNext (([List.range 1001].foldl processFace
      ⟨initMesh (List.replicate 1001 default), []⟩).edgeMap.foldl boundaryStep
      ([List.range 1001].foldl processFace
        ⟨initMesh (List.replicate 1001 default), []⟩).mesh) j = some ((j + 1) % 1001) := by
    intro j hj
    rw [heNext_of_stable _ _ _ (hstable j (by omega))]
    unfold heNext
    rw [hchar.2.2 j hj]
    rfl
  have hVertM : ∀ j, j < 1001 → heVertex (([List.range 1001].foldl processFace
      ⟨initMesh (List.replicate 1001 default), []⟩).edgeMap.foldl boundaryStep
      ([List.range 1001].foldl processFace
        ⟨initMesh (List.replicate 1001 default), []⟩).mesh) j = some ((j + 1) % 1001) := by
    intro j hj
    rw [heVertex_of_stable _ _ _ (hstable j (by omega))]
    unfold heVertex
    rw [hchar.2.2 j hj]
    rfl
  have hfall := hfallC 0 1001 (by omega) (by omega) (by omega) (by omega)
    (by
      intro i2 hi2
      rw [Nat.zero_add, Nat.zero_add]
      exact hNextM i2 hi2)
  rw [hmm]
  refine ⟨?_, ?_, ?_, ?_, by omega⟩
  · rw [ht1, Option.some_bind]
    exact hn1
  · rw [ht1, Option.some_bind]
    have hv := hfall
    rw [hVertM 0 (by omega)] at hv
    exact hv
  · rw [hNextM 1000 (by omega)]
  · rw [hVertM 1000 (by omega)]
